import Mathlib

/-!
# Configuration compilation of the gateway (`config/config.go`)

A shallow embedding of `ServiceConfig.Init` and of the helpers it calls, with
the properties of the compiled configuration proved about that embedding.

Modelling conventions.

* A Go `string` is read as the sequence of its Unicode code points
  (`Str = List Char`); the configuration strings are taken to be valid UTF-8.
* `int` and `time.Duration` values are integers (`Int`); the code performs no
  arithmetic on them, so no overflow can occur.
* The configuration is a tree of values: the pointers held in
  `ServiceConfig.Endpoints` and `EndpointConfig.Backend` are taken to be
  pairwise distinct, as they are when the configuration is decoded from a file.
* `panic(errInvalidHost)` is the outcome `none` / `Outcome.panicked`.
* The regular expressions are run by a backtracking matcher with Go's
  leftmost-first preference order; each pattern is transcribed from its source
  text.
-/

namespace Config

/-- A Go string as the list of its code points. -/
abbrev Str := List Char

/-! ## Regular expressions -/

/-- The fragment of Go `regexp/syntax` the patterns of `config.go` are written in. -/
inductive Re where
  /-- The empty expression. -/
  | eps
  /-- One character of a class (a literal is a one-element class). -/
  | chr (p : Char → Bool)
  /-- Concatenation. -/
  | cat (a b : Re)
  /-- Alternation `a|b`, preferring `a`. -/
  | alt (a b : Re)
  /-- Greedy option `a?`. -/
  | opt (a : Re)
  /-- Greedy repetition of a character class: `x{lo,hi}`, `x+` (`lo = 1`, no
  `hi`), `x*` (`lo = 0`, no `hi`). -/
  | rep (p : Char → Bool) (lo : Nat) (hi : Option Nat)
  /-- Capturing group number `i`. -/
  | grp (i : Nat) (a : Re)
  /-- Beginning of text `^`. -/
  | bot
  /-- End of text `$`. -/
  | eot

/-- One way of matching at a position: the text consumed, the text captured by
each group (empty for a group that did not take part) and the text left. -/
structure Hit where
  text : Str
  caps : Nat → Str
  rest : Str

/-- Captures before any group has matched. -/
def noCaps : Nat → Str := fun _ => []

/-- Record the text of group `i`. -/
def setCap (caps : Nat → Str) (i : Nat) (v : Str) : Nat → Str :=
  fun j => if j = i then v else caps j

/-- All ways of matching `x{lo,hi}` at the head of a text, longest first:
pairs of the text consumed and the text left. -/
def Re.repRun (p : Char → Bool) : Nat → Option Nat → Str → List (Str × Str)
  | lo, _, [] => if lo = 0 then [([], [])] else []
  | lo, hi, c :: s =>
    (if p c && hi != some 0 then
      (Re.repRun p (lo - 1) (hi.map Nat.pred) s).map (fun mr => (c :: mr.1, mr.2))
    else []) ++ (if lo = 0 then [([], c :: s)] else [])

/-- All ways of matching an expression at the head of `s`, in the order a
backtracking (leftmost-first) matcher tries them. `total` is the length of the
whole text, so that `s.length = total` holds exactly at the beginning of text. -/
def Re.run (total : Nat) : Re → Str → (Nat → Str) → List Hit
  | .eps, s, caps => [⟨[], caps, s⟩]
  | .chr p, s, caps =>
    match s with
    | c :: s1 => if p c then [⟨[c], caps, s1⟩] else []
    | [] => []
  | .cat a b, s, caps =>
    (Re.run total a s caps).flatMap fun h1 =>
      (Re.run total b h1.rest h1.caps).map fun h2 => ⟨h1.text ++ h2.text, h2.caps, h2.rest⟩
  | .alt a b, s, caps => Re.run total a s caps ++ Re.run total b s caps
  | .opt a, s, caps => Re.run total a s caps ++ [⟨[], caps, s⟩]
  | .rep p lo hi, s, caps => (Re.repRun p lo hi s).map fun mr => ⟨mr.1, caps, mr.2⟩
  | .grp i a, s, caps =>
    (Re.run total a s caps).map fun h => ⟨h.text, setCap h.caps i h.text, h.rest⟩
  | .bot, s, caps => if s.length = total then [⟨[], caps, s⟩] else []
  | .eot, s, caps => if s.isEmpty then [⟨[], caps, s⟩] else []

/-- The match the matcher reports at the head of `s`, if any: the first way. -/
def Re.matchAt (re : Re) (total : Nat) (s : Str) : Option Hit :=
  (Re.run total re s noCaps).head?

/-- Number of capturing groups of an expression (`Regexp.NumSubexp`). -/
def Re.numGroups : Re → Nat
  | .cat a b => max a.numGroups b.numGroups
  | .alt a b => max a.numGroups b.numGroups
  | .opt a => a.numGroups
  | .grp i a => max i a.numGroups
  | _ => 0

/-- The slice `FindStringSubmatch` builds for one match: the whole match, then
the text of each group. -/
def Re.submatches (re : Re) (h : Hit) : List Str :=
  h.text :: (List.range re.numGroups).map fun i => h.caps (i + 1)

/-- The loop of `Regexp.allMatches` behind `FindAllStringSubmatch(s, -1)`, walked one
position at a time. `skip` counts the characters still covered by the match
just delivered; `prevEnd` says that the previous match ended at this very
position, where an empty match is not delivered again. -/
def Re.findAllGo (re : Re) (total : Nat) : Nat → Bool → Str → List (List Str)
  | _, prevEnd, [] =>
    match re.matchAt total [] with
    | some h => if prevEnd then [] else [re.submatches h]
    | none => []
  | skip + 1, _, _ :: s => Re.findAllGo re total skip (skip == 0) s
  | 0, prevEnd, c :: s =>
    match re.matchAt total (c :: s) with
    | none => Re.findAllGo re total 0 false s
    | some h =>
      if h.text.isEmpty then
        (if prevEnd then [] else [re.submatches h]) ++ Re.findAllGo re total 0 false s
      else
        re.submatches h :: Re.findAllGo re total (h.text.length - 1) (h.text.length == 1) s

/-- Go `Regexp.FindAllStringSubmatch(s, -1)`: the successive non-overlapping
leftmost matches of the expression in `s`. -/
def Re.FindAllStringSubmatch (re : Re) (s : Str) : List (List Str) :=
  Re.findAllGo re s.length 0 false s

/-- Whether the expression matches somewhere in the text from this position on. -/
def Re.searchFrom (re : Re) (total : Nat) : Str → Bool
  | [] => (re.matchAt total []).isSome
  | c :: s => (re.matchAt total (c :: s)).isSome || Re.searchFrom re total s

/-- Go `regexp.MatchString` for a pattern that compiles: an unanchored search. -/
def Re.MatchString (re : Re) (s : Str) : Bool :=
  Re.searchFrom re s.length s

/-- A literal character. -/
def Re.lit (c : Char) : Re := .chr (fun x => x == c)

/-- A literal string. -/
def Re.str : Str → Re
  | [] => .eps
  | [c] => Re.lit c
  | c :: cs => .cat (Re.lit c) (Re.str cs)

/-- The class `[a-zA-Z\-_0-9]`. -/
def keyChar (c : Char) : Bool :=
  c.isAlpha || c == '-' || c == '_' || c.isDigit

/-- The class `[a-zA-Z0-9\._\-]`. -/
def hostChar (c : Char) : Bool :=
  c.isAlpha || c.isDigit || c == '.' || c == '_' || c == '-'

/-- The pattern `\{([a-zA-Z\-_0-9]+)\}`. -/
def simpleURLKeysPattern : Re :=
  .cat (Re.lit '{') (.cat (.grp 1 (.rep keyChar 1 none)) (Re.lit '}'))

/-- The pattern `/\{([a-zA-Z\-_0-9]+)\}`. -/
def endpointURLKeysPattern : Re :=
  .cat (Re.lit '/') (.cat (Re.lit '{') (.cat (.grp 1 (.rep keyChar 1 none)) (Re.lit '}')))

/-- The pattern `(https?://)?([a-zA-Z0-9\._\-]+)(:[0-9]{2,6})?/?`. -/
def hostPattern : Re :=
  .cat (.opt (.grp 1 (.cat (Re.str "http".toList) (.cat (.opt (Re.lit 's')) (Re.str "://".toList)))))
    (.cat (.grp 2 (.rep hostChar 1 none))
      (.cat (.opt (.grp 3 (.cat (Re.lit ':') (.rep Char.isDigit 2 (some 6)))))
        (.opt (Re.lit '/'))))

/-- The pattern `^[^/]|/__debug(/.*)?$`: the alternation binds loosest; `.`
takes any character but a line feed, the negated class takes a line feed too. -/
def debugPattern : Re :=
  .alt (.cat .bot (.chr (fun c => c != '/')))
    (.cat (Re.str "/__debug".toList)
      (.cat (.opt (.grp 1 (.cat (Re.lit '/') (.rep (fun c => c != '\n') 0 none)))) .eot))

/-! ## The Go library functions the compiler calls -/

/-- The tables of Go's `unicode` package for code points above ASCII. They
belong to the Go distribution, not to this repository, and are a parameter of
the model; on ASCII the library's own fast paths are embedded below. -/
structure UnicodeTables where
  /-- The title case of a code point above ASCII: `unicode.To(unicode.TitleCase, r)`. -/
  toTitle : Char → Char
  /-- The lower case of a code point above ASCII: `unicode.To(unicode.LowerCase, r)`. -/
  toLower : Char → Char
  /-- Membership of the letter tables: `unicode.IsLetter`. -/
  isLetter : Char → Bool
  /-- Membership of the digit tables: `unicode.IsDigit`. -/
  isDigit : Char → Bool
  /-- Membership of the white space tables: `unicode.IsSpace`. -/
  isSpace : Char → Bool

namespace strings

/-- Go `unicode.ToTitle`: on ASCII, title case is upper case. -/
def toTitleRune (U : UnicodeTables) (r : Char) : Char :=
  if r.toNat ≤ 0x7F then r.toUpper else U.toTitle r

/-- Go `unicode.ToLower`. -/
def toLowerRune (U : UnicodeTables) (r : Char) : Char :=
  if r.toNat ≤ 0x7F then r.toLower else U.toLower r

/-- Go `strings.ToTitle`: every code point mapped to its title case. -/
def ToTitle (U : UnicodeTables) (s : Str) : Str :=
  s.map (toTitleRune U)

/-- Go `strings.ToLower`. -/
def ToLower (U : UnicodeTables) (s : Str) : Str :=
  s.map (toLowerRune U)

/-- Go `strings.isSeparator`: ASCII alphanumerics and underscore are not
separators; above ASCII, letters and digits are not, and white space is. -/
def isSeparator (U : UnicodeTables) (r : Char) : Bool :=
  if r.toNat ≤ 0x7F then
    !(r.isDigit || r.isLower || r.isUpper || r == '_')
  else if U.isLetter r || U.isDigit r then false
  else U.isSpace r

/-- The closure of `strings.Title`, with the previous code point as state. -/
def titleGo (U : UnicodeTables) : Char → Str → Str
  | _, [] => []
  | prev, r :: rs => (if isSeparator U prev then toTitleRune U r else r) :: titleGo U r rs

/-- Go `strings.Title`: the letters that begin words mapped to title case. -/
def Title (U : UnicodeTables) (s : Str) : Str :=
  titleGo U ' ' s

/-- Go `strings.TrimPrefix`. -/
def TrimPrefix (s pre : Str) : Str :=
  if pre.isPrefixOf s then s.drop pre.length else s

/-- Go `strings.Join`. -/
def Join (elems : List Str) (sep : Str) : Str :=
  sep.intercalate elems

/-- The scan of `strings.Replace` for a non-empty `old`, one position at a
time; `skip` counts the characters of the occurrence just replaced. -/
def replaceGo (old new : Str) : Nat → Str → Str
  | _, [] => []
  | skip + 1, _ :: s => replaceGo old new skip s
  | 0, c :: s =>
    if old.isPrefixOf (c :: s) then new ++ replaceGo old new (old.length - 1) s
    else c :: replaceGo old new 0 s

/-- Go `strings.Replace(s, old, new, -1)`: every non-overlapping occurrence of
`old`, from the left, replaced by `new`; an empty `old` matches before every
code point and at the end. -/
def Replace (s old new : Str) : Str :=
  if old = new then s
  else if old = [] then new ++ s.flatMap (fun c => c :: new)
  else replaceGo old new 0 s

end strings

/-! ## The `fmt` verbs of the error messages -/

/-- The `%v` rendering of a `[]string`. -/
def fmtSlice (xs : List Str) : Str :=
  "[".toList ++ " ".toList.intercalate xs ++ "]".toList

/-- The `%v` rendering of a `map[string]interface{}` whose values are all nil,
given by the keys written to it: Go prints the keys in increasing order. -/
def fmtMap (keys : List Str) : Str :=
  "map[".toList
    ++ " ".toList.intercalate ((keys.dedup.insertionSort (fun a b => a ≤ b)).map (fun k => k ++ ":<nil>".toList))
    ++ "]".toList

/-- The `%d` rendering of an `int`. -/
def fmtInt (n : Int) : Str :=
  (toString n).toList

/-! ## The data model -/

/-- Modelled from the spec: the decoders of the `encoding` package, whose
source is not among the files at hand; the spec fixes the set JSON, XML, TOML,
YAML. -/
inductive Decoder where
  | JSONDecoder
  | XMLDecoder
  | TOMLDecoder
  | YAMLDecoder
  deriving DecidableEq, Repr

/-- The struct `Backend`; a nil `Decoder` is `none`. -/
structure Backend where
  Group : Str := []
  Method : Str := []
  Host : List Str := []
  URLPattern : Str := []
  Blacklist : List Str := []
  Whitelist : List Str := []
  Mapping : List (Str × Str) := []
  Encoding : Str := []
  Target : Str := []
  URLKeys : List Str := []
  ConcurrentCalls : Int := 0
  Timeout : Int := 0
  Decoder : Option Decoder := none
  deriving DecidableEq, Repr

/-- The struct `EndpointConfig`. -/
structure EndpointConfig where
  Endpoint : Str := []
  Method : Str := []
  Backend : List Backend := []
  ConcurrentCalls : Int := 0
  Timeout : Int := 0
  CacheTTL : Int := 0
  QueryString : List Str := []
  deriving DecidableEq, Repr

/-- The struct `ServiceConfig`. -/
structure ServiceConfig where
  Endpoints : List EndpointConfig := []
  Timeout : Int := 0
  CacheTTL : Int := 0
  Host : List Str := []
  Port : Int := 0
  Version : Int := 0
  Debug : Bool := false
  deriving DecidableEq, Repr

/-- The errors `Init` returns, each with the arguments of its `fmt.Errorf`. -/
inductive InitError where
  | unsupportedVersion (version : Int)
  | invalidPath (endpoint : Str)
  | noBackends (endpoint : Str)
  | tooManyOutput (outputSet : List Str) (outputParams : List Str)
  | undefinedOutput (param : Str) (inputParams : List Str) (outputParams : List Str)
  deriving DecidableEq, Repr

/-- The text of an error (`err.Error()`). -/
def InitError.Error : InitError → Str
  | .unsupportedVersion v => "Unsupported version: ".toList ++ fmtInt v ++ "\n".toList
  | .invalidPath e =>
    "ERROR: the endpoint url path [".toList ++ e ++ "] is not a valid one!!! Ignoring\n".toList
  | .noBackends e =>
    "WARNING: the [".toList ++ e ++ "] endpoint has 0 backends defined! Ignoring\n".toList
  | .tooManyOutput outputSet outputParams =>
    "Too many output params! input: ".toList ++ fmtMap outputSet ++ ", output: ".toList
      ++ fmtSlice outputParams ++ "\n".toList
  | .undefinedOutput p inputParams outputParams =>
    "Undefined output param [".toList ++ p ++ "]! input: ".toList ++ fmtMap inputParams
      ++ ", output: ".toList ++ fmtSlice outputParams ++ "\n".toList

/-- What a call that mutates a value in place leaves behind: a panic, an error
together with the value as mutated up to the return, or the finished value. -/
inductive Outcome (σ : Type) where
  | panicked
  | failed (st : σ) (err : InitError)
  | done (st : σ)
  deriving DecidableEq, Repr

/-! ## The compiler -/

/-- The constant `BracketsRouterPatternBuilder`. -/
def BracketsRouterPatternBuilder : Int := 0

/-- The constant `ColonRouterPatternBuilder`. -/
def ColonRouterPatternBuilder : Int := 1

/-- The constant `GET`. -/
def GET : Str := "GET".toList

/-- The constant `NONE`. -/
def NONE : Str := []

/-- The variable `defaultPort`. -/
def defaultPort : Int := 8080

/-- The method `extractPlaceHoldersFromURLTemplate`: the first group of every match. -/
def extractPlaceHoldersFromURLTemplate (subject : Str) (pattern : Re) : List Str :=
  (pattern.FindAllStringSubmatch subject).map fun v => v.getD 1 []

/-- The method `cleanHost`; `none` is `panic(errInvalidHost)`. -/
def cleanHost (host : Str) : Option Str :=
  match hostPattern.FindAllStringSubmatch host with
  | [m] =>
    match m.drop 1 with
    | k0 :: ks => some (strings.Join ((if k0 = [] then "http://".toList else k0) :: ks) [])
    | [] => none
  | _ => none

/-- The method `cleanHosts`: the hosts cleaned in order, stopping at the first panic. -/
def cleanHosts : List Str → Option (List Str)
  | [] => some []
  | h :: hs =>
    match cleanHost h with
    | none => none
    | some c =>
      match cleanHosts hs with
      | none => none
      | some cs => some (c :: cs)

/-- The method `cleanPath`. -/
def cleanPath (path : Str) : Str :=
  "/".toList ++ strings.TrimPrefix path "/".toList

/-- The method `getEndpointPath`, with the global `RoutingPattern` as argument. -/
def getEndpointPath (RoutingPattern : Int) (path : Str) (params : List Str) : Str :=
  if RoutingPattern = ColonRouterPatternBuilder then
    params.foldl
      (fun result p => strings.Replace result (['/', '{'] ++ p ++ ['}']) ("/:".toList ++ p))
      path
  else path

/-- The method `EndpointConfig.validate`; `none` is a nil error. The pattern
is the constant one, which compiles. -/
def validate (e : EndpointConfig) : Option InitError :=
  if debugPattern.MatchString e.Endpoint then some (.invalidPath e.Endpoint)
  else if e.Backend.length = 0 then some (.noBackends e.Endpoint)
  else none

/-- The method `initEndpointDefaults`, on the endpoint it indexes. -/
def initEndpointDefaults (U : UnicodeTables) (s : ServiceConfig) (endpoint : EndpointConfig) :
    EndpointConfig :=
  let endpoint :=
    if endpoint.Method = NONE then { endpoint with Method := GET }
    else { endpoint with Method := strings.ToTitle U endpoint.Method }
  let endpoint :=
    if s.CacheTTL ≠ 0 ∧ endpoint.CacheTTL = 0 then { endpoint with CacheTTL := s.CacheTTL }
    else endpoint
  let endpoint :=
    if s.Timeout ≠ 0 ∧ endpoint.Timeout = 0 then { endpoint with Timeout := s.Timeout }
    else endpoint
  if endpoint.ConcurrentCalls = 0 then { endpoint with ConcurrentCalls := 1 } else endpoint

/-- The decoder switch of `initBackendDefaults`. -/
def decoderFor (U : UnicodeTables) (encoding : Str) : Decoder :=
  let e := strings.ToLower U encoding
  if e = "xml".toList then .XMLDecoder
  else if e = "json".toList then .JSONDecoder
  else if e = "toml".toList then .TOMLDecoder
  else if e = "yaml".toList then .YAMLDecoder
  else .YAMLDecoder

/-- The method `initBackendDefaults`, on the backend it indexes; `none` is the
panic of `cleanHosts`. -/
def initBackendDefaults (U : UnicodeTables) (s : ServiceConfig) (endpoint : EndpointConfig)
    (backend : Backend) : Option Backend :=
  let hosts := if backend.Host.length = 0 then some s.Host else cleanHosts backend.Host
  match hosts with
  | none => none
  | some hs =>
    let backend := { backend with Host := hs }
    let backend :=
      if backend.Method = NONE then { backend with Method := endpoint.Method } else backend
    some { backend with
      Timeout := endpoint.Timeout
      ConcurrentCalls := endpoint.ConcurrentCalls
      Decoder := some (decoderFor U backend.Encoding) }

/-- The second loop of `initBackendURLMappings`: `rest` is what is left of
`outputParams`, `tmp` the pattern rewritten so far. -/
def urlMappingsLoop (U : UnicodeTables) (inputParams outputParams : List Str) :
    List Str → Str → Backend → Backend × Option InitError
  | [], tmp, backend => ({ backend with URLPattern := tmp }, none)
  | o :: rest, tmp, backend =>
    if o ∉ inputParams then
      (backend, some (.undefinedOutput o inputParams outputParams))
    else
      urlMappingsLoop U inputParams outputParams rest
        (strings.Replace tmp (['{'] ++ o ++ ['}'])
          (['{', '{', '.'] ++ strings.Title U o ++ ['}', '}']))
        { backend with URLKeys := backend.URLKeys ++ [strings.Title U o] }

/-- The method `initBackendURLMappings`, on the backend it indexes. The map
`inputParams` is given by the keys written to it, so that its `len` is the
number of distinct keys. Returns the backend as mutated and the error. -/
def initBackendURLMappings (U : UnicodeTables) (backend : Backend) (inputParams : List Str) :
    Backend × Option InitError :=
  let backend := { backend with URLPattern := cleanPath backend.URLPattern }
  let outputParams := extractPlaceHoldersFromURLTemplate backend.URLPattern simpleURLKeysPattern
  let outputSet := outputParams
  if outputSet.dedup.length > inputParams.dedup.length then
    (backend, some (.tooManyOutput outputSet outputParams))
  else
    let tmp := backend.URLPattern
    let backend := { backend with URLKeys := List.replicate outputParams.length [] }
    urlMappingsLoop U inputParams outputParams outputParams tmp backend

/-- The loop of `Init` over the backends of one endpoint. -/
def initBackends (U : UnicodeTables) (s : ServiceConfig) (e : EndpointConfig)
    (inputSet : List Str) : List Backend → Outcome (List Backend)
  | [] => .done []
  | b :: bs =>
    match initBackendDefaults U s e b with
    | none => .panicked
    | some b =>
      let b := { b with Method := strings.ToTitle U b.Method }
      match initBackendURLMappings U b inputSet with
      | (b, some err) => .failed (b :: bs) err
      | (b, none) =>
        match initBackends U s e inputSet bs with
        | .panicked => .panicked
        | .failed bs err => .failed (b :: bs) err
        | .done bs => .done (b :: bs)

/-- The body of the loop of `Init` over the endpoints. -/
def initEndpoint (U : UnicodeTables) (RoutingPattern : Int) (s : ServiceConfig)
    (e : EndpointConfig) : Outcome EndpointConfig :=
  let e := { e with Endpoint := cleanPath e.Endpoint }
  match validate e with
  | some err => .failed e err
  | none =>
    let inputParams := extractPlaceHoldersFromURLTemplate e.Endpoint endpointURLKeysPattern
    let inputSet := inputParams
    let e := { e with Endpoint := getEndpointPath RoutingPattern e.Endpoint inputParams }
    let e := initEndpointDefaults U s e
    match initBackends U s e inputSet e.Backend with
    | .panicked => .panicked
    | .failed bs err => .failed { e with Backend := bs } err
    | .done bs => .done { e with Backend := bs }

/-- The loop of `Init` over the endpoints. -/
def initEndpoints (U : UnicodeTables) (RoutingPattern : Int) (s : ServiceConfig) :
    List EndpointConfig → Outcome (List EndpointConfig)
  | [] => .done []
  | e :: es =>
    match initEndpoint U RoutingPattern s e with
    | .panicked => .panicked
    | .failed e err => .failed (e :: es) err
    | .done e =>
      match initEndpoints U RoutingPattern s es with
      | .panicked => .panicked
      | .failed es err => .failed (e :: es) err
      | .done es => .done (e :: es)

/-- The method `ServiceConfig.Init`, with the global `RoutingPattern` as argument. -/
def Init (U : UnicodeTables) (RoutingPattern : Int) (s : ServiceConfig) : Outcome ServiceConfig :=
  if s.Version ≠ 1 then .failed s (.unsupportedVersion s.Version)
  else
    let s := if s.Port = 0 then { s with Port := defaultPort } else s
    match cleanHosts s.Host with
    | none => .panicked
    | some hosts =>
      let s := { s with Host := hosts }
      match initEndpoints U RoutingPattern s s.Endpoints with
      | .panicked => .panicked
      | .failed es err => .failed { s with Endpoints := es } err
      | .done es => .done { s with Endpoints := es }

/-! ## Definitions used to state the properties -/

/-- Tables in which no code point above ASCII has a case or is a letter, a
digit or a space: enough to run the model on ASCII configurations. -/
def asciiTables : UnicodeTables :=
  ⟨fun c => c, fun c => c, fun _ => false, fun _ => false, fun _ => false⟩

/-- A placeholder `{name}` at the head of a text: an opening brace, the longest
run of name characters, not empty, and a closing brace. Gives the name and the
text after the closing brace. -/
def bracedKey (s : Str) : Option (Str × Str) :=
  match s with
  | [] => none
  | c :: t =>
    if c = '{' ∧ t.takeWhile keyChar ≠ [] ∧ (t.dropWhile keyChar).head? = some '}' then
      some (t.takeWhile keyChar, (t.dropWhile keyChar).tail)
    else none

/-- The placeholder names of a backend URL pattern, in order of occurrence,
read off the text from left to right. `skip` counts the characters of the
placeholder just read. -/
def placeholdersGo : Nat → Str → List Str
  | _, [] => []
  | skip + 1, _ :: s => placeholdersGo skip s
  | 0, c :: s =>
    match bracedKey (c :: s) with
    | some (k, _) => k :: placeholdersGo (k.length + 1) s
    | none => placeholdersGo 0 s

/-- The placeholder names of a backend URL pattern, in order of occurrence. -/
def placeholders (s : Str) : List Str :=
  placeholdersGo 0 s

/-- The template token `{{.N}}` of a placeholder name, `N` its `strings.Title`. -/
def templateToken (U : UnicodeTables) (k : Str) : Str :=
  ['{', '{', '.'] ++ strings.Title U k ++ ['}', '}']

/-- The text in which each placeholder `{name}` whose name satisfies `sel` is
replaced by its template token and every other character is kept. -/
def substGo (U : UnicodeTables) (sel : Str → Bool) : Nat → Str → Str
  | _, [] => []
  | skip + 1, _ :: s => substGo U sel skip s
  | 0, c :: s =>
    match bracedKey (c :: s) with
    | some (k, _) =>
      (if sel k then templateToken U k else c :: k ++ ['}']) ++ substGo U sel (k.length + 1) s
    | none => c :: substGo U sel 0 s

/-- The compiled form of a backend URL pattern as the spec words it: every
occurrence of each placeholder `{name}` replaced by `{{.N}}`, no other
character changed. -/
def compiledURLPattern (U : UnicodeTables) (s : Str) : Str :=
  substGo U (fun _ => true) 0 s

/-- The input placeholder set of the tests of `initBackendURLMappings`. -/
def sampleInputSet : List Str :=
  ["tupu".toList, "tupu1".toList, "tupu_56".toList, "supu-5t6".toList, "foo".toList]

/-- The backend of the tests of `initBackendURLMappings`. -/
def sampleBackend : Backend :=
  { URLPattern := "/supu/{tupu_56}/{supu-5t6}?a={foo}&b={foo}".toList }

/-- The input set of the test of the undefined output parameter. -/
def sampleUndefinedSet : List Str :=
  ["tupu".toList, "supu".toList, "foo".toList]

/-- A backend with one placeholder, and an endpoint input set that declares it. -/
def sampleUserBackend : Backend :=
  { URLPattern := "/users/{user}".toList }

/-- A configuration without hosts or timeouts, whose endpoint asks for a
negative number of concurrent calls. -/
def bareConfig : ServiceConfig :=
  { Version := 1
    Endpoints := [{ Endpoint := "/a".toList, ConcurrentCalls := -1, Backend := [{ URLPattern := "/b".toList }] }] }

/-- The configuration of the repository's test of `Init`, with the
durations in nanoseconds. -/
def sampleConfig : ServiceConfig :=
  { Version := 1
    Timeout := 5000000000
    CacheTTL := 1800000000000
    Host := ["http://127.0.0.1:8080".toList]
    Endpoints :=
      [{ Endpoint := "/supu".toList, Method := "post".toList, Timeout := 1500000000, CacheTTL := 21600000000000,
         Backend := [{ URLPattern := "/__debug/supu".toList }] },
       { Endpoint := "/users/{user}".toList,
         Backend :=
          [{ URLPattern := "/users/{user}".toList, Host := ["https://jsonplaceholder.typicode.com".toList] },
           { URLPattern := "/posts/{user}".toList, Encoding := "xml".toList }] }] }

/-- The compiled form of `sampleConfig` under the colon strategy. -/
def sampleCompiled : ServiceConfig :=
  { Version := 1
    Port := 8080
    Timeout := 5000000000
    CacheTTL := 1800000000000
    Host := ["http://127.0.0.1:8080".toList]
    Endpoints :=
      [{ Endpoint := "/supu".toList, Method := "POST".toList, Timeout := 1500000000, CacheTTL := 21600000000000,
         ConcurrentCalls := 1,
         Backend :=
          [{ URLPattern := "/__debug/supu".toList, Method := "POST".toList,
             Host := ["http://127.0.0.1:8080".toList], ConcurrentCalls := 1, Timeout := 1500000000,
             Decoder := some .YAMLDecoder }] },
       { Endpoint := "/users/:user".toList, Method := "GET".toList, Timeout := 5000000000,
         CacheTTL := 1800000000000, ConcurrentCalls := 1,
         Backend :=
          [{ URLPattern := "/users/{{.User}}".toList, Method := "GET".toList,
             Host := ["https://jsonplaceholder.typicode.com".toList],
             URLKeys := [[], "User".toList], ConcurrentCalls := 1, Timeout := 5000000000,
             Decoder := some .YAMLDecoder },
           { URLPattern := "/posts/{{.User}}".toList, Method := "GET".toList,
             Host := ["http://127.0.0.1:8080".toList], Encoding := "xml".toList,
             URLKeys := [[], "User".toList], ConcurrentCalls := 1, Timeout := 5000000000,
             Decoder := some .XMLDecoder }] }] }

/-- What `Init` leaves of `bareConfig`. -/
def bareCompiled : ServiceConfig :=
  { Version := 1
    Port := 8080
    Endpoints :=
      [{ Endpoint := "/a".toList, Method := "GET".toList, ConcurrentCalls := -1,
         Backend :=
          [{ URLPattern := "/b".toList, Method := "GET".toList, ConcurrentCalls := -1,
             Decoder := some .YAMLDecoder }] }] }

/-- The service as the loop of `Init` over the endpoints sees it: the port
defaulted and the hosts cleaned. -/
def loopState (s : ServiceConfig) (hosts : List Str) : ServiceConfig :=
  { s with Port := if s.Port = 0 then defaultPort else s.Port, Host := hosts }

/-- A configuration whose second endpoint has no backend. -/
def failingConfig : ServiceConfig :=
  { Version := 1
    Host := ["supu".toList]
    Endpoints :=
      [{ Endpoint := "a".toList, Backend := [{ URLPattern := "b".toList }] },
       { Endpoint := "c".toList }] }

/-- What `Init` leaves of `failingConfig` when it returns its error. -/
def failingConfigLeft : ServiceConfig :=
  { Version := 1
    Port := 8080
    Host := ["http://supu".toList]
    Endpoints :=
      [{ Endpoint := "/a".toList, Method := "GET".toList, ConcurrentCalls := 1,
         Backend :=
          [{ URLPattern := "/b".toList, Method := "GET".toList, Host := ["http://supu".toList],
             ConcurrentCalls := 1, Decoder := some .YAMLDecoder }] },
       { Endpoint := "/c".toList }] }

/-- A whole-segment placeholder `/{name}` at the head of a text: a slash, then
a placeholder `{name}`. Gives the name and the text after the closing brace. -/
def slashKey (s : Str) : Option (Str × Str) :=
  match s with
  | [] => none
  | c :: t => if c = '/' then bracedKey t else none

/-- The names of the whole-segment placeholders of an endpoint path, in order
of occurrence, read off the text from left to right. `skip` counts the
characters of the placeholder just read. -/
def segmentsGo : Nat → Str → List Str
  | _, [] => []
  | skip + 1, _ :: s => segmentsGo skip s
  | 0, c :: s =>
    match slashKey (c :: s) with
    | some (k, _) => k :: segmentsGo (k.length + 2) s
    | none => segmentsGo 0 s

/-- The names of the whole-segment placeholders of an endpoint path. -/
def segments (s : Str) : List Str :=
  segmentsGo 0 s

/-- The text in which each whole-segment placeholder `/{name}` whose name
satisfies `sel` is replaced by `/:name` and every other character is kept. -/
def colonGo (sel : Str → Bool) : Nat → Str → Str
  | _, [] => []
  | skip + 1, _ :: s => colonGo sel skip s
  | 0, c :: s =>
    match slashKey (c :: s) with
    | some (k, _) =>
      (if sel k then '/' :: ':' :: k else '/' :: '{' :: (k ++ ['}'])) ++ colonGo sel (k.length + 2) s
    | none => c :: colonGo sel 0 s

/-- The colon form of an endpoint path as the spec words it: every
whole-segment placeholder `/{name}` rewritten to `/:name`, no other character
changed. -/
def colonPath (s : Str) : Str :=
  colonGo (fun _ => true) 0 s

/-- A configuration whose endpoint path carries a query string. -/
def queryConfig : ServiceConfig :=
  { Version := 1
    Endpoints :=
      [{ Endpoint := "supu/{tupu}/{supu}?a={s}&b=2".toList, Backend := [{ URLPattern := "/".toList }] }] }

/-- The compiled form of `queryConfig` under the colon strategy. -/
def queryCompiled : ServiceConfig :=
  { Version := 1
    Port := 8080
    Endpoints :=
      [{ Endpoint := "/supu/:tupu/:supu?a={s}&b=2".toList, Method := "GET".toList,
         ConcurrentCalls := 1,
         Backend :=
          [{ URLPattern := "/".toList, Method := "GET".toList, ConcurrentCalls := 1,
             Decoder := some .YAMLDecoder }] }] }

/-- A reserved endpoint behind an endpoint without backends. -/
def debugSecondConfig : ServiceConfig :=
  { Version := 1
    Endpoints := [{ Endpoint := "/c".toList }, { Endpoint := "/__debug".toList }] }

/-- A reserved endpoint in a configuration with an empty host string. -/
def debugBadHostConfig : ServiceConfig :=
  { Version := 1
    Host := ["".toList]
    Endpoints := [{ Endpoint := "/__debug".toList }] }

/-- An endpoint under the debug root whose path holds a line feed. -/
def debugLineFeedConfig : ServiceConfig :=
  { Version := 1
    Endpoints := [{ Endpoint := "/__debug/a\nb".toList, Backend := [{ URLPattern := "/".toList }] }] }

/-- What `Init` leaves of `debugLineFeedConfig`. -/
def debugLineFeedCompiled : ServiceConfig :=
  { Version := 1
    Port := 8080
    Endpoints :=
      [{ Endpoint := "/__debug/a\nb".toList, Method := "GET".toList, ConcurrentCalls := 1,
         Backend :=
          [{ URLPattern := "/".toList, Method := "GET".toList, ConcurrentCalls := 1,
             Decoder := some .YAMLDecoder }] }] }

/-- A compiling endpoint followed by one under the debug root, with a backend. -/
def debugAfterConfig : ServiceConfig :=
  { Version := 1
    Host := ["supu".toList]
    Endpoints :=
      [{ Endpoint := "a".toList, Backend := [{ URLPattern := "b".toList }] },
       { Endpoint := "__debug/foo".toList, Backend := [{ URLPattern := "/".toList }] }] }

/-- An endpoint with a backend whose path ends in `/__debug` below another segment. -/
def innerDebugEndpoint : EndpointConfig :=
  { Endpoint := "/a/__debug".toList, Backend := [{ URLPattern := "/".toList }] }

/-- An endpoint that passes `validate` and asks for an undeclared placeholder,
followed by an endpoint without backends. -/
def mappingFirstConfig : ServiceConfig :=
  { Version := 1
    Host := ["supu".toList]
    Endpoints :=
      [{ Endpoint := "/a".toList, Backend := [{ URLPattern := "/{x}".toList }] },
       { Endpoint := "/b".toList }] }

/-- A single endpoint `/a/__debug` without backends, with a well formed host. -/
def innerDebugBareConfig : ServiceConfig :=
  { Version := 1
    Host := ["supu".toList]
    Endpoints := [{ Endpoint := "/a/__debug".toList }] }

/-- An endpoint with its `Endpoint` string blanked: what is left is every other
field, the backends included. -/
def EndpointConfig.withoutPath (e : EndpointConfig) : EndpointConfig :=
  { e with Endpoint := [] }

/-- A configuration with the `Endpoint` string of each endpoint blanked: what
is left is the service-level fields and, endpoint by endpoint in order, every
other field of the endpoint and all of its backends. -/
def ServiceConfig.withoutPaths (s : ServiceConfig) : ServiceConfig :=
  { s with Endpoints := s.Endpoints.map EndpointConfig.withoutPath }

/-- The outcome with its value replaced; the kind of outcome and the error stay. -/
def Outcome.map {σ τ : Type} (f : σ → τ) : Outcome σ → Outcome τ
  | .panicked => .panicked
  | .failed st err => .failed (f st) err
  | .done st => .done (f st)

/-- The hosts of `TestConfig_cleanHosts`. -/
def sampleHosts : List Str :=
  ["supu".toList, "127.0.0.1".toList, "https://supu.local/".toList, "http://127.0.0.1".toList,
   "supu_42.local:8080/".toList, "http://127.0.0.1:8080".toList]

/-- The cleaned hosts `TestConfig_cleanHosts` expects. -/
def sampleHostsCleaned : List Str :=
  ["http://supu".toList, "http://127.0.0.1".toList, "https://supu.local".toList,
   "http://127.0.0.1".toList, "http://supu_42.local:8080".toList, "http://127.0.0.1:8080".toList]

/-- Spec side: the text begins with the segment `/__debug`, that is with the
characters `/__debug` followed by the end of the text or by a slash. -/
def debugSegmentHere (s : Str) : Bool :=
  "/__debug".toList.isPrefixOf s &&
    (match s.drop 8 with
     | [] => true
     | c :: _ => c == '/')

/-- Spec side: some segment of the path is `__debug`. -/
def hasDebugSegment : Str → Bool
  | [] => false
  | c :: t => debugSegmentHere (c :: t) || hasDebugSegment t

/-! ## Properties -/

/-! ### The matcher -/

theorem Re.repRun_sound (p : Char → Bool) (s : Str) :
    ∀ (lo : Nat) (hi : Option Nat) (mr : Str × Str), mr ∈ Re.repRun p lo hi s →
      mr.1 ++ mr.2 = s ∧ (∀ c ∈ mr.1, p c = true) ∧ lo ≤ mr.1.length ∧
        ∀ h, hi = some h → mr.1.length ≤ h := by
  induction s with
  | nil =>
    intro lo hi mr hmr
    simp only [Re.repRun] at hmr
    split at hmr
    · simp at hmr
      subst hmr
      simp [*]
    · simp at hmr
  | cons c s ih =>
    intro lo hi mr hmr
    simp only [Re.repRun, List.mem_append] at hmr
    rcases hmr with hmr | hmr
    · split at hmr
      · rename_i hc
        simp only [Bool.and_eq_true, bne_iff_ne, ne_eq] at hc
        simp only [List.mem_map] at hmr
        obtain ⟨mr1, hmr1, rfl⟩ := hmr
        obtain ⟨h1, h2, h3, h4⟩ := ih _ _ _ hmr1
        refine ⟨by simp [h1], ?_, by simp; omega, ?_⟩
        · intro x hx
          simp at hx
          rcases hx with rfl | hx
          · exact hc.1
          · exact h2 x hx
        · intro h hh
          subst hh
          have := h4 (Nat.pred h) (by simp)
          have hne : h ≠ 0 := by
            intro h0
            exact hc.2 (by simp [h0])
          simp only [List.length_cons]
          have : Nat.pred h = h - 1 := rfl
          omega
      · simp at hmr
    · split at hmr
      · simp at hmr
        subst hmr
        simp [*]
      · simp at hmr

/-- The longest text a greedy repetition can take at the head of `s`. -/
theorem Re.repRun_none (p : Char → Bool) (s : Str) :
    ∀ lo : Nat, ∃ tl : List (Str × Str),
      Re.repRun p lo none s
        = (if lo ≤ (s.takeWhile p).length then [(s.takeWhile p, s.dropWhile p)] else []) ++ tl
      ∧ ∀ mr ∈ tl, ∃ c r, mr.2 = c :: r ∧ p c = true := by
  induction s with
  | nil =>
    intro lo
    refine ⟨[], ?_, by simp⟩
    simp [Re.repRun]
  | cons c s ih =>
    intro lo
    by_cases hc : p c = true
    · obtain ⟨tl, h1, h2⟩ := ih (lo - 1)
      refine ⟨tl.map (fun mr => (c :: mr.1, mr.2)) ++ (if lo = 0 then [([], c :: s)] else []), ?_, ?_⟩
      · simp only [Re.repRun, hc, Option.map_none', h1, List.takeWhile_cons, List.dropWhile_cons]
        have hiff : lo ≤ (List.takeWhile p s).length + 1 ↔ lo - 1 ≤ (List.takeWhile p s).length := by
          omega
        by_cases hlo : lo - 1 ≤ (List.takeWhile p s).length
        · simp [hlo, hiff.2 hlo]
        · have : ¬ lo ≤ (List.takeWhile p s).length + 1 := fun h => hlo (hiff.1 h)
          simp [hlo, this]
      · intro mr hmr
        simp only [List.mem_append, List.mem_map] at hmr
        rcases hmr with ⟨mr1, hmr1, rfl⟩ | hmr
        · exact h2 mr1 hmr1
        · split at hmr
          · simp at hmr
            subst hmr
            exact ⟨c, s, rfl, hc⟩
          · simp at hmr
    · refine ⟨[], ?_, by simp⟩
      simp only [Re.repRun, hc, List.takeWhile_cons, List.dropWhile_cons]
      by_cases hlo : lo = 0
      · simp [hlo]
      · simp [hlo]

theorem keyChar_rbrace : keyChar '}' = false := by decide
theorem keyChar_lbrace : keyChar '{' = false := by decide

theorem Re.run_lit_cons (total : Nat) (a c : Char) (t : Str) (caps : Nat → Str) :
    Re.run total (Re.lit a) (c :: t) caps = if c = a then [⟨[c], caps, t⟩] else [] := by
  simp [Re.run, Re.lit]

theorem Re.run_lit_nil (total : Nat) (a : Char) (caps : Nat → Str) :
    Re.run total (Re.lit a) [] caps = [] := by
  simp [Re.run, Re.lit]

theorem Re.run_cat (total : Nat) (a b : Re) (s : Str) (caps : Nat → Str) :
    Re.run total (.cat a b) s caps =
      (Re.run total a s caps).flatMap fun h1 =>
        (Re.run total b h1.rest h1.caps).map fun h2 => ⟨h1.text ++ h2.text, h2.caps, h2.rest⟩ := by
  rw [Re.run]

theorem Re.run_grp (total : Nat) (i : Nat) (a : Re) (s : Str) (caps : Nat → Str) :
    Re.run total (.grp i a) s caps =
      (Re.run total a s caps).map fun h => ⟨h.text, setCap h.caps i h.text, h.rest⟩ := by
  rw [Re.run]

theorem Re.run_rep (total : Nat) (p : Char → Bool) (lo : Nat) (hi : Option Nat) (s : Str)
    (caps : Nat → Str) :
    Re.run total (.rep p lo hi) s caps = (Re.repRun p lo hi s).map fun mr => ⟨mr.1, caps, mr.2⟩ := by
  rw [Re.run]

theorem Re.run_opt (total : Nat) (a : Re) (s : Str) (caps : Nat → Str) :
    Re.run total (.opt a) s caps = Re.run total a s caps ++ [⟨[], caps, s⟩] := by
  rw [Re.run]

theorem Re.run_alt (total : Nat) (a b : Re) (s : Str) (caps : Nat → Str) :
    Re.run total (.alt a b) s caps = Re.run total a s caps ++ Re.run total b s caps := by
  rw [Re.run]

/-- A greedy run of a class, captured, followed by a literal outside the class:
only the longest run can be followed by the literal. -/
theorem Re.run_grp_rep_lit (total : Nat) (p : Char → Bool) (i lo : Nat) (d : Char)
    (hd : p d = false) (t : Str) (caps : Nat → Str) :
    Re.run total (.cat (.grp i (.rep p lo none)) (Re.lit d)) t caps =
      if lo ≤ (t.takeWhile p).length ∧ (t.dropWhile p).head? = some d then
        [⟨t.takeWhile p ++ [d], setCap caps i (t.takeWhile p), (t.dropWhile p).tail⟩]
      else [] := by
  obtain ⟨tl, h1, h2⟩ := Re.repRun_none p t lo
  have htl : ∀ mr ∈ tl, ∀ caps : Nat → Str, Re.run total (Re.lit d) mr.2 caps = [] := by
    intro mr hmr caps
    obtain ⟨c, r, hr, hpc⟩ := h2 mr hmr
    have : c ≠ d := by
      rintro rfl
      simp [hd] at hpc
    rw [hr, Re.run_lit_cons, if_neg this]
  have hnil : (tl.map (fun mr => (⟨mr.1, setCap caps i mr.1, mr.2⟩ : Hit))).flatMap
      (fun h1 => (Re.run total (Re.lit d) h1.rest h1.caps).map
        fun h2 => (⟨h1.text ++ h2.text, h2.caps, h2.rest⟩ : Hit)) = [] := by
    rw [List.flatMap_eq_nil_iff]
    intro x hx
    simp only [List.mem_map] at hx
    obtain ⟨mr, hmr, rfl⟩ := hx
    simp [htl mr hmr]
  rw [Re.run_cat, Re.run_grp, Re.run_rep, h1]
  simp only [List.map_append, List.map_map, List.flatMap_append, Function.comp_def]
  rw [hnil, List.append_nil]
  by_cases hlo : lo ≤ (t.takeWhile p).length
  · simp only [hlo, if_true, List.map_cons, List.map_nil, List.flatMap_cons, List.flatMap_nil,
      List.append_nil, true_and]
    cases hdw : t.dropWhile p with
    | nil => simp [Re.run_lit_nil]
    | cons c r =>
      rw [Re.run_lit_cons]
      by_cases hcd : c = d
      · simp [hcd]
      · simp [hcd]
  · simp [hlo]

theorem Re.run_simple (total : Nat) (s : Str) (caps : Nat → Str) :
    Re.run total simpleURLKeysPattern s caps =
      match bracedKey s with
      | some (k, rest) => [⟨'{' :: k ++ ['}'], setCap caps 1 k, rest⟩]
      | none => [] := by
  cases s with
  | nil => simp [simpleURLKeysPattern, Re.run_lit_nil, Re.run, bracedKey]
  | cons c t =>
    have h := Re.run_grp_rep_lit total keyChar 1 1 '}' keyChar_rbrace t caps
    have hlen : 1 ≤ (t.takeWhile keyChar).length ↔ t.takeWhile keyChar ≠ [] := by
      cases t.takeWhile keyChar <;> simp
    unfold simpleURLKeysPattern
    rw [Re.run_cat, Re.run_lit_cons]
    by_cases hc : c = '{'
    · subst hc
      simp only [if_true, List.flatMap_cons, List.flatMap_nil, List.append_nil, h, bracedKey, hlen,
        true_and]
      split <;> simp
    · simp [hc, bracedKey]

theorem Re.run_sound (total : Nat) (re : Re) :
    ∀ (s : Str) (caps : Nat → Str) (h : Hit), h ∈ Re.run total re s caps → h.text ++ h.rest = s := by
  induction re with
  | eps => intro s caps h hh; simp [Re.run] at hh; simp [hh]
  | chr p =>
    intro s caps h hh
    cases s with
    | nil => simp [Re.run] at hh
    | cons c t =>
      simp only [Re.run] at hh
      split at hh
      · simp at hh; simp [hh]
      · simp at hh
  | cat a b iha ihb =>
    intro s caps h hh
    rw [Re.run_cat, List.mem_flatMap] at hh
    obtain ⟨h1, hh1, hh⟩ := hh
    rw [List.mem_map] at hh
    obtain ⟨h2, hh2, rfl⟩ := hh
    have e1 := iha _ _ _ hh1
    have e2 := ihb _ _ _ hh2
    simp only [List.append_assoc, e2, e1]
  | alt a b iha ihb =>
    intro s caps h hh
    rw [Re.run_alt, List.mem_append] at hh
    rcases hh with hh | hh
    · exact iha _ _ _ hh
    · exact ihb _ _ _ hh
  | opt a iha =>
    intro s caps h hh
    rw [Re.run_opt, List.mem_append] at hh
    rcases hh with hh | hh
    · exact iha _ _ _ hh
    · simp at hh; simp [hh]
  | rep p lo hi =>
    intro s caps h hh
    rw [Re.run_rep, List.mem_map] at hh
    obtain ⟨mr, hmr, rfl⟩ := hh
    exact (Re.repRun_sound p s lo hi mr hmr).1
  | grp i a iha =>
    intro s caps h hh
    rw [Re.run_grp, List.mem_map] at hh
    obtain ⟨h1, hh1, rfl⟩ := hh
    exact iha s caps h1 hh1
  | bot =>
    intro s caps h hh
    simp only [Re.run] at hh
    split at hh
    · simp at hh; simp [hh]
    · simp at hh
  | eot =>
    intro s caps h hh
    simp only [Re.run] at hh
    split at hh
    · simp at hh; simp [hh]
    · simp at hh

theorem Re.matchAt_sound (re : Re) (total : Nat) (s : Str) (h : Hit)
    (hm : re.matchAt total s = some h) : h.text ++ h.rest = s := by
  unfold Re.matchAt at hm
  exact Re.run_sound total re s noCaps h (List.mem_of_mem_head? hm)

theorem Re.findAllGo_skip (re : Re) (total : Nat) (rest : Str) :
    ∀ (pre : Str) (b : Bool), pre ≠ [] →
      Re.findAllGo re total pre.length b (pre ++ rest) = Re.findAllGo re total 0 true rest := by
  intro pre
  induction pre with
  | nil => intro b h; exact absurd rfl h
  | cons c p ih =>
    intro b _
    cases p with
    | nil => simp [Re.findAllGo]
    | cons c1 p1 =>
      have := ih false (by simp)
      simp only [List.length_cons, List.cons_append] at this ⊢
      rw [Re.findAllGo]
      simpa using this

theorem Re.findAllGo_hit (re : Re) (total : Nat) (b : Bool) (s : Str) (h : Hit)
    (hm : re.matchAt total s = some h) (hne : h.text ≠ []) :
    Re.findAllGo re total 0 b s = re.submatches h :: Re.findAllGo re total 0 true h.rest := by
  have hs := Re.matchAt_sound re total s h hm
  cases s with
  | nil => simp at hs; exact absurd hs.1 hne
  | cons c t =>
    rw [Re.findAllGo, hm]
    have hemp : h.text.isEmpty = false := by
      cases hx : h.text with
      | nil => exact absurd hx hne
      | cons _ _ => rfl
    simp only [hemp, Bool.false_eq_true, if_false]
    cases hx : h.text with
    | nil => exact absurd hx hne
    | cons c1 p =>
      rw [hx] at hs
      simp only [List.cons_append, List.cons.injEq] at hs
      obtain ⟨_, rfl⟩ := hs
      cases p with
      | nil => simp
      | cons c2 p2 =>
        have := Re.findAllGo_skip re total h.rest (c2 :: p2) false (by simp)
        simpa using this

theorem Re.findAllGo_miss (re : Re) (total : Nat) (b : Bool) (c : Char) (s : Str)
    (hm : re.matchAt total (c :: s) = none) :
    Re.findAllGo re total 0 b (c :: s) = Re.findAllGo re total 0 false s := by
  rw [Re.findAllGo, hm]

theorem bracedKey_some {s k rest : Str} (h : bracedKey s = some (k, rest)) :
    s = '{' :: (k ++ '}' :: rest) ∧ k ≠ [] ∧ ∀ c ∈ k, keyChar c = true := by
  cases s with
  | nil => simp [bracedKey] at h
  | cons c t =>
    simp only [bracedKey] at h
    split at h
    · rename_i hc
      obtain ⟨rfl, hne, hhead⟩ := hc
      simp only [Option.some.injEq, Prod.mk.injEq] at h
      obtain ⟨rfl, rfl⟩ := h
      refine ⟨?_, hne, fun c hc => (List.mem_takeWhile_imp hc)⟩
      have hdw : t.dropWhile keyChar = '}' :: (t.dropWhile keyChar).tail := by
        cases hd : t.dropWhile keyChar with
        | nil => simp [hd] at hhead
        | cons a r => simp [hd] at hhead; simp [hhead]
      rw [← hdw, List.takeWhile_append_dropWhile]
    · simp at h

theorem takeWhile_key_append {p : Char → Bool} (k : Str) (d : Char) (rest : Str)
    (hk : ∀ c ∈ k, p c = true) (hd : p d = false) :
    (k ++ d :: rest).takeWhile p = k ∧ (k ++ d :: rest).dropWhile p = d :: rest := by
  induction k with
  | nil => simp [List.takeWhile_cons, List.dropWhile_cons, hd]
  | cons a k ih =>
    have ha : p a = true := hk a (by simp)
    have := ih (fun c hc => hk c (by simp [hc]))
    simp [List.takeWhile_cons, List.dropWhile_cons, ha, this]

theorem bracedKey_intro (k rest : Str) (hne : k ≠ []) (hk : ∀ c ∈ k, keyChar c = true) :
    bracedKey ('{' :: (k ++ '}' :: rest)) = some (k, rest) := by
  obtain ⟨h1, h2⟩ := takeWhile_key_append k '}' rest hk keyChar_rbrace
  simp [bracedKey, h1, h2, hne]

theorem bracedKey_induction (P : Str → Prop) (hnil : P [])
    (hlit : ∀ c s, bracedKey (c :: s) = none → P s → P (c :: s))
    (hkey : ∀ k rest, k ≠ [] → (∀ c ∈ k, keyChar c = true) → P rest → P ('{' :: (k ++ '}' :: rest))) :
    ∀ s, P s := by
  suffices H : ∀ (n : Nat) (s : Str), s.length = n → P s from fun s => H _ s rfl
  intro n
  induction n using Nat.strong_induction_on with
  | _ n ih =>
    intro s hn
    cases s with
    | nil => exact hnil
    | cons c t =>
      cases hb : bracedKey (c :: t) with
      | none => exact hlit c t hb (ih t.length (by simp [← hn]) t rfl)
      | some kr =>
        obtain ⟨k, rest⟩ := kr
        obtain ⟨hs, hne, hk⟩ := bracedKey_some hb
        rw [hs]
        refine hkey k rest hne hk (ih rest.length ?_ rest rfl)
        rw [← hn, hs]
        simp
        omega

theorem placeholdersGo_skip (rest : Str) :
    ∀ pre : Str, placeholdersGo pre.length (pre ++ rest) = placeholdersGo 0 rest := by
  intro pre
  induction pre with
  | nil => rfl
  | cons c p ih => simpa [placeholdersGo] using ih

theorem placeholders_nil : placeholders [] = [] := rfl

theorem placeholders_lit (c : Char) (s : Str) (h : bracedKey (c :: s) = none) :
    placeholders (c :: s) = placeholders s := by
  simp [placeholders, placeholdersGo, h]

theorem placeholders_key (k rest : Str) (hne : k ≠ []) (hk : ∀ c ∈ k, keyChar c = true) :
    placeholders ('{' :: (k ++ '}' :: rest)) = k :: placeholders rest := by
  have h := bracedKey_intro k rest hne hk
  have hs := placeholdersGo_skip rest (k ++ ['}'])
  simp only [List.length_append, List.length_singleton, List.append_assoc, List.singleton_append] at hs
  simp [placeholders, placeholdersGo, h, hs]

theorem substGo_skip (U : UnicodeTables) (sel : Str → Bool) (rest : Str) :
    ∀ pre : Str, substGo U sel pre.length (pre ++ rest) = substGo U sel 0 rest := by
  intro pre
  induction pre with
  | nil => rfl
  | cons c p ih => simpa [substGo] using ih

theorem substGo_nil (U : UnicodeTables) (sel : Str → Bool) : substGo U sel 0 [] = [] := rfl

theorem substGo_lit (U : UnicodeTables) (sel : Str → Bool) (c : Char) (s : Str)
    (h : bracedKey (c :: s) = none) :
    substGo U sel 0 (c :: s) = c :: substGo U sel 0 s := by
  simp [substGo, h]

theorem substGo_key (U : UnicodeTables) (sel : Str → Bool) (k rest : Str) (hne : k ≠ [])
    (hk : ∀ c ∈ k, keyChar c = true) :
    substGo U sel 0 ('{' :: (k ++ '}' :: rest)) =
      (if sel k then templateToken U k else '{' :: (k ++ ['}'])) ++ substGo U sel 0 rest := by
  have h := bracedKey_intro k rest hne hk
  have hs := substGo_skip U sel rest (k ++ ['}'])
  simp only [List.length_append, List.length_singleton, List.append_assoc, List.singleton_append] at hs
  simp [substGo, h, hs]

/-- The placeholders the code extracts with `simpleURLKeysPattern` are the
placeholders of the text. -/
theorem extract_simple (s : Str) :
    extractPlaceHoldersFromURLTemplate s simpleURLKeysPattern = placeholders s := by
  have key : ∀ (total : Nat) (s : Str) (b : Bool),
      (Re.findAllGo simpleURLKeysPattern total 0 b s).map (fun v => v.getD 1 []) = placeholders s := by
    intro total s
    induction s using bracedKey_induction with
    | hnil =>
      intro b
      simp [Re.findAllGo, Re.matchAt, Re.run_simple, bracedKey, placeholders_nil]
    | hlit c s hb ih =>
      intro b
      rw [Re.findAllGo_miss, ih, placeholders_lit c s hb]
      simp [Re.matchAt, Re.run_simple, hb]
    | hkey k rest hne hk ih =>
      intro b
      have hb := bracedKey_intro k rest hne hk
      have hm : simpleURLKeysPattern.matchAt total ('{' :: (k ++ '}' :: rest))
          = some ⟨'{' :: k ++ ['}'], setCap noCaps 1 k, rest⟩ := by
        simp [Re.matchAt, Re.run_simple, hb]
      rw [Re.findAllGo_hit _ _ _ _ _ hm (by simp), List.map_cons, ih, placeholders_key k rest hne hk]
      simp [Re.submatches, simpleURLKeysPattern, Re.numGroups, Re.lit, setCap]
  exact key s.length s false

theorem ascii_cases (P : Char → Prop) (h : ∀ n, n < 128 → P (Char.ofNat n)) (c : Char)
    (hc : c.toNat < 128) : P c := by
  have := h c.toNat hc
  rwa [Char.ofNat_toNat] at this

theorem val_le_toNat (c : Char) (n : UInt32) (h : c.val ≤ n) : c.toNat ≤ n.toNat := h

theorem keyChar_ascii (c : Char) (h : keyChar c = true) : c.toNat < 128 := by
  simp only [keyChar, Char.isAlpha, Char.isUpper, Char.isLower, Char.isDigit, Bool.or_eq_true,
    Bool.and_eq_true, decide_eq_true_eq, beq_iff_eq] at h
  rcases h with ((h | h) | h) | h
  · rcases h with h | h
    · have := val_le_toNat c 90 h.2
      have e : (90 : UInt32).toNat = 90 := rfl
      omega
    · have := val_le_toNat c 122 h.2
      have e : (122 : UInt32).toNat = 122 := rfl
      omega
  · subst h; decide
  · subst h; decide
  · have := val_le_toNat c 57 h.2
    have e : (57 : UInt32).toNat = 57 := rfl
    omega

theorem hostChar_ascii (c : Char) (h : hostChar c = true) : c.toNat < 128 := by
  simp only [hostChar, Char.isAlpha, Char.isUpper, Char.isLower, Char.isDigit, Bool.or_eq_true,
    Bool.and_eq_true, decide_eq_true_eq, beq_iff_eq] at h
  rcases h with (((h | h) | h) | h) | h
  · rcases h with h | h
    · have := val_le_toNat c 90 h.2
      have e : (90 : UInt32).toNat = 90 := rfl
      omega
    · have := val_le_toNat c 122 h.2
      have e : (122 : UInt32).toNat = 122 := rfl
      omega
  · have := val_le_toNat c 57 h.2
    have e : (57 : UInt32).toNat = 57 := rfl
    omega
  · subst h; decide
  · subst h; decide
  · subst h; decide

theorem keyChar_facts (U : UnicodeTables) (c : Char) (h : keyChar c = true) :
    c ≠ '{' ∧ c ≠ '}' ∧ strings.toTitleRune U c ≠ '{' ∧ strings.toTitleRune U c ≠ '}' := by
  have hc := keyChar_ascii c h
  have hle : c.toNat ≤ 0x7F := by omega
  simp only [strings.toTitleRune, hle, if_true]
  revert h
  refine ascii_cases (fun c => keyChar c = true → c ≠ '{' ∧ c ≠ '}' ∧ c.toUpper ≠ '{' ∧ c.toUpper ≠ '}') ?_ c hc
  decide

theorem title_facts (U : UnicodeTables) (k : Str) (hk : ∀ c ∈ k, keyChar c = true) :
    ∀ prev : Char, ∀ c ∈ strings.titleGo U prev k, c ≠ '{' ∧ c ≠ '}' := by
  induction k with
  | nil => intro prev c hc; simp [strings.titleGo] at hc
  | cons a k ih =>
    intro prev c hc
    have ha := keyChar_facts U a (hk a (by simp))
    simp only [strings.titleGo, List.mem_cons] at hc
    rcases hc with rfl | hc
    · split
      · exact ⟨ha.2.2.1, ha.2.2.2⟩
      · exact ⟨ha.1, ha.2.1⟩
    · exact ih (fun c hc => hk c (by simp [hc])) a c hc

theorem replaceGo_skip (old new rest : Str) :
    ∀ pre : Str, strings.replaceGo old new pre.length (pre ++ rest) = strings.replaceGo old new 0 rest := by
  intro pre
  induction pre with
  | nil => rfl
  | cons c p ih => simpa [strings.replaceGo] using ih

theorem replaceGo_hit (old new rest : Str) (hne : old ≠ []) :
    strings.replaceGo old new 0 (old ++ rest) = new ++ strings.replaceGo old new 0 rest := by
  cases old with
  | nil => exact absurd rfl hne
  | cons c p =>
    have hp : (c :: p).isPrefixOf (c :: (p ++ rest)) = true := by
      rw [List.isPrefixOf_iff_prefix]
      exact ⟨rest, by simp⟩
    have := replaceGo_skip (c :: p) new rest p
    rw [List.cons_append, strings.replaceGo, if_pos hp]
    simp only [List.length_cons, Nat.add_sub_cancel]
    rw [this]

theorem replaceGo_step (old new : Str) (c : Char) (x : Str) (h : ¬ old <+: c :: x) :
    strings.replaceGo old new 0 (c :: x) = c :: strings.replaceGo old new 0 x := by
  have hp : old.isPrefixOf (c :: x) = false := by
    rw [← Bool.not_eq_true, List.isPrefixOf_iff_prefix]
    exact h
  simp [strings.replaceGo, hp]

/-- Text without the first character of `old` is copied. -/
theorem replaceGo_pass (o1 : Char) (old new : Str) (a b : Str) (ha : ∀ c ∈ a, c ≠ o1) :
    strings.replaceGo (o1 :: old) new 0 (a ++ b) = a ++ strings.replaceGo (o1 :: old) new 0 b := by
  induction a with
  | nil => rfl
  | cons c a ih =>
    have hc : c ≠ o1 := ha c (by simp)
    rw [List.cons_append, replaceGo_step, ih (fun c hc => ha c (by simp [hc]))]
    · rfl
    · rintro ⟨t, ht⟩
      simp only [List.cons_append, List.cons.injEq] at ht
      exact hc ht.1.symm

/-- The text searched for a placeholder name: `{name}`. -/
theorem brace_no_match (o1 : Char) (o x : Str) (h1 : keyChar o1 = true)
    (hx : ∀ c r, x = c :: r → keyChar c = false) :
    ¬ ('{' :: o1 :: o) <+: '{' :: x := by
  rintro ⟨t, ht⟩
  cases x with
  | nil => simp at ht
  | cons c r =>
    simp only [List.cons_append, List.cons.injEq, true_and] at ht
    have := hx c r rfl
    rw [← ht.1, h1] at this
    exact absurd this (by simp)

theorem key_prefix_eq (o k : Str) (y z : Str) (ho : ∀ c ∈ o, keyChar c = true)
    (hk : ∀ c ∈ k, keyChar c = true) (h : o ++ '}' :: z <+: k ++ '}' :: y) : o = k := by
  induction o generalizing k with
  | nil =>
    cases k with
    | nil => rfl
    | cons a k =>
      obtain ⟨t, ht⟩ := h
      simp only [List.nil_append, List.cons_append, List.cons.injEq] at ht
      have := hk a (by simp)
      rw [← ht.1, keyChar_rbrace] at this
      exact absurd this (by simp)
  | cons a o ih =>
    cases k with
    | nil =>
      obtain ⟨t, ht⟩ := h
      simp only [List.nil_append, List.cons_append, List.cons.injEq] at ht
      have := ho a (by simp)
      rw [ht.1, keyChar_rbrace] at this
      exact absurd this (by simp)
    | cons b k =>
      obtain ⟨t, ht⟩ := h
      simp only [List.cons_append, List.cons.injEq] at ht
      obtain ⟨rfl, ht⟩ := ht
      have := ih k (fun c hc => ho c (by simp [hc])) (fun c hc => hk c (by simp [hc])) ⟨t, ht⟩
      rw [this]


theorem templateToken_eq (U : UnicodeTables) (k : Str) :
    templateToken U k = '{' :: '{' :: '.' :: (strings.Title U k ++ ['}', '}']) := by
  simp [templateToken]

theorem substGo_head (U : UnicodeTables) (sel : Str → Bool) (s : Str) :
    substGo U sel 0 s = [] ∨ (∃ c t x, s = c :: t ∧ substGo U sel 0 s = c :: x ∧
      (bracedKey s = none → x = substGo U sel 0 t)) := by
  cases s with
  | nil => left; rfl
  | cons c t =>
    right
    cases hb : bracedKey (c :: t) with
    | none => exact ⟨c, t, _, rfl, substGo_lit U sel c t hb, fun _ => rfl⟩
    | some kr =>
      obtain ⟨k, rest⟩ := kr
      obtain ⟨hs, hne, hk⟩ := bracedKey_some hb
      simp only [List.cons.injEq] at hs
      obtain ⟨rfl, rfl⟩ := hs
      rw [substGo_key U sel k rest hne hk]
      by_cases hsel : sel k = true
      · rw [if_pos hsel, templateToken_eq]
        exact ⟨_, _, _, rfl, rfl, fun h => by simp at h⟩
      · rw [if_neg hsel]
        exact ⟨_, _, _, rfl, rfl, fun h => by simp at h⟩

/-- A name followed by a closing brace at the head of the rewritten text stands
at the head of the text itself. -/
theorem subst_prefix_key (U : UnicodeTables) (sel : Str → Bool) (o : Str)
    (ho : ∀ c ∈ o, keyChar c = true) :
    ∀ s : Str, o ++ ['}'] <+: substGo U sel 0 s → o ++ ['}'] <+: s := by
  induction o with
  | nil =>
    intro s h
    rcases substGo_head U sel s with h0 | ⟨c, t, x, rfl, hx, hlit⟩
    · rw [h0] at h
      simp at h
    · rw [hx] at h
      obtain ⟨r, hr⟩ := h
      simp only [List.nil_append, List.singleton_append, List.cons.injEq] at hr
      obtain ⟨rfl, -⟩ := hr
      exact ⟨t, rfl⟩
  | cons a o ih =>
    intro s h
    have ha := keyChar_facts U a (ho a (by simp))
    rcases substGo_head U sel s with h0 | ⟨c, t, x, rfl, hx, hlit⟩
    · rw [h0] at h
      simp at h
    · rw [hx] at h
      obtain ⟨r, hr⟩ := h
      simp only [List.cons_append, List.cons.injEq] at hr
      obtain ⟨rfl, hr⟩ := hr
      have hb : bracedKey (a :: t) = none := by
        cases hb : bracedKey (a :: t) with
        | none => rfl
        | some kr =>
          obtain ⟨hs, -, -⟩ := @bracedKey_some _ kr.1 kr.2 hb
          simp only [List.cons.injEq] at hs
          exact absurd hs.1 ha.1
      have := ih (fun c hc => ho c (by simp [hc])) t ⟨r, by rw [hr, hlit hb]⟩
      obtain ⟨r2, hr2⟩ := this
      exact ⟨r2, by simp [← hr2]⟩

theorem replace_subst (U : UnicodeTables) (sel : Str → Bool) (o : Str) (hne : o ≠ [])
    (ho : ∀ c ∈ o, keyChar c = true) (s : Str) :
    strings.replaceGo ('{' :: (o ++ ['}'])) (templateToken U o) 0 (substGo U sel 0 s)
      = substGo U (fun k => sel k || k == o) 0 s := by
  obtain ⟨o1, o2, rfl⟩ := List.exists_cons_of_ne_nil hne
  have ho1 : keyChar o1 = true := ho o1 (by simp)
  induction s using bracedKey_induction with
  | hnil => rfl
  | hlit c s hb ih =>
    rw [substGo_lit U sel c s hb, substGo_lit U _ c s hb, replaceGo_step, ih]
    rintro ⟨r, hr⟩
    simp only [List.cons_append, List.cons.injEq] at hr
    obtain ⟨rfl, hr⟩ := hr
    have hp : (o1 :: o2) ++ ['}'] <+: substGo U sel 0 s := ⟨r, by simpa using hr⟩
    obtain ⟨r2, hr2⟩ := subst_prefix_key U sel (o1 :: o2) ho s hp
    have := bracedKey_intro (o1 :: o2) r2 hne ho
    rw [← hr2] at hb
    simp only [List.append_assoc, List.singleton_append] at hb
    rw [this] at hb
    exact absurd hb (by simp)
  | hkey k rest hkne hk ih =>
    rw [substGo_key U sel k rest hkne hk, substGo_key U _ k rest hkne hk]
    by_cases hsel : sel k = true
    · have hT := title_facts U k hk ' '
      simp only [hsel, Bool.true_or, if_true, templateToken_eq U k, List.cons_append]
      rw [replaceGo_step _ _ _ _ (brace_no_match o1 _ _ ho1 (fun c r h => by
            simp only [List.cons.injEq] at h; rw [← h.1]; decide)),
        replaceGo_step _ _ _ _ (brace_no_match o1 _ _ ho1 (fun c r h => by
            simp only [List.cons.injEq] at h; rw [← h.1]; decide))]
      have hpass := replaceGo_pass '{' (o1 :: o2 ++ ['}']) (templateToken U (o1 :: o2))
        ('.' :: (strings.Title U k ++ ['}', '}'])) (substGo U sel 0 rest) (by
          intro c hc
          simp only [List.mem_cons, List.mem_append, List.mem_singleton, List.not_mem_nil,
            or_false] at hc
          rcases hc with rfl | hc | rfl | rfl
          · decide
          · exact (hT c hc).1
          · decide
          · decide)
      simp only [List.cons_append] at hpass
      simp only [List.cons_append] at ih
      rw [templateToken_eq U (o1 :: o2)] at hpass ih ⊢
      rw [hpass, ih]
    · by_cases hko : k = o1 :: o2
      · subst hko
        have hh := replaceGo_hit ('{' :: (o1 :: o2 ++ ['}'])) (templateToken U (o1 :: o2))
          (substGo U sel 0 rest) (by simp)
        simp only [hsel, Bool.false_or, beq_self_eq_true, if_true, Bool.false_eq_true, if_false]
        simp only [List.cons_append, List.append_assoc] at hh ih ⊢
        rw [hh, ih]
      · have hbeq : (k == o1 :: o2) = false := by simpa using hko
        simp only [hsel, hbeq, Bool.or_false, Bool.false_eq_true, if_false, List.cons_append]
        rw [replaceGo_step, ← List.cons_append]
        · have hpass := replaceGo_pass '{' (o1 :: o2 ++ ['}']) (templateToken U (o1 :: o2))
            (k ++ ['}']) (substGo U sel 0 rest) (by
              intro c hc
              simp only [List.mem_append, List.mem_singleton] at hc
              rcases hc with hc | rfl
              · exact (keyChar_facts U c (hk c hc)).1
              · decide)
          simp only [List.cons_append] at hpass ih ⊢
          rw [hpass, ih]
        · rintro ⟨r, hr⟩
          simp only [List.cons_append, List.cons.injEq, true_and] at hr
          have := key_prefix_eq (o1 :: o2) k (substGo U sel 0 rest) [] ho hk
            ⟨r, by simpa using hr⟩
          exact hko this.symm

theorem placeholders_keys (s : Str) :
    ∀ k ∈ placeholders s, k ≠ [] ∧ ∀ c ∈ k, keyChar c = true := by
  induction s using bracedKey_induction with
  | hnil => intro k hk; simp [placeholders_nil] at hk
  | hlit c s hb ih => rw [placeholders_lit c s hb]; exact ih
  | hkey k rest hkne hk ih =>
    rw [placeholders_key k rest hkne hk]
    intro x hx
    simp only [List.mem_cons] at hx
    rcases hx with rfl | hx
    · exact ⟨hkne, hk⟩
    · exact ih x hx

theorem subst_none (U : UnicodeTables) (s : Str) : substGo U (fun _ => false) 0 s = s := by
  induction s using bracedKey_induction with
  | hnil => rfl
  | hlit c s hb ih => rw [substGo_lit U _ c s hb, ih]
  | hkey k rest hkne hk ih =>
    rw [substGo_key U _ k rest hkne hk, ih]
    simp

theorem subst_congr (U : UnicodeTables) (sel sel2 : Str → Bool) (s : Str)
    (h : ∀ k ∈ placeholders s, sel k = sel2 k) : substGo U sel 0 s = substGo U sel2 0 s := by
  induction s using bracedKey_induction with
  | hnil => rfl
  | hlit c s hb ih =>
    rw [placeholders_lit c s hb] at h
    rw [substGo_lit U _ c s hb, substGo_lit U _ c s hb, ih h]
  | hkey k rest hkne hk ih =>
    rw [placeholders_key k rest hkne hk] at h
    rw [substGo_key U _ k rest hkne hk, substGo_key U _ k rest hkne hk,
      ih (fun x hx => h x (by simp [hx])), h k (by simp)]

/-- One turn of the rewriting loop of `initBackendURLMappings`. -/
theorem Replace_key (U : UnicodeTables) (sel : Str → Bool) (o : Str) (hne : o ≠ [])
    (ho : ∀ c ∈ o, keyChar c = true) (s : Str) :
    strings.Replace (substGo U sel 0 s) (['{'] ++ o ++ ['}'])
        (['{', '{', '.'] ++ strings.Title U o ++ ['}', '}'])
      = substGo U (fun k => sel k || k == o) 0 s := by
  have h := replace_subst U sel o hne ho s
  obtain ⟨o1, o2, rfl⟩ := List.exists_cons_of_ne_nil hne
  have ho1 := keyChar_facts U o1 (ho o1 (by simp))
  have e1 : ['{'] ++ (o1 :: o2) ++ ['}'] = '{' :: (o1 :: o2 ++ ['}']) := by simp
  have e2 : ['{', '{', '.'] ++ strings.Title U (o1 :: o2) ++ ['}', '}'] = templateToken U (o1 :: o2) := by
    simp [templateToken]
  rw [e1, e2, strings.Replace, if_neg, if_neg, h]
  · simp
  · rw [templateToken_eq]
    intro heq
    simp only [List.cons_append, List.cons.injEq, true_and] at heq
    exact ho1.1 heq.1

theorem foldl_Replace (U : UnicodeTables) (s : Str) :
    ∀ (l : List Str) (sel : Str → Bool), (∀ o ∈ l, o ≠ [] ∧ ∀ c ∈ o, keyChar c = true) →
      l.foldl (fun tmp o => strings.Replace tmp (['{'] ++ o ++ ['}'])
          (['{', '{', '.'] ++ strings.Title U o ++ ['}', '}'])) (substGo U sel 0 s)
        = substGo U (fun k => sel k || l.contains k) 0 s := by
  intro l
  induction l with
  | nil => intro sel _; simp
  | cons o l ih =>
    intro sel hl
    obtain ⟨hne, ho⟩ := hl o (by simp)
    rw [List.foldl_cons, Replace_key U sel o hne ho s, ih _ (fun x hx => hl x (by simp [hx]))]
    congr 1
    funext k
    simp only [List.contains_cons, Bool.or_assoc]

/-- The rewriting loop of `initBackendURLMappings`, run over all the placeholders
of a pattern, compiles the pattern. -/
theorem foldl_Replace_placeholders (U : UnicodeTables) (s : Str) :
    (placeholders s).foldl (fun tmp o => strings.Replace tmp (['{'] ++ o ++ ['}'])
        (['{', '{', '.'] ++ strings.Title U o ++ ['}', '}'])) s
      = compiledURLPattern U s := by
  have h := foldl_Replace U s (placeholders s) (fun _ => false) (placeholders_keys s)
  rw [subst_none] at h
  rw [h]
  exact subst_congr U _ _ s (fun k hk => by simpa using hk)

theorem urlMappingsLoop_ok (U : UnicodeTables) (inputParams outputParams : List Str) :
    ∀ (rest : List Str) (tmp : Str) (backend : Backend), (∀ o ∈ rest, o ∈ inputParams) →
      urlMappingsLoop U inputParams outputParams rest tmp backend =
        ({ backend with
            URLPattern := rest.foldl (fun tmp o => strings.Replace tmp (['{'] ++ o ++ ['}'])
              (['{', '{', '.'] ++ strings.Title U o ++ ['}', '}'])) tmp
            URLKeys := backend.URLKeys ++ rest.map (strings.Title U) }, none) := by
  intro rest
  induction rest with
  | nil => intro tmp backend _; simp [urlMappingsLoop]
  | cons o rest ih =>
    intro tmp backend h
    have ho : o ∈ inputParams := h o (by simp)
    rw [urlMappingsLoop, if_neg (by simpa using ho), ih _ _ (fun x hx => h x (by simp [hx]))]
    simp

theorem urlMappingsLoop_err (U : UnicodeTables) (inputParams outputParams : List Str) :
    ∀ (rest : List Str) (tmp : Str) (backend : Backend),
      (urlMappingsLoop U inputParams outputParams rest tmp backend).2 =
        (rest.find? (fun o => decide (o ∉ inputParams))).map
          (fun x => InitError.undefinedOutput x inputParams outputParams) := by
  intro rest
  induction rest with
  | nil => intro tmp backend; simp [urlMappingsLoop]
  | cons o rest ih =>
    intro tmp backend
    by_cases ho : o ∈ inputParams
    · rw [urlMappingsLoop, if_neg (by simpa using ho), ih]
      simp [List.find?_cons, ho]
    · rw [urlMappingsLoop, if_pos ho]
      simp [List.find?_cons, ho]

theorem dedup_length_le_of_subset (a b : List Str) (h : ∀ k ∈ a, k ∈ b) :
    a.dedup.length ≤ b.dedup.length := by
  have hsub : a.dedup ⊆ b.dedup := fun k hk => List.mem_dedup.2 (h k (List.mem_dedup.1 hk))
  exact ((List.nodup_dedup a).subperm hsub).length_le

/-- Claim C1. For every backend URL pattern and every input placeholder set that
holds all the placeholders of the slash-prefixed pattern, `initBackendURLMappings`
returns no error and leaves in `URLPattern` the slash-prefixed pattern with every
occurrence of a placeholder `{name}` replaced by `{{.N}}`, `N` the `strings.Title`
of the name, and every other character unchanged. -/
theorem initBackendURLMappings_compiles (U : UnicodeTables) (backend : Backend)
    (inputParams : List Str)
    (h : ∀ k ∈ placeholders (cleanPath backend.URLPattern), k ∈ inputParams) :
    (initBackendURLMappings U backend inputParams).2 = none ∧
      (initBackendURLMappings U backend inputParams).1.URLPattern
        = compiledURLPattern U (cleanPath backend.URLPattern) := by
  have hle := dedup_length_le_of_subset _ _ h
  simp only [initBackendURLMappings, extract_simple, gt_iff_lt, Nat.not_lt.2 hle, if_false]
  rw [urlMappingsLoop_ok U _ _ _ _ _ h]
  exact ⟨rfl, foldl_Replace_placeholders U _⟩

/-- Witness of claim C1: the pattern and the input set of the repository's test. -/
theorem initBackendURLMappings_compiles_witness :
    (initBackendURLMappings asciiTables sampleBackend sampleInputSet).2 = none ∧
      (initBackendURLMappings asciiTables sampleBackend sampleInputSet).1.URLPattern
        = "/supu/{{.Tupu_56}}/{{.Supu-5t6}}?a={{.Foo}}&b={{.Foo}}".toList :=
  have h := initBackendURLMappings_compiles asciiTables sampleBackend sampleInputSet (by decide)
  ⟨h.1, h.2.trans (by decide)⟩

/-- The success criterion of `initBackendURLMappings`. -/
theorem urlMappings_none_iff (U : UnicodeTables) (backend : Backend) (inputParams : List Str) :
    (initBackendURLMappings U backend inputParams).2 = none ↔
      ∀ k ∈ extractPlaceHoldersFromURLTemplate (cleanPath backend.URLPattern) simpleURLKeysPattern,
        k ∈ inputParams := by
  have hsub := dedup_length_le_of_subset
    (extractPlaceHoldersFromURLTemplate (cleanPath backend.URLPattern) simpleURLKeysPattern) inputParams
  simp only [initBackendURLMappings]
  split
  · rename_i hgt
    constructor
    · intro h; simp at h
    · intro h
      exact absurd (hsub h) (Nat.not_le.2 hgt)
  · rw [urlMappingsLoop_err]
    simp [List.find?_eq_none]

/-- Claim C2. `initBackendURLMappings` returns no error exactly when every
placeholder extracted from the slash-prefixed URL pattern is a key of the input
set; and whenever that membership holds the count of distinct output
placeholders does not exceed the count of input placeholders, so the count
check rejects nothing the membership check accepts, however often a declared
placeholder is reused. -/
theorem initBackendURLMappings_ok_iff (U : UnicodeTables) (backend : Backend)
    (inputParams : List Str) :
    ((initBackendURLMappings U backend inputParams).2 = none ↔
        ∀ k ∈ extractPlaceHoldersFromURLTemplate (cleanPath backend.URLPattern) simpleURLKeysPattern,
          k ∈ inputParams) ∧
      ((∀ k ∈ extractPlaceHoldersFromURLTemplate (cleanPath backend.URLPattern) simpleURLKeysPattern,
          k ∈ inputParams) →
        ¬ (extractPlaceHoldersFromURLTemplate (cleanPath backend.URLPattern)
            simpleURLKeysPattern).dedup.length > inputParams.dedup.length) := by
  have hsub := dedup_length_le_of_subset
    (extractPlaceHoldersFromURLTemplate (cleanPath backend.URLPattern) simpleURLKeysPattern) inputParams
  exact ⟨urlMappings_none_iff U backend inputParams, fun h => Nat.not_lt.2 (hsub h)⟩

/-- Claim C3. When `initBackendURLMappings` fails: if the distinct output
placeholders outnumber the input placeholders the message begins with
"Too many output params!"; otherwise it begins with "Undefined output param [x]!",
`x` the first placeholder, in order of occurrence in the pattern, that is not in
the input set. -/
theorem initBackendURLMappings_error_kind (U : UnicodeTables) (backend : Backend)
    (inputParams : List Str) (err : InitError)
    (h : (initBackendURLMappings U backend inputParams).2 = some err) :
    if (extractPlaceHoldersFromURLTemplate (cleanPath backend.URLPattern)
        simpleURLKeysPattern).dedup.length > inputParams.dedup.length then
      "Too many output params!".toList <+: err.Error
    else
      ∃ x, (extractPlaceHoldersFromURLTemplate (cleanPath backend.URLPattern)
            simpleURLKeysPattern).find? (fun o => decide (o ∉ inputParams)) = some x ∧
        "Undefined output param [".toList ++ x ++ "]!".toList <+: err.Error := by
  simp only [initBackendURLMappings] at h
  split
  · rename_i hgt
    rw [if_pos hgt] at h
    simp only [Option.some.injEq] at h
    subst h
    exact ⟨_, by simp [InitError.Error]; rfl⟩
  · rename_i hgt
    rw [if_neg hgt, urlMappingsLoop_err, Option.map_eq_some'] at h
    obtain ⟨x, hx, rfl⟩ := h
    exact ⟨x, hx, _, by simp [InitError.Error]; rfl⟩


/-- Witness of claim C3: the repository's test of the undefined output parameter. -/
theorem initBackendURLMappings_error_kind_witness :
    (initBackendURLMappings asciiTables sampleBackend sampleUndefinedSet).2
        = some (.undefinedOutput "tupu_56".toList sampleUndefinedSet
            ["tupu_56".toList, "supu-5t6".toList, "foo".toList, "foo".toList]) ∧
      "Undefined output param [tupu_56]!".toList <+:
        (InitError.undefinedOutput "tupu_56".toList sampleUndefinedSet
            ["tupu_56".toList, "supu-5t6".toList, "foo".toList, "foo".toList]).Error := by
  have h := initBackendURLMappings_error_kind asciiTables sampleBackend sampleUndefinedSet
    (.undefinedOutput "tupu_56".toList sampleUndefinedSet
      ["tupu_56".toList, "supu-5t6".toList, "foo".toList, "foo".toList]) (by decide)
  rw [if_neg (by decide)] at h
  obtain ⟨x, hx, hp⟩ := h
  have hx2 : x = "tupu_56".toList := by
    have : (extractPlaceHoldersFromURLTemplate (cleanPath sampleBackend.URLPattern)
        simpleURLKeysPattern).find? (fun o => decide (o ∉ sampleUndefinedSet))
          = some "tupu_56".toList := by decide
    rw [this] at hx
    exact (Option.some.inj hx).symm
  subst hx2
  exact ⟨by decide, hp⟩

/-- The key list a successful `initBackendURLMappings` leaves: as many empty
strings as there are placeholders, then the normalized names. -/
theorem initBackendURLMappings_urlKeys (U : UnicodeTables) (backend : Backend)
    (inputParams : List Str)
    (h : (initBackendURLMappings U backend inputParams).2 = none) :
    (initBackendURLMappings U backend inputParams).1.URLKeys
      = List.replicate (placeholders (cleanPath backend.URLPattern)).length []
        ++ (placeholders (cleanPath backend.URLPattern)).map (strings.Title U) := by
  have hall := (urlMappings_none_iff U backend inputParams).1 h
  have hle := dedup_length_le_of_subset _ _ hall
  simp only [initBackendURLMappings, gt_iff_lt, Nat.not_lt.2 hle, if_false]
  rw [urlMappingsLoop_ok U _ _ _ _ _ hall, extract_simple]

/-- Claim C4 (the code departs from it). For the pattern `/users/{user}` and the
input set `{user}` the call succeeds and extracts the one placeholder `user`, yet
`URLKeys` is left with two entries, an empty string before `User`:
`make([]string, len(outputParams))` already holds one empty string per
placeholder when the names are appended. -/
theorem initBackendURLMappings_urlKeys_padded :
    extractPlaceHoldersFromURLTemplate (cleanPath sampleUserBackend.URLPattern)
        simpleURLKeysPattern = ["user".toList] ∧
      initBackendURLMappings asciiTables sampleUserBackend ["user".toList]
        = ({ URLPattern := "/users/{{.User}}".toList, URLKeys := [[], "User".toList] }, none) := by
  decide

theorem urlMappingsLoop_frame (U : UnicodeTables) (inputParams outputParams : List Str) :
    ∀ (rest : List Str) (tmp : Str) (b : Backend),
      (urlMappingsLoop U inputParams outputParams rest tmp b).1.Group = b.Group ∧
      (urlMappingsLoop U inputParams outputParams rest tmp b).1.Method = b.Method ∧
      (urlMappingsLoop U inputParams outputParams rest tmp b).1.Host = b.Host ∧
      (urlMappingsLoop U inputParams outputParams rest tmp b).1.Blacklist = b.Blacklist ∧
      (urlMappingsLoop U inputParams outputParams rest tmp b).1.Whitelist = b.Whitelist ∧
      (urlMappingsLoop U inputParams outputParams rest tmp b).1.Mapping = b.Mapping ∧
      (urlMappingsLoop U inputParams outputParams rest tmp b).1.Encoding = b.Encoding ∧
      (urlMappingsLoop U inputParams outputParams rest tmp b).1.Target = b.Target ∧
      (urlMappingsLoop U inputParams outputParams rest tmp b).1.ConcurrentCalls = b.ConcurrentCalls ∧
      (urlMappingsLoop U inputParams outputParams rest tmp b).1.Timeout = b.Timeout ∧
      (urlMappingsLoop U inputParams outputParams rest tmp b).1.Decoder = b.Decoder := by
  intro rest
  induction rest with
  | nil => intro tmp b; simp [urlMappingsLoop]
  | cons o rest ih =>
    intro tmp b
    rw [urlMappingsLoop]
    split
    · simp
    · exact ih _ _

/-- The fields `initBackendURLMappings` leaves alone. -/
theorem initBackendURLMappings_frame (U : UnicodeTables) (b : Backend) (inputParams : List Str) :
    (initBackendURLMappings U b inputParams).1.Group = b.Group ∧
    (initBackendURLMappings U b inputParams).1.Method = b.Method ∧
    (initBackendURLMappings U b inputParams).1.Host = b.Host ∧
    (initBackendURLMappings U b inputParams).1.Blacklist = b.Blacklist ∧
    (initBackendURLMappings U b inputParams).1.Whitelist = b.Whitelist ∧
    (initBackendURLMappings U b inputParams).1.Mapping = b.Mapping ∧
    (initBackendURLMappings U b inputParams).1.Encoding = b.Encoding ∧
    (initBackendURLMappings U b inputParams).1.Target = b.Target ∧
    (initBackendURLMappings U b inputParams).1.ConcurrentCalls = b.ConcurrentCalls ∧
    (initBackendURLMappings U b inputParams).1.Timeout = b.Timeout ∧
    (initBackendURLMappings U b inputParams).1.Decoder = b.Decoder := by
  simp only [initBackendURLMappings]
  split
  · simp
  · exact urlMappingsLoop_frame U _ _ _ _ _

/-- What `initBackendDefaults` returns. -/
theorem initBackendDefaults_some (U : UnicodeTables) (s : ServiceConfig) (e : EndpointConfig)
    (b b1 : Backend) (h : initBackendDefaults U s e b = some b1) :
    (b.Host = [] → b1.Host = s.Host) ∧ (b.Host ≠ [] → cleanHosts b.Host = some b1.Host) ∧
    b1.Method = (if b.Method = [] then e.Method else b.Method) ∧
    b1.Timeout = e.Timeout ∧ b1.ConcurrentCalls = e.ConcurrentCalls ∧
    b1.Decoder = some (decoderFor U b.Encoding) := by
  by_cases hm : b.Method = [] <;> by_cases hh : b.Host = []
  · simp only [initBackendDefaults, NONE, hm, hh, List.length_nil, if_true, Option.some.injEq] at h
    subst h
    simp [hm, hh]
  · have hl : ¬ b.Host.length = 0 := by simpa using hh
    simp only [initBackendDefaults, NONE, hm, hl, if_true, if_false] at h
    cases hc : cleanHosts b.Host with
    | none => simp [hc] at h
    | some hs =>
      simp only [hc, Option.some.injEq] at h
      subst h
      simp [hm, hh]
  · simp only [initBackendDefaults, NONE, hm, hh, List.length_nil, if_true, if_false,
      Option.some.injEq] at h
    subst h
    simp [hm, hh]
  · have hl : ¬ b.Host.length = 0 := by simpa using hh
    simp only [initBackendDefaults, NONE, hm, hl, if_false] at h
    cases hc : cleanHosts b.Host with
    | none => simp [hc] at h
    | some hs =>
      simp only [hc, Option.some.injEq] at h
      subst h
      simp [hm, hh]

/-- The loop over the backends, when it completes, has run `initBackendDefaults`,
the title-casing of the method and `initBackendURLMappings` on each backend. -/
theorem initBackends_done (U : UnicodeTables) (s : ServiceConfig) (e : EndpointConfig)
    (inputSet : List Str) :
    ∀ bs bs2 : List Backend, initBackends U s e inputSet bs = .done bs2 →
      List.Forall₂ (fun b b2 => ∃ b1, initBackendDefaults U s e b = some b1 ∧
        initBackendURLMappings U { b1 with Method := strings.ToTitle U b1.Method } inputSet
          = (b2, none)) bs bs2 := by
  intro bs
  induction bs with
  | nil =>
    intro bs2 h
    simp only [initBackends, Outcome.done.injEq] at h
    subst h
    exact List.Forall₂.nil
  | cons b bs ih =>
    intro bs2 h
    rw [initBackends] at h
    cases hd : initBackendDefaults U s e b with
    | none => simp [hd] at h
    | some b1 =>
      simp only [hd] at h
      cases hm : initBackendURLMappings U { b1 with Method := strings.ToTitle U b1.Method } inputSet with
      | mk b2 err =>
        cases err with
        | some err => simp [hm] at h
        | none =>
          simp only [hm] at h
          cases hr : initBackends U s e inputSet bs with
          | panicked => simp [hr] at h
          | failed st err => simp [hr] at h
          | done bs3 =>
            simp only [hr, Outcome.done.injEq] at h
            subst h
            exact List.Forall₂.cons ⟨b1, hd, hm⟩ (ih bs3 hr)

theorem initEndpoints_done (U : UnicodeTables) (rp : Int) (s : ServiceConfig) :
    ∀ es es2 : List EndpointConfig, initEndpoints U rp s es = .done es2 →
      List.Forall₂ (fun e e2 => initEndpoint U rp s e = .done e2) es es2 := by
  intro es
  induction es with
  | nil =>
    intro es2 h
    simp only [initEndpoints, Outcome.done.injEq] at h
    subst h
    exact List.Forall₂.nil
  | cons e es ih =>
    intro es2 h
    rw [initEndpoints] at h
    cases he : initEndpoint U rp s e with
    | panicked => simp [he] at h
    | failed st err => simp [he] at h
    | done e2 =>
      simp only [he] at h
      cases hr : initEndpoints U rp s es with
      | panicked => simp [hr] at h
      | failed st err => simp [hr] at h
      | done es3 =>
        simp only [hr, Outcome.done.injEq] at h
        subst h
        exact List.Forall₂.cons he (ih es3 hr)


/-- What `initEndpointDefaults` leaves in each field. -/
theorem initEndpointDefaults_fields (U : UnicodeTables) (s : ServiceConfig) (e : EndpointConfig) :
    (initEndpointDefaults U s e).Method = (if e.Method = [] then GET else strings.ToTitle U e.Method) ∧
    (initEndpointDefaults U s e).CacheTTL
      = (if s.CacheTTL ≠ 0 ∧ e.CacheTTL = 0 then s.CacheTTL else e.CacheTTL) ∧
    (initEndpointDefaults U s e).Timeout
      = (if s.Timeout ≠ 0 ∧ e.Timeout = 0 then s.Timeout else e.Timeout) ∧
    (initEndpointDefaults U s e).ConcurrentCalls
      = (if e.ConcurrentCalls = 0 then 1 else e.ConcurrentCalls) ∧
    (initEndpointDefaults U s e).Backend = e.Backend ∧
    (initEndpointDefaults U s e).Endpoint = e.Endpoint ∧
    (initEndpointDefaults U s e).QueryString = e.QueryString := by
  simp only [initEndpointDefaults, NONE]
  by_cases h1 : e.Method = [] <;> by_cases h2 : s.CacheTTL = 0 <;> by_cases h2b : e.CacheTTL = 0 <;>
    by_cases h3 : s.Timeout = 0 <;> by_cases h3b : e.Timeout = 0 <;>
    by_cases h4 : e.ConcurrentCalls = 0 <;>
    simp [h1, h2, h2b, h3, h3b, h4]

/-- What a completed turn of the loop over the endpoints leaves. -/
theorem initEndpoint_done (U : UnicodeTables) (rp : Int) (s : ServiceConfig)
    (e e2 : EndpointConfig) (h : initEndpoint U rp s e = .done e2) :
    validate { e with Endpoint := cleanPath e.Endpoint } = none ∧
    e2.Endpoint = getEndpointPath rp (cleanPath e.Endpoint)
      (extractPlaceHoldersFromURLTemplate (cleanPath e.Endpoint) endpointURLKeysPattern) ∧
    e2.Method = (if e.Method = [] then GET else strings.ToTitle U e.Method) ∧
    e2.CacheTTL = (if s.CacheTTL ≠ 0 ∧ e.CacheTTL = 0 then s.CacheTTL else e.CacheTTL) ∧
    e2.Timeout = (if s.Timeout ≠ 0 ∧ e.Timeout = 0 then s.Timeout else e.Timeout) ∧
    e2.ConcurrentCalls = (if e.ConcurrentCalls = 0 then 1 else e.ConcurrentCalls) ∧
    e2.QueryString = e.QueryString ∧
    List.Forall₂ (fun b b2 =>
      (b.Host = [] → b2.Host = s.Host) ∧ (b.Host ≠ [] → cleanHosts b.Host = some b2.Host) ∧
      b2.Method = strings.ToTitle U (if b.Method = [] then e2.Method else b.Method) ∧
      b2.Timeout = e2.Timeout ∧ b2.ConcurrentCalls = e2.ConcurrentCalls ∧
      b2.Decoder = some (decoderFor U b.Encoding)) e.Backend e2.Backend := by
  simp only [initEndpoint] at h
  cases hv : validate { e with Endpoint := cleanPath e.Endpoint } with
  | some err => simp [hv] at h
  | none =>
    simp only [hv] at h
    generalize extractPlaceHoldersFromURLTemplate (cleanPath e.Endpoint) endpointURLKeysPattern
      = inp at h ⊢
    have hf := initEndpointDefaults_fields U s
      { e with Endpoint := getEndpointPath rp (cleanPath e.Endpoint) inp }
    generalize initEndpointDefaults U s
      { e with Endpoint := getEndpointPath rp (cleanPath e.Endpoint) inp } = e1 at h hf
    simp only at hf
    obtain ⟨f1, f2, f3, f4, f5, f6, f7⟩ := hf
    cases hb : initBackends U s e1 inp e1.Backend with
    | panicked => simp [hb] at h
    | failed st err => simp [hb] at h
    | done bs2 =>
      simp only [hb, Outcome.done.injEq] at h
      subst h
      refine ⟨rfl, f6, f1, f2, f3, f4, f7, ?_⟩
      have hall := initBackends_done U s e1 _ _ _ hb
      rw [f5] at hall
      refine hall.imp ?_
      rintro b b2 ⟨b1, hd, hm⟩
      obtain ⟨d1, d2, d3, d4, d5, d6⟩ := initBackendDefaults_some U s e1 b b1 hd
      have hfr := initBackendURLMappings_frame U { b1 with Method := strings.ToTitle U b1.Method } inp
      rw [hm] at hfr
      simp only at hfr
      obtain ⟨-, g2, g3, -, -, -, -, -, g9, g10, g11⟩ := hfr
      refine ⟨fun hx => by rw [g3, d1 hx], fun hx => by rw [g3]; exact d2 hx, ?_, ?_, ?_, ?_⟩
      · rw [g2, d3]
      · rw [g10, d4]
      · rw [g9, d5]
      · rw [g11, d6]

/-- What a completed `Init` leaves at the service level, and that it has run the
loop body on every endpoint. -/
theorem Init_done (U : UnicodeTables) (rp : Int) (s s2 : ServiceConfig)
    (h : Init U rp s = .done s2) :
    s.Version = 1 ∧ cleanHosts s.Host = some s2.Host ∧ s2.Timeout = s.Timeout ∧
    s2.CacheTTL = s.CacheTTL ∧ s2.Port = (if s.Port = 0 then defaultPort else s.Port) ∧
    s2.Version = s.Version ∧ s2.Debug = s.Debug ∧
    List.Forall₂ (fun e e2 => initEndpoint U rp { s2 with Endpoints := s.Endpoints } e = .done e2)
      s.Endpoints s2.Endpoints := by
  unfold Init at h
  by_cases hv : s.Version = 1
  · rw [if_neg (not_not.2 hv)] at h
    by_cases hp : s.Port = 0
    · rw [if_pos hp] at h
      dsimp only at h
      cases hc : cleanHosts s.Host with
      | none => rw [hc] at h; exact absurd h (by simp)
      | some hosts =>
        rw [hc] at h
        dsimp only at h
        cases he : initEndpoints U rp { s with Port := defaultPort, Host := hosts } s.Endpoints with
        | panicked => rw [he] at h; exact absurd h (by simp)
        | failed st err => rw [he] at h; exact absurd h (by simp)
        | done es2 =>
          rw [he] at h
          simp only [Outcome.done.injEq] at h
          subst h
          exact ⟨hv, rfl, rfl, rfl, by simp [hp], rfl, rfl, initEndpoints_done U rp _ _ _ he⟩
    · rw [if_neg hp] at h
      dsimp only at h
      cases hc : cleanHosts s.Host with
      | none => rw [hc] at h; exact absurd h (by simp)
      | some hosts =>
        rw [hc] at h
        dsimp only at h
        cases he : initEndpoints U rp { s with Host := hosts } s.Endpoints with
        | panicked => rw [he] at h; exact absurd h (by simp)
        | failed st err => rw [he] at h; exact absurd h (by simp)
        | done es2 =>
          rw [he] at h
          simp only [Outcome.done.injEq] at h
          subst h
          exact ⟨hv, rfl, rfl, rfl, by simp [hp], rfl, rfl, initEndpoints_done U rp _ _ _ he⟩
  · rw [if_pos hv] at h
    exact absurd h (by simp)

theorem sampleConfig_Init :
    Init asciiTables ColonRouterPatternBuilder sampleConfig = .done sampleCompiled := by
  decide

theorem cleanHosts_some :
    ∀ hs cs : List Str, cleanHosts hs = some cs →
      List.Forall₂ (fun h c => cleanHost h = some c) hs cs := by
  intro hs
  induction hs with
  | nil =>
    intro cs h
    simp only [cleanHosts, Option.some.injEq] at h
    subst h
    exact List.Forall₂.nil
  | cons a hs ih =>
    intro cs h
    rw [cleanHosts] at h
    cases ha : cleanHost a with
    | none => rw [ha] at h; exact absurd h (by simp)
    | some c =>
      rw [ha] at h
      dsimp only at h
      cases hr : cleanHosts hs with
      | none => rw [hr] at h; exact absurd h (by simp)
      | some cs2 =>
        rw [hr] at h
        simp only [Option.some.injEq] at h
        subst h
        exact List.Forall₂.cons ha (ih cs2 hr)

/-- What a completed `Init` leaves in every endpoint and backend, in terms of the
configuration it was given. -/
theorem Init_done_endpoints (U : UnicodeTables) (rp : Int) (s s2 : ServiceConfig)
    (h : Init U rp s = .done s2) :
    List.Forall₂ (fun e e2 =>
      e2.Method = (if e.Method = [] then GET else strings.ToTitle U e.Method) ∧
      e2.CacheTTL = (if s.CacheTTL ≠ 0 ∧ e.CacheTTL = 0 then s.CacheTTL else e.CacheTTL) ∧
      e2.Timeout = (if s.Timeout ≠ 0 ∧ e.Timeout = 0 then s.Timeout else e.Timeout) ∧
      e2.ConcurrentCalls = (if e.ConcurrentCalls = 0 then 1 else e.ConcurrentCalls) ∧
      List.Forall₂ (fun b b2 =>
        (b.Host = [] → b2.Host = s2.Host) ∧ (b.Host ≠ [] → cleanHosts b.Host = some b2.Host) ∧
        b2.Method = strings.ToTitle U (if b.Method = [] then e2.Method else b.Method) ∧
        b2.Timeout = e2.Timeout ∧ b2.ConcurrentCalls = e2.ConcurrentCalls ∧
        b2.Decoder = some (decoderFor U b.Encoding)) e.Backend e2.Backend)
      s.Endpoints s2.Endpoints := by
  obtain ⟨-, -, t1, t2, -, -, -, hall⟩ := Init_done U rp s s2 h
  refine hall.imp ?_
  intro e e2 he
  obtain ⟨-, -, f1, f2, f3, f4, -, f5⟩ := initEndpoint_done U rp _ e e2 he
  simp only [t1, t2] at f2 f3
  exact ⟨f1, f2, f3, f4, f5⟩


theorem bareConfig_Init :
    Init asciiTables ColonRouterPatternBuilder bareConfig = .done bareCompiled := by
  decide

theorem forall₂_mem_right {α β : Type} {R : α → β → Prop} {l1 : List α} {l2 : List β}
    (h : List.Forall₂ R l1 l2) : ∀ b ∈ l2, ∃ a ∈ l1, R a b := by
  induction h with
  | nil => intro b hb; simp at hb
  | cons hab _ ih =>
    intro b hb
    simp only [List.mem_cons] at hb
    rcases hb with rfl | hb
    · exact ⟨_, by simp, hab⟩
    · obtain ⟨a, ha, hr⟩ := ih b hb
      exact ⟨a, by simp [ha], hr⟩

theorem cleanHosts_length (hs cs : List Str) (h : cleanHosts hs = some cs) :
    cs.length = hs.length :=
  (cleanHosts_some hs cs h).length_eq.symm

/-- Counterexample to claim C5 as stated: `Init` succeeds on a configuration
without hosts and timeouts whose endpoint asks for -1 concurrent calls, and
leaves a backend with an empty host list, a zero timeout and a negative
concurrency. -/
theorem Init_backend_resources_counterexample :
    ∃ s2, Init asciiTables ColonRouterPatternBuilder bareConfig = .done s2 ∧
      ∃ e ∈ s2.Endpoints, ∃ b ∈ e.Backend,
        b.Host = [] ∧ b.Timeout = 0 ∧ b.ConcurrentCalls = -1 :=
  ⟨bareCompiled, by decide, by decide⟩

/-- Claim C5, amended. After a successful `Init` every backend has a non-zero
concurrency, positive unless the endpoint was configured with a negative one;
its host list is non-empty exactly when the backend or the service was
configured with at least one host; its timeout is non-zero exactly when the
endpoint or the service was configured with a non-zero timeout. -/
theorem Init_backend_resources (U : UnicodeTables) (rp : Int) (s s2 : ServiceConfig)
    (h : Init U rp s = .done s2) :
    List.Forall₂ (fun e e2 => List.Forall₂ (fun b b2 =>
        b2.ConcurrentCalls ≠ 0 ∧ (0 ≤ e.ConcurrentCalls → 0 < b2.ConcurrentCalls) ∧
        (b2.Host ≠ [] ↔ (b.Host ≠ [] ∨ s.Host ≠ [])) ∧
        (b2.Timeout ≠ 0 ↔ (e.Timeout ≠ 0 ∨ s.Timeout ≠ 0))) e.Backend e2.Backend)
      s.Endpoints s2.Endpoints := by
  have hhost := cleanHosts_length _ _ (Init_done U rp s s2 h).2.1
  refine (Init_done_endpoints U rp s s2 h).imp ?_
  rintro e e2 ⟨-, -, f3, f4, hb⟩
  refine hb.imp ?_
  rintro b b2 ⟨g1, g2, -, g4, g5, -⟩
  rw [g4, g5, f3, f4]
  refine ⟨?_, ?_, ?_, ?_⟩
  · split <;> simp [*]
  · intro h0
    split
    · decide
    · omega
  · by_cases hb0 : b.Host = []
    · rw [g1 hb0]
      simp only [hb0, ne_eq, not_true_eq_false, false_or]
      rw [← List.length_eq_zero, ← List.length_eq_zero (l := s.Host), hhost]
    · have := cleanHosts_length _ _ (g2 hb0)
      simp only [ne_eq, hb0, not_false_eq_true, true_or, iff_true]
      rw [← List.length_eq_zero, this, List.length_eq_zero]
      exact hb0
  · by_cases ht : e.Timeout = 0 <;> by_cases hs : s.Timeout = 0 <;> simp [ht, hs]

/-- Witness of claim C5 (amended): the configuration of the repository's test of `Init`. -/
theorem Init_backend_resources_witness :
    List.Forall₂ (fun e e2 => List.Forall₂ (fun b b2 =>
        b2.ConcurrentCalls ≠ 0 ∧ (0 ≤ e.ConcurrentCalls → 0 < b2.ConcurrentCalls) ∧
        (b2.Host ≠ [] ↔ (b.Host ≠ [] ∨ sampleConfig.Host ≠ [])) ∧
        (b2.Timeout ≠ 0 ↔ (e.Timeout ≠ 0 ∨ sampleConfig.Timeout ≠ 0))) e.Backend e2.Backend)
      sampleConfig.Endpoints sampleCompiled.Endpoints :=
  Init_backend_resources asciiTables ColonRouterPatternBuilder sampleConfig sampleCompiled (by decide)

/-- Claim C6. After a successful `Init`, every endpoint has its own timeout
(cache TTL) when that was configured non-zero and the service's otherwise, its
own concurrency when configured non-zero and 1 otherwise; it keeps all its
backends, and each of them has the endpoint's resolved timeout and
concurrency, whatever it held before. -/
theorem Init_cascades_defaults (U : UnicodeTables) (rp : Int) (s s2 : ServiceConfig)
    (h : Init U rp s = .done s2) :
    List.Forall₂ (fun e e2 =>
        e2.Timeout = (if e.Timeout ≠ 0 then e.Timeout else s.Timeout) ∧
        e2.CacheTTL = (if e.CacheTTL ≠ 0 then e.CacheTTL else s.CacheTTL) ∧
        e2.ConcurrentCalls = (if e.ConcurrentCalls ≠ 0 then e.ConcurrentCalls else 1) ∧
        e2.Backend.length = e.Backend.length ∧
        ∀ b2 ∈ e2.Backend, b2.Timeout = e2.Timeout ∧ b2.ConcurrentCalls = e2.ConcurrentCalls)
      s.Endpoints s2.Endpoints := by
  refine (Init_done_endpoints U rp s s2 h).imp ?_
  rintro e e2 ⟨-, f2, f3, f4, hb⟩
  refine ⟨?_, ?_, ?_, hb.length_eq.symm, ?_⟩
  · rw [f3]
    by_cases ht : e.Timeout = 0 <;> by_cases hs : s.Timeout = 0 <;> simp [ht, hs]
  · rw [f2]
    by_cases ht : e.CacheTTL = 0 <;> by_cases hs : s.CacheTTL = 0 <;> simp [ht, hs]
  · rw [f4]
    by_cases ht : e.ConcurrentCalls = 0 <;> simp [ht]
  · intro b2 hb2
    obtain ⟨b, -, -, -, -, g4, g5, -⟩ := forall₂_mem_right hb b2 hb2
    exact ⟨g4, g5⟩


/-- Witness of claim C6: the configuration of the repository's test of `Init`. -/
theorem Init_cascades_defaults_witness :
    List.Forall₂ (fun e e2 =>
        e2.Timeout = (if e.Timeout ≠ 0 then e.Timeout else sampleConfig.Timeout) ∧
        e2.CacheTTL = (if e.CacheTTL ≠ 0 then e.CacheTTL else sampleConfig.CacheTTL) ∧
        e2.ConcurrentCalls = (if e.ConcurrentCalls ≠ 0 then e.ConcurrentCalls else 1) ∧
        e2.Backend.length = e.Backend.length ∧
        ∀ b2 ∈ e2.Backend, b2.Timeout = e2.Timeout ∧ b2.ConcurrentCalls = e2.ConcurrentCalls)
      sampleConfig.Endpoints sampleCompiled.Endpoints :=
  Init_cascades_defaults asciiTables ColonRouterPatternBuilder sampleConfig sampleCompiled (by decide)

theorem asciiTables_title_idem (c : Char) :
    strings.toTitleRune asciiTables (strings.toTitleRune asciiTables c)
      = strings.toTitleRune asciiTables c := by
  by_cases hc : c.toNat ≤ 0x7F
  · have hlt : c.toNat < 128 := by omega
    have := ascii_cases (fun c => c.toUpper.toNat ≤ 0x7F ∧ c.toUpper.toUpper = c.toUpper)
      (by decide) c hlt
    simp only [strings.toTitleRune, hc, if_true, this.1, this.2]
  · simp only [strings.toTitleRune, hc, if_false, asciiTables]

theorem ToTitle_idem (U : UnicodeTables)
    (hU : ∀ c, strings.toTitleRune U (strings.toTitleRune U c) = strings.toTitleRune U c)
    (m : Str) : strings.ToTitle U (strings.ToTitle U m) = strings.ToTitle U m := by
  simp only [strings.ToTitle, List.map_map]
  exact List.map_congr_left (fun c _ => hU c)

theorem ToTitle_GET (U : UnicodeTables) : strings.ToTitle U GET = GET := by
  have h : ∀ c ∈ GET, strings.toTitleRune U c = c := by
    intro c hc
    have hc2 : c = 'G' ∨ c = 'E' ∨ c = 'T' := by simpa [GET] using hc
    rcases hc2 with rfl | rfl | rfl <;> rfl
  unfold strings.ToTitle
  conv_rhs => rw [← List.map_id GET]
  exact List.map_congr_left h

theorem ToTitle_eq_nil (U : UnicodeTables) (m : Str) : strings.ToTitle U m = [] ↔ m = [] := by
  simp [strings.ToTitle]

/-- Claim C7. After a successful `Init`, every endpoint's method is `GET` if it
was configured empty and otherwise the configured method mapped by
`strings.ToTitle` (upper case on ASCII letters); every backend's method is the
endpoint's resolved method if its own was configured empty and otherwise its
own mapped by `strings.ToTitle`; no method is left empty. The title case
mapping of the Unicode tables is taken to be idempotent. -/
theorem Init_methods (U : UnicodeTables)
    (hU : ∀ c, strings.toTitleRune U (strings.toTitleRune U c) = strings.toTitleRune U c)
    (rp : Int) (s s2 : ServiceConfig) (h : Init U rp s = .done s2) :
    List.Forall₂ (fun e e2 =>
        e2.Method = (if e.Method = [] then "GET".toList else strings.ToTitle U e.Method) ∧
        e2.Method ≠ [] ∧
        List.Forall₂ (fun b b2 =>
          b2.Method = (if b.Method = [] then e2.Method else strings.ToTitle U b.Method) ∧
          b2.Method ≠ []) e.Backend e2.Backend)
      s.Endpoints s2.Endpoints := by
  refine (Init_done_endpoints U rp s s2 h).imp ?_
  rintro e e2 ⟨f1, -, -, -, hb⟩
  have hidem : strings.ToTitle U e2.Method = e2.Method := by
    rw [f1]
    split
    · exact ToTitle_GET U
    · exact ToTitle_idem U hU _
  have hne : e2.Method ≠ [] := by
    rw [f1]
    split
    · decide
    · rename_i hm
      exact fun h0 => hm ((ToTitle_eq_nil U _).1 h0)
  refine ⟨f1, hne, hb.imp ?_⟩
  rintro b b2 ⟨-, -, g3, -, -, -⟩
  have hm : b2.Method = (if b.Method = [] then e2.Method else strings.ToTitle U b.Method) := by
    rw [g3]
    split
    · exact hidem
    · rfl
  refine ⟨hm, ?_⟩
  rw [hm]
  split
  · exact hne
  · rename_i hbm
    exact fun h0 => hbm ((ToTitle_eq_nil U _).1 h0)

/-- Witness of claim C7: the configuration of the repository's test of `Init`. -/
theorem Init_methods_witness :
    List.Forall₂ (fun e e2 =>
        e2.Method = (if e.Method = [] then "GET".toList else strings.ToTitle asciiTables e.Method) ∧
        e2.Method ≠ [] ∧
        List.Forall₂ (fun b b2 =>
          b2.Method = (if b.Method = [] then e2.Method else strings.ToTitle asciiTables b.Method) ∧
          b2.Method ≠ []) e.Backend e2.Backend)
      sampleConfig.Endpoints sampleCompiled.Endpoints :=
  Init_methods asciiTables asciiTables_title_idem ColonRouterPatternBuilder sampleConfig
    sampleCompiled (by decide)

/-- Claim C8. After a successful `Init` the service holds its hosts cleaned one
by one; a backend configured with an empty host list has exactly that list,
and a backend configured with hosts of its own has those cleaned one by one,
in order, and nothing else. -/
theorem Init_backend_hosts (U : UnicodeTables) (rp : Int) (s s2 : ServiceConfig)
    (h : Init U rp s = .done s2) :
    List.Forall₂ (fun h c => cleanHost h = some c) s.Host s2.Host ∧
    List.Forall₂ (fun e e2 => List.Forall₂ (fun b b2 =>
        (b.Host = [] → b2.Host = s2.Host) ∧
        (b.Host ≠ [] → List.Forall₂ (fun h c => cleanHost h = some c) b.Host b2.Host))
        e.Backend e2.Backend)
      s.Endpoints s2.Endpoints := by
  refine ⟨cleanHosts_some _ _ (Init_done U rp s s2 h).2.1, ?_⟩
  refine (Init_done_endpoints U rp s s2 h).imp ?_
  rintro e e2 ⟨-, -, -, -, hb⟩
  refine hb.imp ?_
  rintro b b2 ⟨g1, g2, -, -, -, -⟩
  exact ⟨g1, fun hne => cleanHosts_some _ _ (g2 hne)⟩

/-- Witness of claim C8: the configuration of the repository's test of `Init`. -/
theorem Init_backend_hosts_witness :
    List.Forall₂ (fun h c => cleanHost h = some c) sampleConfig.Host sampleCompiled.Host ∧
    List.Forall₂ (fun e e2 => List.Forall₂ (fun b b2 =>
        (b.Host = [] → b2.Host = sampleCompiled.Host) ∧
        (b.Host ≠ [] → List.Forall₂ (fun h c => cleanHost h = some c) b.Host b2.Host))
        e.Backend e2.Backend)
      sampleConfig.Endpoints sampleCompiled.Endpoints :=
  Init_backend_hosts asciiTables ColonRouterPatternBuilder sampleConfig sampleCompiled (by decide)

theorem Re.mem_run_cat (total : Nat) (a b : Re) (s : Str) (caps : Nat → Str) (h : Hit) :
    h ∈ Re.run total (.cat a b) s caps ↔
      ∃ h1 ∈ Re.run total a s caps, ∃ h2 ∈ Re.run total b h1.rest h1.caps,
        h = ⟨h1.text ++ h2.text, h2.caps, h2.rest⟩ := by
  rw [Re.run_cat, List.mem_flatMap]
  constructor
  · rintro ⟨h1, hh1, hh⟩
    rw [List.mem_map] at hh
    obtain ⟨h2, hh2, rfl⟩ := hh
    exact ⟨h1, hh1, h2, hh2, rfl⟩
  · rintro ⟨h1, hh1, h2, hh2, rfl⟩
    exact ⟨h1, hh1, List.mem_map.2 ⟨h2, hh2, rfl⟩⟩

theorem Re.run_str (total : Nat) (w : Str) :
    ∀ (s : Str) (caps : Nat → Str),
      Re.run total (Re.str w) s caps = if w <+: s then [⟨w, caps, s.drop w.length⟩] else [] := by
  induction w with
  | nil => intro s caps; simp [Re.str, Re.run]
  | cons c w ih =>
    intro s caps
    cases w with
    | nil =>
      cases s with
      | nil => simp [Re.str, Re.run_lit_nil]
      | cons x t =>
        rw [Re.str, Re.run_lit_cons]
        by_cases hx : x = c
        · subst hx
          simp
        · have : ¬ [c] <+: x :: t := by
            rintro ⟨r, hr⟩
            simp at hr
            exact hx hr.1.symm
          simp [hx, this]
    | cons c2 w2 =>
      have hstr : Re.str (c :: c2 :: w2) = .cat (Re.lit c) (Re.str (c2 :: w2)) := by
        rw [Re.str]
        simp
      rw [hstr, Re.run_cat]
      cases s with
      | nil => simp [Re.run_lit_nil]
      | cons x t =>
        rw [Re.run_lit_cons]
        by_cases hx : x = c
        · subst hx
          simp only [if_true, List.flatMap_cons, List.flatMap_nil, List.append_nil, ih]
          by_cases hp : c2 :: w2 <+: t
          · have : x :: c2 :: w2 <+: x :: t := by
              obtain ⟨r, hr⟩ := hp
              exact ⟨r, by simp [← hr]⟩
            simp [hp, this]
          · have : ¬ x :: c2 :: w2 <+: x :: t := by
              rintro ⟨r, hr⟩
              simp at hr
              exact hp ⟨r, by simp [hr]⟩
            simp [hp, this]
        · have : ¬ c :: c2 :: w2 <+: x :: t := by
            rintro ⟨r, hr⟩
            simp at hr
            exact hx hr.1.symm
          simp [hx, this]


theorem Re.mem_run_str (total : Nat) (w s : Str) (caps : Nat → Str) (h : Hit)
    (hh : h ∈ Re.run total (Re.str w) s caps) : h.text = w ∧ h.caps = caps := by
  rw [Re.run_str] at hh
  split at hh
  · simp only [List.mem_singleton] at hh
    subst hh
    exact ⟨rfl, rfl⟩
  · simp at hh

theorem Re.mem_run_lit (total : Nat) (a : Char) (s : Str) (caps : Nat → Str) (h : Hit)
    (hh : h ∈ Re.run total (Re.lit a) s caps) :
    h.text = [a] ∧ h.caps = caps ∧ s = a :: h.rest := by
  cases s with
  | nil => rw [Re.run_lit_nil] at hh; simp at hh
  | cons c t =>
    rw [Re.run_lit_cons] at hh
    split at hh
    · rename_i hc
      simp only [List.mem_singleton] at hh
      subst hh
      subst hc
      exact ⟨rfl, rfl, rfl⟩
    · simp at hh

theorem Re.mem_run_opt_lit (total : Nat) (a : Char) (s : Str) (caps : Nat → Str) (h : Hit)
    (hh : h ∈ Re.run total (.opt (Re.lit a)) s caps) :
    (h.text = [a] ∨ h.text = []) ∧ h.caps = caps := by
  rw [Re.run_opt, List.mem_append] at hh
  rcases hh with hh | hh
  · obtain ⟨h1, h2, -⟩ := Re.mem_run_lit total a s caps h hh
    exact ⟨Or.inl h1, h2⟩
  · simp only [List.mem_singleton] at hh
    subst hh
    exact ⟨Or.inr rfl, rfl⟩

/-- The ways of matching `https?://`. -/
theorem Re.mem_run_scheme (total : Nat) (s : Str) (caps : Nat → Str) (h : Hit)
    (hh : h ∈ Re.run total
      (.cat (Re.str "http".toList) (.cat (.opt (Re.lit 's')) (Re.str "://".toList))) s caps) :
    (h.text = "http://".toList ∨ h.text = "https://".toList) ∧ h.caps = caps := by
  rw [Re.mem_run_cat] at hh
  obtain ⟨h1, hh1, h2, hh2, rfl⟩ := hh
  rw [Re.mem_run_cat] at hh2
  obtain ⟨h3, hh3, h4, hh4, rfl⟩ := hh2
  obtain ⟨t1, c1⟩ := Re.mem_run_str _ _ _ _ _ hh1
  obtain ⟨t3, c3⟩ := Re.mem_run_opt_lit _ _ _ _ _ hh3
  obtain ⟨t4, c4⟩ := Re.mem_run_str _ _ _ _ _ hh4
  simp only
  refine ⟨?_, by rw [c4, c3, c1]⟩
  rw [t1, t4]
  rcases t3 with t3 | t3 <;> rw [t3]
  · right; decide
  · left; decide

/-- The shape of the groups of any match of `hostPattern`. -/
theorem hostPattern_groups (total : Nat) (s : Str) (h : Hit)
    (hh : h ∈ Re.run total hostPattern s noCaps) :
    (h.caps 1 = [] ∨ h.caps 1 = "http://".toList ∨ h.caps 1 = "https://".toList) ∧
    h.caps 2 ≠ [] ∧ (∀ c ∈ h.caps 2, hostChar c = true) ∧
    (h.caps 3 = [] ∨ ∃ d, h.caps 3 = ':' :: d ∧ 2 ≤ d.length ∧ d.length ≤ 6 ∧
      ∀ c ∈ d, c.isDigit = true) := by
  unfold hostPattern at hh
  rw [Re.mem_run_cat] at hh
  obtain ⟨h1, hh1, h2, hh2, rfl⟩ := hh
  rw [Re.mem_run_cat] at hh2
  obtain ⟨h3, hh3, h4, hh4, rfl⟩ := hh2
  rw [Re.mem_run_cat] at hh4
  obtain ⟨h5, hh5, h6, hh6, rfl⟩ := hh4
  -- the last option leaves the groups alone
  have e6 : h6.caps = h5.caps := by
    exact (Re.mem_run_opt_lit _ _ _ _ _ hh6).2
  -- the port
  have e5 : h5.caps = h3.caps ∨ ∃ d, h5.caps = setCap h3.caps 3 (':' :: d) ∧ 2 ≤ d.length ∧
      d.length ≤ 6 ∧ ∀ c ∈ d, c.isDigit = true := by
    rw [Re.run_opt, List.mem_append] at hh5
    rcases hh5 with hh5 | hh5
    · right
      rw [Re.run_grp, List.mem_map] at hh5
      obtain ⟨h7, hh7, rfl⟩ := hh5
      rw [Re.mem_run_cat] at hh7
      obtain ⟨h8, hh8, h9, hh9, rfl⟩ := hh7
      rw [Re.run_rep, List.mem_map] at hh9
      obtain ⟨mr, hmr, rfl⟩ := hh9
      obtain ⟨-, r2, r3, r4⟩ := Re.repRun_sound _ _ _ _ _ hmr
      obtain ⟨t8, c8, -⟩ := Re.mem_run_lit _ _ _ _ _ hh8
      refine ⟨mr.1, ?_, r3, r4 6 rfl, r2⟩
      simp only [t8, c8, List.singleton_append]
    · left
      simp only [List.mem_singleton] at hh5
      subst hh5
      rfl
  -- the authority
  have e3 : h3.caps = setCap h1.caps 2 h3.text ∧ h3.text ≠ [] ∧ ∀ c ∈ h3.text, hostChar c = true := by
    rw [Re.run_grp, List.mem_map] at hh3
    obtain ⟨h7, hh7, rfl⟩ := hh3
    rw [Re.run_rep, List.mem_map] at hh7
    obtain ⟨mr, hmr, rfl⟩ := hh7
    obtain ⟨-, r2, r3, -⟩ := Re.repRun_sound _ _ _ _ _ hmr
    refine ⟨rfl, ?_, r2⟩
    intro h0
    simp only at h0
    rw [h0] at r3
    simp at r3
  -- the scheme
  have e1 : h1.caps = noCaps ∨ h1.caps = setCap noCaps 1 "http://".toList ∨
      h1.caps = setCap noCaps 1 "https://".toList := by
    rw [Re.run_opt, List.mem_append] at hh1
    rcases hh1 with hh1 | hh1
    · right
      rw [Re.run_grp, List.mem_map] at hh1
      obtain ⟨h7, hh7, rfl⟩ := hh1
      obtain ⟨ht, hc⟩ := Re.mem_run_scheme total s noCaps h7 hh7
      simp only
      rw [hc]
      rcases ht with ht | ht
      · left; rw [ht]
      · right; rw [ht]
    · left
      simp only [List.mem_singleton] at hh1
      subst hh1
      rfl
  obtain ⟨e3a, e3b, e3c⟩ := e3
  simp only [e6]
  have c2 : h5.caps 2 = h3.text := by
    rcases e5 with e5 | ⟨d, e5, -⟩ <;> rw [e5] <;> simp [e3a, setCap]
  have c1 : h5.caps 1 = h1.caps 1 := by
    rcases e5 with e5 | ⟨d, e5, -⟩ <;> rw [e5] <;> simp [e3a, setCap]
  have c3 : h5.caps 3 = [] ∨ ∃ d, h5.caps 3 = ':' :: d ∧ 2 ≤ d.length ∧ d.length ≤ 6 ∧
      ∀ c ∈ d, c.isDigit = true := by
    rcases e5 with e5 | ⟨d, e5, hd⟩
    · left
      rw [e5, e3a]
      rcases e1 with e1 | e1 | e1 <;> rw [e1] <;> simp [setCap, noCaps]
    · right
      exact ⟨d, by rw [e5]; simp [setCap], hd⟩
  refine ⟨?_, by rw [c2]; exact e3b, by rw [c2]; exact e3c, c3⟩
  rw [c1]
  rcases e1 with e1 | e1 | e1 <;> rw [e1] <;> simp [setCap, noCaps]

theorem Re.head_run_cat (total : Nat) (a b : Re) (s : Str) (caps : Nat → Str) (h1 h2 : Hit)
    (e1 : (Re.run total a s caps).head? = some h1)
    (e2 : (Re.run total b h1.rest h1.caps).head? = some h2) :
    (Re.run total (.cat a b) s caps).head? = some ⟨h1.text ++ h2.text, h2.caps, h2.rest⟩ := by
  rw [Re.run_cat]
  cases ha : Re.run total a s caps with
  | nil => rw [ha] at e1; simp at e1
  | cons x xs =>
    rw [ha] at e1
    simp only [List.head?_cons, Option.some.injEq] at e1
    subst e1
    cases hb : Re.run total b x.rest x.caps with
    | nil => rw [hb] at e2; simp at e2
    | cons y ys =>
      rw [hb] at e2
      simp only [List.head?_cons, Option.some.injEq] at e2
      subst e2
      simp [hb]

theorem Re.head_run_opt (total : Nat) (a : Re) (s : Str) (caps : Nat → Str) (h : Hit)
    (e : (Re.run total a s caps).head? = some h) :
    (Re.run total (.opt a) s caps).head? = some h := by
  rw [Re.run_opt, List.head?_append, e]
  rfl

theorem Re.head_run_opt_skip (total : Nat) (a : Re) (s : Str) (caps : Nat → Str)
    (e : Re.run total a s caps = []) :
    (Re.run total (.opt a) s caps).head? = some ⟨[], caps, s⟩ := by
  rw [Re.run_opt, e]
  rfl

theorem Re.head_run_grp (total : Nat) (i : Nat) (a : Re) (s : Str) (caps : Nat → Str) (h : Hit)
    (e : (Re.run total a s caps).head? = some h) :
    (Re.run total (.grp i a) s caps).head? = some ⟨h.text, setCap h.caps i h.text, h.rest⟩ := by
  rw [Re.run_grp, List.head?_map, e]
  rfl

/-- A repetition takes a whole text of the class when the bounds allow it. -/
theorem Re.repRun_all (p : Char → Bool) (d : Str) :
    ∀ (lo : Nat) (hi : Option Nat), (∀ c ∈ d, p c = true) → lo ≤ d.length →
      (∀ h, hi = some h → d.length ≤ h) → (Re.repRun p lo hi d).head? = some (d, []) := by
  induction d with
  | nil =>
    intro lo hi _ hlo _
    have : lo = 0 := by simpa using hlo
    simp [Re.repRun, this]
  | cons c d ih =>
    intro lo hi hp hlo hhi
    have hc : p c = true := hp c (by simp)
    have hne : (hi != some 0) = true := by
      cases hi with
      | none => rfl
      | some h =>
        have := hhi h rfl
        simp only [List.length_cons] at this
        simp only [bne_iff_ne, ne_eq, Option.some.injEq]
        omega
    have := ih (lo - 1) (hi.map Nat.pred) (fun x hx => hp x (by simp [hx]))
      (by simp only [List.length_cons] at hlo; omega)
      (by
        intro h hh
        cases hi with
        | none => simp at hh
        | some h0 =>
          simp only [Option.map_some', Option.some.injEq] at hh
          have := hhi h0 rfl
          simp only [List.length_cons] at this
          have hp : Nat.pred h0 = h0 - 1 := rfl
          omega)
    rw [Re.repRun]
    simp only [hc, hne, Bool.and_self, if_true, List.head?_append, List.head?_map, this]
    rfl

/-- The first way of matching a greedy unbounded repetition. -/
theorem Re.head_repRun_none (p : Char → Bool) (s : Str) (lo : Nat)
    (hlo : lo ≤ (s.takeWhile p).length) :
    (Re.repRun p lo none s).head? = some (s.takeWhile p, s.dropWhile p) := by
  obtain ⟨tl, h1, -⟩ := Re.repRun_none p s lo
  rw [h1, if_pos hlo]
  rfl

theorem Re.findAllGo_mem (re : Re) (total : Nat) (s : Str) :
    ∀ (k : Nat) (b : Bool) (m : List Str), m ∈ Re.findAllGo re total k b s →
      ∃ (t : Str) (h : Hit), re.matchAt total t = some h ∧ m = re.submatches h := by
  induction s with
  | nil =>
    intro k b m hm
    rw [Re.findAllGo] at hm
    cases hh : re.matchAt total [] with
    | none => rw [hh] at hm; simp at hm
    | some h =>
      rw [hh] at hm
      dsimp only at hm
      split at hm
      · simp at hm
      · simp only [List.mem_singleton] at hm
        exact ⟨[], h, hh, hm⟩
  | cons c s ih =>
    intro k b m hm
    cases k with
    | succ k =>
      rw [Re.findAllGo] at hm
      exact ih _ _ m hm
    | zero =>
      rw [Re.findAllGo] at hm
      cases hh : re.matchAt total (c :: s) with
      | none =>
        rw [hh] at hm
        exact ih _ _ m hm
      | some h =>
        rw [hh] at hm
        dsimp only at hm
        split at hm
        · rw [List.mem_append] at hm
          rcases hm with hm | hm
          · split at hm
            · simp at hm
            · simp only [List.mem_singleton] at hm
              exact ⟨c :: s, h, hh, hm⟩
          · exact ih _ _ m hm
        · rw [List.mem_cons] at hm
          rcases hm with hm | hm
          · exact ⟨c :: s, h, hh, hm⟩
          · exact ih _ _ m hm

theorem http_toList : "http".toList = ['h', 't', 't', 'p'] := rfl
theorem sep_toList : "://".toList = [':', '/', '/'] := rfl
theorem httpScheme_toList : "http://".toList = ['h', 't', 't', 'p', ':', '/', '/'] := rfl
theorem httpsScheme_toList : "https://".toList = ['h', 't', 't', 'p', 's', ':', '/', '/'] := rfl

/-- The scheme expression takes a scheme at the head of a text. -/
theorem Re.run_scheme_http (total : Nat) (x : Str) (caps : Nat → Str) :
    Re.run total (.cat (Re.str "http".toList) (.cat (.opt (Re.lit 's')) (Re.str "://".toList)))
      ("http://".toList ++ x) caps = [⟨"http://".toList, caps, x⟩] := by
  simp [Re.run_cat, Re.run_str, Re.run_opt, Re.run_lit_cons, http_toList, sep_toList,
    httpScheme_toList]

theorem Re.run_scheme_https (total : Nat) (x : Str) (caps : Nat → Str) :
    Re.run total (.cat (Re.str "http".toList) (.cat (.opt (Re.lit 's')) (Re.str "://".toList)))
      ("https://".toList ++ x) caps = [⟨"https://".toList, caps, x⟩] := by
  simp [Re.run_cat, Re.run_str, Re.run_opt, Re.run_lit_cons, http_toList, sep_toList,
    httpsScheme_toList]


theorem takeWhile_all_append (p : Char → Bool) (a q : Str) (ha : ∀ c ∈ a, p c = true)
    (hq : q = [] ∨ ∃ c r, q = c :: r ∧ p c = false) :
    (a ++ q).takeWhile p = a ∧ (a ++ q).dropWhile p = q := by
  rcases hq with rfl | ⟨c, r, rfl, hc⟩
  · simp only [List.append_nil]
    exact ⟨List.takeWhile_eq_self_iff.2 ha, List.dropWhile_eq_nil_iff.2 ha⟩
  · exact takeWhile_key_append a c r ha hc

/-- The port expression and the trailing slash option on a port at the end of the text. -/
theorem Re.head_run_port (total : Nat) (q : Str) (caps : Nat → Str)
    (hq : q = [] ∨ ∃ d, q = ':' :: d ∧ 2 ≤ d.length ∧ d.length ≤ 6 ∧ ∀ c ∈ d, c.isDigit = true) :
    ∃ h, (Re.run total
        (.cat (.opt (.grp 3 (.cat (Re.lit ':') (.rep Char.isDigit 2 (some 6))))) (.opt (Re.lit '/')))
        q caps).head? = some h ∧
      h.text = q ∧ h.rest = [] ∧ h.caps 3 = (if q = [] then caps 3 else q) ∧
      ∀ i, i ≠ 3 → h.caps i = caps i := by
  rcases hq with rfl | ⟨d, rfl, h2, h6, hd⟩
  · refine ⟨⟨[], caps, []⟩, ?_, rfl, rfl, rfl, fun _ _ => rfl⟩
    simp [Re.run_cat, Re.run_opt, Re.run_grp, Re.run_lit_nil]
  · have hrep := Re.repRun_all Char.isDigit d 2 (some 6) hd h2 (fun h hh => by
      simp only [Option.some.injEq] at hh
      omega)
    have h1 : (Re.run total (.cat (Re.lit ':') (.rep Char.isDigit 2 (some 6))) (':' :: d) caps).head?
        = some ⟨[':'] ++ d, caps, []⟩ :=
      Re.head_run_cat total _ _ _ caps ⟨[':'], caps, d⟩ ⟨d, caps, []⟩
        (by rw [Re.run_lit_cons]; rfl)
        (by rw [Re.run_rep, List.head?_map, hrep]; rfl)
    have h3 := Re.head_run_opt total _ _ caps _ (Re.head_run_grp total 3 _ _ caps _ h1)
    have h4 := Re.head_run_cat total _ (.opt (Re.lit '/')) _ caps _
      ⟨[], setCap caps 3 ([':'] ++ d), []⟩ h3
      (Re.head_run_opt_skip total _ _ _ (Re.run_lit_nil total '/' _))
    refine ⟨_, h4, by simp, rfl, by simp [setCap], ?_⟩
    intro i hi
    simp [setCap, hi]

/-- On a host in clean form, scheme then authority then port, `hostPattern`
matches the whole text, with these three as its groups. -/
theorem hostPattern_match_clean (total : Nat) (S a q : Str)
    (hS : S = "http://".toList ∨ S = "https://".toList)
    (ha : a ≠ []) (hac : ∀ c ∈ a, hostChar c = true)
    (hq : q = [] ∨ ∃ d, q = ':' :: d ∧ 2 ≤ d.length ∧ d.length ≤ 6 ∧ ∀ c ∈ d, c.isDigit = true) :
    ∃ h, hostPattern.matchAt total (S ++ (a ++ q)) = some h ∧ h.text = S ++ (a ++ q) ∧
      h.rest = [] ∧ h.caps 1 = S ∧ h.caps 2 = a ∧ h.caps 3 = q := by
  have hsch : (Re.run total
      (.opt (.grp 1 (.cat (Re.str "http".toList) (.cat (.opt (Re.lit 's')) (Re.str "://".toList)))))
      (S ++ (a ++ q)) noCaps).head? = some ⟨S, setCap noCaps 1 S, a ++ q⟩ := by
    apply Re.head_run_opt
    rcases hS with rfl | rfl
    · exact Re.head_run_grp total 1 _ _ noCaps ⟨_, noCaps, a ++ q⟩
        (by rw [Re.run_scheme_http]; rfl)
    · exact Re.head_run_grp total 1 _ _ noCaps ⟨_, noCaps, a ++ q⟩
        (by rw [Re.run_scheme_https]; rfl)
  have hq2 : q = [] ∨ ∃ c r, q = c :: r ∧ hostChar c = false := by
    rcases hq with rfl | ⟨d, rfl, -⟩
    · exact Or.inl rfl
    · exact Or.inr ⟨':', d, rfl, by decide⟩
  obtain ⟨htw, hdw⟩ := takeWhile_all_append hostChar a q hac hq2
  have hauth : (Re.run total (.grp 2 (.rep hostChar 1 none)) (a ++ q) (setCap noCaps 1 S)).head?
      = some ⟨a, setCap (setCap noCaps 1 S) 2 a, q⟩ := by
    have hrep := Re.head_repRun_none hostChar (a ++ q) 1 (by
      rw [htw]
      cases a with
      | nil => exact absurd rfl ha
      | cons _ _ => simp)
    rw [htw, hdw] at hrep
    exact Re.head_run_grp total 2 _ _ _ ⟨a, _, q⟩ (by rw [Re.run_rep, List.head?_map, hrep]; rfl)
  obtain ⟨hp, hp1, hp2, hp3, hp4, hp5⟩ := Re.head_run_port total q (setCap (setCap noCaps 1 S) 2 a) hq
  have h2 := Re.head_run_cat total _ _ _ _ _ _ hauth hp1
  have h1 := Re.head_run_cat total _ _ _ _ _ _ hsch h2
  refine ⟨_, h1, by simp [hp2], hp3, ?_, ?_, ?_⟩
  · simp only
    rw [hp5 1 (by decide)]
    simp [setCap]
  · simp only
    rw [hp5 2 (by decide)]
    simp [setCap]
  · simp only
    rw [hp4]
    split
    · rename_i h0
      rw [h0]
      simp [setCap, noCaps]
    · rfl


theorem hostPattern_numGroups : hostPattern.numGroups = 3 := by decide

theorem hostPattern_submatches (h : Hit) :
    hostPattern.submatches h = [h.text, h.caps 1, h.caps 2, h.caps 3] := by
  simp [Re.submatches, hostPattern_numGroups, List.range_succ]

theorem hostPattern_matchAt_nil (total : Nat) : hostPattern.matchAt total [] = none := by
  simp [Re.matchAt, hostPattern, Re.run_cat, Re.run_opt, Re.run_grp, Re.run_rep, Re.run_str,
    Re.repRun, http_toList]

theorem Join_three (x y z : Str) : strings.Join [x, y, z] [] = x ++ (y ++ z) := by
  simp [strings.Join, List.intercalate]

/-- The form of every cleaned host: a scheme, an authority and maybe a port. -/
theorem cleanHost_shape (host r : Str) (h : cleanHost host = some r) :
    ∃ S a q, (S = "http://".toList ∨ S = "https://".toList) ∧ a ≠ [] ∧
      (∀ c ∈ a, hostChar c = true) ∧
      (q = [] ∨ ∃ d, q = ':' :: d ∧ 2 ≤ d.length ∧ d.length ≤ 6 ∧ ∀ c ∈ d, c.isDigit = true) ∧
      r = S ++ (a ++ q) := by
  unfold cleanHost at h
  cases hf : hostPattern.FindAllStringSubmatch host with
  | nil => rw [hf] at h; simp at h
  | cons m tl =>
    cases tl with
    | cons m2 tl2 => rw [hf] at h; simp at h
    | nil =>
      rw [hf] at h
      have hm : m ∈ Re.findAllGo hostPattern host.length 0 false host := by
        unfold Re.FindAllStringSubmatch at hf
        rw [hf]
        simp
      obtain ⟨t, hit, hmatch, rfl⟩ := Re.findAllGo_mem _ _ _ _ _ _ hm
      obtain ⟨g1, g2, g3, g4⟩ := hostPattern_groups host.length t hit
        (List.mem_of_mem_head? hmatch)
      rw [hostPattern_submatches] at h
      simp only [List.drop_succ_cons, List.drop_zero, Join_three, Option.some.injEq] at h
      subst h
      refine ⟨if hit.caps 1 = [] then "http://".toList else hit.caps 1, hit.caps 2, hit.caps 3,
        ?_, g2, g3, g4, rfl⟩
      rcases g1 with g1 | g1 | g1 <;> rw [g1]
      · left; rfl
      · left; rfl
      · right; rfl

/-- A host in clean form cleans to itself. -/
theorem cleanHost_clean (S a q : Str)
    (hS : S = "http://".toList ∨ S = "https://".toList)
    (ha : a ≠ []) (hac : ∀ c ∈ a, hostChar c = true)
    (hq : q = [] ∨ ∃ d, q = ':' :: d ∧ 2 ≤ d.length ∧ d.length ≤ 6 ∧ ∀ c ∈ d, c.isDigit = true) :
    cleanHost (S ++ (a ++ q)) = some (S ++ (a ++ q)) := by
  obtain ⟨h, hm, ht, hr, c1, c2, c3⟩ :=
    hostPattern_match_clean (S ++ (a ++ q)).length S a q hS ha hac hq
  have hSne : S ≠ [] := by
    rcases hS with rfl | rfl <;> decide
  have hne : h.text ≠ [] := by
    rw [ht]
    simp [hSne]
  have hall := Re.findAllGo_hit hostPattern _ false _ h hm hne
  rw [hr] at hall
  have hnil : Re.findAllGo hostPattern (S ++ (a ++ q)).length 0 true [] = [] := by
    rw [Re.findAllGo, hostPattern_matchAt_nil]
  rw [hnil, hostPattern_submatches, ht, c1, c2, c3] at hall
  unfold cleanHost Re.FindAllStringSubmatch
  rw [hall]
  simp only [List.drop_succ_cons, List.drop_zero, Join_three, if_neg hSne]

/-- Claim C10. Host cleaning is idempotent: whenever `cleanHost` returns a value
for a host, it returns that same value for the value. -/
theorem cleanHost_idempotent (host r : Str) (h : cleanHost host = some r) :
    cleanHost r = some r := by
  obtain ⟨S, a, q, hS, ha, hac, hq, rfl⟩ := cleanHost_shape host r h
  exact cleanHost_clean S a q hS ha hac hq

/-- Witness of claim C10: `https://supu.local/` cleans to `https://supu.local`,
which cleans to itself. -/
theorem cleanHost_idempotent_witness :
    cleanHost "https://supu.local/".toList = some "https://supu.local".toList ∧
      cleanHost "https://supu.local".toList = some "https://supu.local".toList :=
  ⟨by decide, cleanHost_idempotent "https://supu.local/".toList "https://supu.local".toList
    (by decide)⟩

/-- Claim C13. Path cleaning always yields a leading slash and never
double-prefixes: `cleanPath p` begins with `/`, is `p` itself when `p` begins
with `/` and `/` followed by `p` otherwise; so cleaning twice is cleaning once. -/
theorem cleanPath_leading_slash (p : Str) :
    "/".toList <+: cleanPath p ∧
    ("/".toList <+: p → cleanPath p = p) ∧
    (¬ "/".toList <+: p → cleanPath p = "/".toList ++ p) ∧
    cleanPath (cleanPath p) = cleanPath p := by
  have h1 : ∀ q : Str, "/".toList <+: q → cleanPath q = q := by
    intro q hq
    obtain ⟨t, rfl⟩ := hq
    simp [cleanPath, strings.TrimPrefix]
  have h0 : "/".toList <+: cleanPath p := ⟨strings.TrimPrefix p "/".toList, rfl⟩
  refine ⟨h0, h1 p, ?_, h1 _ h0⟩
  intro hp
  have : ("/".toList).isPrefixOf p = false := by
    rw [← Bool.not_eq_true, List.isPrefixOf_iff_prefix]
    exact hp
  unfold cleanPath strings.TrimPrefix
  rw [this]
  rfl

theorem hostPattern_findAll_shape (host : Str) (m : List Str)
    (hm : m ∈ hostPattern.FindAllStringSubmatch host) :
    ∃ w g1 g2 g3, m = [w, g1, g2, g3] ∧
      (g1 = [] ∨ g1 = "http://".toList ∨ g1 = "https://".toList) ∧ g2 ≠ [] ∧
      (∀ c ∈ g2, hostChar c = true) ∧
      (g3 = [] ∨ ∃ d, g3 = ':' :: d ∧ 2 ≤ d.length ∧ d.length ≤ 6 ∧ ∀ c ∈ d, c.isDigit = true) := by
  unfold Re.FindAllStringSubmatch at hm
  obtain ⟨t, hit, hmatch, rfl⟩ := Re.findAllGo_mem _ _ _ _ _ _ hm
  obtain ⟨g1, g2, g3, g4⟩ := hostPattern_groups host.length t hit (List.mem_of_mem_head? hmatch)
  exact ⟨_, _, _, _, hostPattern_submatches hit, g1, g2, g3, g4⟩

/-- What `cleanHost` returns when the pattern matches once. -/
theorem cleanHost_of_single (host : Str) (m : List Str)
    (h : hostPattern.FindAllStringSubmatch host = [m]) :
    cleanHost host = some ((if m.getD 1 [] = [] then "http://".toList else m.getD 1 [])
      ++ (m.getD 2 [] ++ m.getD 3 [])) := by
  obtain ⟨w, g1, g2, g3, rfl, -⟩ := hostPattern_findAll_shape host m (by rw [h]; simp)
  unfold cleanHost
  rw [h]
  simp [Join_three]

theorem cleanHost_none_iff (host : Str) :
    cleanHost host = none ↔ (hostPattern.FindAllStringSubmatch host).length ≠ 1 := by
  cases hf : hostPattern.FindAllStringSubmatch host with
  | nil => simp [cleanHost, hf]
  | cons m tl =>
    cases tl with
    | cons m2 tl2 => simp [cleanHost, hf]
    | nil =>
      rw [cleanHost_of_single host m hf]
      simp

theorem getLast_append_ne (x l : Str) (c0 : Char) (hl : l ≠ []) (hc : ∀ c ∈ l, c ≠ c0) :
    (x ++ l).getLast? ≠ some c0 := by
  intro h
  rw [List.getLast?_append_of_ne_nil x hl] at h
  exact hc c0 (List.mem_of_getLast?_eq_some h) rfl

theorem cleanHost_result (host r : Str) (h : cleanHost host = some r) :
    ("http://".toList <+: r ∨ "https://".toList <+: r) ∧ r.getLast? ≠ some '/' := by
  obtain ⟨S, a, q, hS, ha, hac, hq, rfl⟩ := cleanHost_shape host r h
  refine ⟨?_, ?_⟩
  · rcases hS with rfl | rfl
    · exact Or.inl ⟨_, rfl⟩
    · exact Or.inr ⟨_, rfl⟩
  · rcases hq with rfl | ⟨d, rfl, h2, -, hd⟩
    · rw [List.append_nil]
      refine getLast_append_ne S a '/' ha ?_
      intro c hc h0
      subst h0
      exact absurd (hac _ hc) (by decide)
    · rw [← List.append_assoc]
      refine getLast_append_ne (S ++ a) (':' :: d) '/' (by simp) ?_
      intro c hc h0
      subst h0
      simp only [List.mem_cons] at hc
      rcases hc with hc | hc
      · exact absurd hc (by decide)
      · exact absurd (hd _ hc) (by decide)

/-- Claim C11. `cleanHost` panics exactly when `hostPattern` matches the host
zero times or more than once; when it matches once the result is the scheme,
the authority and the port of the match, `http://` standing for an empty
scheme; every result begins with `http://` or `https://` and none ends with
`/`. So `supu` gives `http://supu` and `supu_42.local:8080/` gives
`http://supu_42.local:8080`. -/
theorem cleanHost_contract (host : Str) :
    (cleanHost host = none ↔ (hostPattern.FindAllStringSubmatch host).length ≠ 1) ∧
    (∀ m, hostPattern.FindAllStringSubmatch host = [m] →
      cleanHost host = some ((if m.getD 1 [] = [] then "http://".toList else m.getD 1 [])
        ++ (m.getD 2 [] ++ m.getD 3 []))) ∧
    (∀ r, cleanHost host = some r →
      ("http://".toList <+: r ∨ "https://".toList <+: r) ∧ r.getLast? ≠ some '/') ∧
    cleanHost "supu".toList = some "http://supu".toList ∧
    cleanHost "supu_42.local:8080/".toList = some "http://supu_42.local:8080".toList :=
  ⟨cleanHost_none_iff host, cleanHost_of_single host, cleanHost_result host, by decide, by decide⟩

theorem cleanHosts_isSome_iff (hs : List Str) :
    (∃ cs, cleanHosts hs = some cs) ↔ ∀ h ∈ hs, ∃ c, cleanHost h = some c := by
  induction hs with
  | nil => simp [cleanHosts]
  | cons a hs ih =>
    constructor
    · rintro ⟨cs, hcs⟩
      rw [cleanHosts] at hcs
      cases hac : cleanHost a with
      | none => rw [hac] at hcs; exact absurd hcs (by simp)
      | some c =>
        cases hr : cleanHosts hs with
        | none => rw [hac, hr] at hcs; exact absurd hcs (by simp)
        | some cs2 =>
          intro h hh
          simp only [List.mem_cons] at hh
          rcases hh with rfl | hh
          · exact ⟨c, hac⟩
          · exact ih.1 ⟨cs2, hr⟩ h hh
    · intro hall
      obtain ⟨c, hc⟩ := hall a (by simp)
      obtain ⟨cs, hcs⟩ := ih.2 (fun h hh => hall h (by simp [hh]))
      exact ⟨c :: cs, by rw [cleanHosts, hc]; simp [hcs]⟩

/-- Counterexample to claim C12 as stated: the empty string, a host with a path
and a host with a space each make `cleanHosts` panic. -/
theorem cleanHosts_total_counterexample :
    cleanHosts ["".toList] = none ∧ cleanHosts ["supu.local/path".toList] = none ∧
      cleanHosts ["supu local".toList] = none := by
  decide

/-- Claim C12, amended. `cleanHosts` returns a cleaned list exactly when
`hostPattern` matches every host of the list exactly once; it panics
otherwise. -/
theorem cleanHosts_returns_iff (hs : List Str) :
    (∃ cs, cleanHosts hs = some cs) ↔
      ∀ h ∈ hs, (hostPattern.FindAllStringSubmatch h).length = 1 := by
  rw [cleanHosts_isSome_iff]
  refine forall₂_congr (fun h _ => ?_)
  have := cleanHost_none_iff h
  cases hc : cleanHost h with
  | none =>
    rw [hc] at this
    simp only [true_iff] at this
    simp [this]
  | some c =>
    rw [hc] at this
    simp only [false_iff, ne_eq, not_not, reduceCtorEq] at this
    simp [this]

theorem initBackendDefaults_congr (U : UnicodeTables) (s s2 : ServiceConfig)
    (e : EndpointConfig) (b : Backend) (hh : s.Host = s2.Host) :
    initBackendDefaults U s e b = initBackendDefaults U s2 e b := by
  unfold initBackendDefaults
  rw [hh]

theorem initBackends_congr (U : UnicodeTables) (s s2 : ServiceConfig) (e : EndpointConfig)
    (inputSet : List Str) (hh : s.Host = s2.Host) :
    ∀ bs, initBackends U s e inputSet bs = initBackends U s2 e inputSet bs := by
  intro bs
  induction bs with
  | nil => rfl
  | cons b bs ih => rw [initBackends, initBackends, ih, initBackendDefaults_congr U s s2 e b hh]

theorem initEndpointDefaults_congr (U : UnicodeTables) (s s2 : ServiceConfig)
    (e : EndpointConfig) (ht : s.Timeout = s2.Timeout) (hc : s.CacheTTL = s2.CacheTTL) :
    initEndpointDefaults U s e = initEndpointDefaults U s2 e := by
  unfold initEndpointDefaults
  rw [ht, hc]

/-- The loop body reads only the hosts, the timeout and the cache TTL of the service. -/
theorem initEndpoint_congr (U : UnicodeTables) (rp : Int) (s s2 : ServiceConfig)
    (e : EndpointConfig) (hh : s.Host = s2.Host) (ht : s.Timeout = s2.Timeout)
    (hc : s.CacheTTL = s2.CacheTTL) :
    initEndpoint U rp s e = initEndpoint U rp s2 e := by
  unfold initEndpoint
  simp only [initEndpointDefaults_congr U s s2 _ ht hc, initBackends_congr U s s2 _ _ hh]

theorem initEndpoints_congr (U : UnicodeTables) (rp : Int) (s s2 : ServiceConfig)
    (hh : s.Host = s2.Host) (ht : s.Timeout = s2.Timeout) (hc : s.CacheTTL = s2.CacheTTL) :
    ∀ es, initEndpoints U rp s es = initEndpoints U rp s2 es := by
  intro es
  induction es with
  | nil => rfl
  | cons e es ih => rw [initEndpoints, initEndpoints, ih, initEndpoint_congr U rp s s2 e hh ht hc]

/-- `Init` on a version 1 configuration: the hosts are cleaned, then the loop runs. -/
theorem Init_eq (U : UnicodeTables) (rp : Int) (s : ServiceConfig) (hv : s.Version = 1) :
    Init U rp s =
      match cleanHosts s.Host with
      | none => .panicked
      | some hosts =>
        match initEndpoints U rp (loopState s hosts) s.Endpoints with
        | .panicked => .panicked
        | .failed es err => .failed { loopState s hosts with Endpoints := es } err
        | .done es => .done { loopState s hosts with Endpoints := es } := by
  unfold Init loopState
  rw [if_neg (not_not.2 hv)]
  by_cases hp : s.Port = 0
  · rw [if_pos hp, if_pos hp]
  · rw [if_neg hp, if_neg hp]

theorem Init_unsupported (U : UnicodeTables) (rp : Int) (s : ServiceConfig) (hv : s.Version ≠ 1) :
    Init U rp s = .failed s (.unsupportedVersion s.Version) := by
  unfold Init
  rw [if_pos hv]

/-- The loop stops at the first endpoint whose turn fails, leaving the
endpoints after it as they were. -/
theorem initEndpoints_append_failed (U : UnicodeTables) (rp : Int) (s : ServiceConfig)
    (e e2 : EndpointConfig) (post : List EndpointConfig) (err : InitError)
    (he : initEndpoint U rp s e = .failed e2 err) :
    ∀ pre pre2 : List EndpointConfig,
      List.Forall₂ (fun a b => initEndpoint U rp s a = .done b) pre pre2 →
      initEndpoints U rp s (pre ++ e :: post) = .failed (pre2 ++ e2 :: post) err := by
  intro pre pre2 h
  induction h with
  | nil => simp [initEndpoints, he]
  | cons hab _ ih => simp [initEndpoints, hab, ih]

theorem initEndpoints_failed (U : UnicodeTables) (rp : Int) (s : ServiceConfig) :
    ∀ (es st : List EndpointConfig) (err : InitError), initEndpoints U rp s es = .failed st err →
      ∃ pre e post pre2 e2, es = pre ++ e :: post ∧ st = pre2 ++ e2 :: post ∧
        List.Forall₂ (fun a b => initEndpoint U rp s a = .done b) pre pre2 ∧
        initEndpoint U rp s e = .failed e2 err := by
  intro es
  induction es with
  | nil => intro st err h; simp [initEndpoints] at h
  | cons e es ih =>
    intro st err h
    rw [initEndpoints] at h
    cases he : initEndpoint U rp s e with
    | panicked => rw [he] at h; exact absurd h (by simp)
    | failed e2 err2 =>
      rw [he] at h
      simp only [Outcome.failed.injEq] at h
      obtain ⟨rfl, rfl⟩ := h
      exact ⟨[], e, es, [], e2, rfl, rfl, List.Forall₂.nil, he⟩
    | done e2 =>
      rw [he] at h
      dsimp only at h
      cases hr : initEndpoints U rp s es with
      | panicked => rw [hr] at h; exact absurd h (by simp)
      | done es2 => rw [hr] at h; exact absurd h (by simp)
      | failed st2 err2 =>
        rw [hr] at h
        simp only [Outcome.failed.injEq] at h
        obtain ⟨rfl, rfl⟩ := h
        obtain ⟨pre, e3, post, pre2, e4, rfl, rfl, hall, hf⟩ := ih st2 err2 hr
        exact ⟨e :: pre, e3, post, e2 :: pre2, e4, rfl, rfl, List.Forall₂.cons he hall, hf⟩

/-- The turn of the loop for an endpoint that `validate` rejects. -/
theorem initEndpoint_invalid (U : UnicodeTables) (rp : Int) (s : ServiceConfig)
    (e : EndpointConfig) (err : InitError)
    (hv : validate { e with Endpoint := cleanPath e.Endpoint } = some err) :
    initEndpoint U rp s e = .failed { e with Endpoint := cleanPath e.Endpoint } err := by
  unfold initEndpoint
  simp only [hv]

/-- Counterexample to claim C20 as stated: `Init` returns the zero-backends
error of the second endpoint and leaves the port defaulted, the host cleaned
and the first endpoint compiled. -/
theorem Init_error_state_counterexample :
    Init asciiTables ColonRouterPatternBuilder failingConfig
        = .failed failingConfigLeft (.noBackends "/c".toList) ∧
      failingConfigLeft ≠ failingConfig := by
  decide

/-- Claim C20, amended. When `Init` returns the unsupported-version error the
configuration is as before the call. When it returns any other error the
configuration is not restored: the port is defaulted, the service hosts are
cleaned, every endpoint before the failing one is in its compiled form, the
failing endpoint is as its turn of the loop left it at the error, and the
endpoints after it are as before the call. -/
theorem Init_error_state (U : UnicodeTables) (rp : Int) (s st : ServiceConfig) (err : InitError)
    (h : Init U rp s = .failed st err) :
    (s.Version ≠ 1 ∧ st = s ∧ err = .unsupportedVersion s.Version) ∨
    (s.Version = 1 ∧ st.Port = (if s.Port = 0 then 8080 else s.Port) ∧
      cleanHosts s.Host = some st.Host ∧ st.Timeout = s.Timeout ∧ st.CacheTTL = s.CacheTTL ∧
      st.Version = s.Version ∧ st.Debug = s.Debug ∧
      ∃ pre e post pre2 e2, s.Endpoints = pre ++ e :: post ∧ st.Endpoints = pre2 ++ e2 :: post ∧
        List.Forall₂ (fun a b => initEndpoint U rp st a = .done b) pre pre2 ∧
        initEndpoint U rp st e = .failed e2 err) := by
  by_cases hv : s.Version = 1
  · right
    rw [Init_eq U rp s hv] at h
    cases hc : cleanHosts s.Host with
    | none => rw [hc] at h; exact absurd h (by simp)
    | some hosts =>
      rw [hc] at h
      dsimp only at h
      cases he : initEndpoints U rp (loopState s hosts) s.Endpoints with
      | panicked => rw [he] at h; exact absurd h (by simp)
      | done es => rw [he] at h; exact absurd h (by simp)
      | failed es err2 =>
        rw [he] at h
        simp only [Outcome.failed.injEq] at h
        obtain ⟨rfl, rfl⟩ := h
        obtain ⟨pre, e, post, pre2, e2, h1, h2, h3, h4⟩ := initEndpoints_failed U rp _ _ _ _ he
        have hcg : ∀ a, initEndpoint U rp (loopState s hosts) a
            = initEndpoint U rp { loopState s hosts with Endpoints := es } a :=
          fun a => initEndpoint_congr U rp _ _ a rfl rfl rfl
        refine ⟨hv, rfl, rfl, rfl, rfl, rfl, rfl, pre, e, post, pre2, e2, h1, h2, ?_, ?_⟩
        · exact h3.imp (fun a b hab => by rw [← hcg]; exact hab)
        · rw [← hcg]; exact h4
  · left
    rw [Init_unsupported U rp s hv] at h
    simp only [Outcome.failed.injEq] at h
    exact ⟨hv, h.1.symm, h.2.symm⟩

/-- Witness of claim C20 (amended): the configuration whose second endpoint has no backend. -/
theorem Init_error_state_witness :
    (failingConfig.Version ≠ 1 ∧ failingConfigLeft = failingConfig ∧
        InitError.noBackends "/c".toList = .unsupportedVersion failingConfig.Version) ∨
    (failingConfig.Version = 1 ∧
      failingConfigLeft.Port = (if failingConfig.Port = 0 then 8080 else failingConfig.Port) ∧
      cleanHosts failingConfig.Host = some failingConfigLeft.Host ∧
      failingConfigLeft.Timeout = failingConfig.Timeout ∧
      failingConfigLeft.CacheTTL = failingConfig.CacheTTL ∧
      failingConfigLeft.Version = failingConfig.Version ∧
      failingConfigLeft.Debug = failingConfig.Debug ∧
      ∃ pre e post pre2 e2, failingConfig.Endpoints = pre ++ e :: post ∧
        failingConfigLeft.Endpoints = pre2 ++ e2 :: post ∧
        List.Forall₂ (fun a b => initEndpoint asciiTables ColonRouterPatternBuilder
          failingConfigLeft a = .done b) pre pre2 ∧
        initEndpoint asciiTables ColonRouterPatternBuilder failingConfigLeft e
          = .failed e2 (.noBackends "/c".toList)) :=
  Init_error_state asciiTables ColonRouterPatternBuilder failingConfig failingConfigLeft
    (.noBackends "/c".toList) (by decide)

theorem slashKey_some {s k rest : Str} (h : slashKey s = some (k, rest)) :
    s = '/' :: '{' :: (k ++ '}' :: rest) ∧ k ≠ [] ∧ ∀ c ∈ k, keyChar c = true := by
  cases s with
  | nil => simp [slashKey] at h
  | cons c t =>
    simp only [slashKey] at h
    split at h
    · rename_i hc
      subst hc
      obtain ⟨h1, h2, h3⟩ := bracedKey_some h
      exact ⟨by rw [h1], h2, h3⟩
    · simp at h

theorem slashKey_intro (k rest : Str) (hne : k ≠ []) (hk : ∀ c ∈ k, keyChar c = true) :
    slashKey ('/' :: '{' :: (k ++ '}' :: rest)) = some (k, rest) := by
  simp only [slashKey, if_true]
  exact bracedKey_intro k rest hne hk

theorem slashKey_induction (P : Str → Prop) (hnil : P [])
    (hlit : ∀ c s, slashKey (c :: s) = none → P s → P (c :: s))
    (hkey : ∀ k rest, k ≠ [] → (∀ c ∈ k, keyChar c = true) → P rest →
      P ('/' :: '{' :: (k ++ '}' :: rest))) :
    ∀ s, P s := by
  suffices H : ∀ (n : Nat) (s : Str), s.length = n → P s from fun s => H _ s rfl
  intro n
  induction n using Nat.strong_induction_on with
  | _ n ih =>
    intro s hn
    cases s with
    | nil => exact hnil
    | cons c t =>
      cases hb : slashKey (c :: t) with
      | none => exact hlit c t hb (ih t.length (by simp [← hn]) t rfl)
      | some kr =>
        obtain ⟨k, rest⟩ := kr
        obtain ⟨hs, hne, hk⟩ := slashKey_some hb
        rw [hs]
        refine hkey k rest hne hk (ih rest.length ?_ rest rfl)
        rw [← hn, hs]
        simp
        omega

theorem segmentsGo_skip (rest : Str) :
    ∀ pre : Str, segmentsGo pre.length (pre ++ rest) = segmentsGo 0 rest := by
  intro pre
  induction pre with
  | nil => rfl
  | cons c p ih => simpa [segmentsGo] using ih

theorem segments_nil : segments [] = [] := rfl

theorem segments_lit (c : Char) (s : Str) (h : slashKey (c :: s) = none) :
    segments (c :: s) = segments s := by
  simp [segments, segmentsGo, h]

theorem segments_key (k rest : Str) (hne : k ≠ []) (hk : ∀ c ∈ k, keyChar c = true) :
    segments ('/' :: '{' :: (k ++ '}' :: rest)) = k :: segments rest := by
  have h := slashKey_intro k rest hne hk
  have hs := segmentsGo_skip rest (k ++ ['}'])
  simp only [List.length_append, List.length_singleton, List.append_assoc,
    List.singleton_append] at hs
  simp [segments, segmentsGo, h, hs]

theorem colonGo_skip (sel : Str → Bool) (rest : Str) :
    ∀ pre : Str, colonGo sel pre.length (pre ++ rest) = colonGo sel 0 rest := by
  intro pre
  induction pre with
  | nil => rfl
  | cons c p ih => simpa [colonGo] using ih

theorem colonGo_nil (sel : Str → Bool) : colonGo sel 0 [] = [] := rfl

theorem colonGo_lit (sel : Str → Bool) (c : Char) (s : Str) (h : slashKey (c :: s) = none) :
    colonGo sel 0 (c :: s) = c :: colonGo sel 0 s := by
  simp [colonGo, h]

theorem colonGo_key (sel : Str → Bool) (k rest : Str) (hne : k ≠ [])
    (hk : ∀ c ∈ k, keyChar c = true) :
    colonGo sel 0 ('/' :: '{' :: (k ++ '}' :: rest)) =
      (if sel k then '/' :: ':' :: k else '/' :: '{' :: (k ++ ['}'])) ++ colonGo sel 0 rest := by
  have h := slashKey_intro k rest hne hk
  have hs := colonGo_skip sel rest (k ++ ['}'])
  simp only [List.length_append, List.length_singleton, List.append_assoc,
    List.singleton_append] at hs
  simp [colonGo, h, hs]

/-- The ways of matching `endpointURLKeysPattern`. -/
theorem Re.run_endpoint (total : Nat) (s : Str) (caps : Nat → Str) :
    Re.run total endpointURLKeysPattern s caps =
      match slashKey s with
      | some (k, rest) => [⟨'/' :: '{' :: k ++ ['}'], setCap caps 1 k, rest⟩]
      | none => [] := by
  have hp : endpointURLKeysPattern = .cat (Re.lit '/') simpleURLKeysPattern := rfl
  cases s with
  | nil => rw [hp, Re.run_cat, Re.run_lit_nil]; rfl
  | cons c t =>
    rw [hp, Re.run_cat, Re.run_lit_cons]
    by_cases hc : c = '/'
    · subst hc
      simp only [if_true, List.flatMap_cons, List.flatMap_nil, List.append_nil, Re.run_simple,
        slashKey]
      cases bracedKey t with
      | none => rfl
      | some kr => simp
    · simp [hc, slashKey]

/-- The placeholders the code extracts with `endpointURLKeysPattern` are the
whole-segment placeholders of the text. -/
theorem extract_endpoint (s : Str) :
    extractPlaceHoldersFromURLTemplate s endpointURLKeysPattern = segments s := by
  have key : ∀ (total : Nat) (s : Str) (b : Bool),
      (Re.findAllGo endpointURLKeysPattern total 0 b s).map (fun v => v.getD 1 []) = segments s := by
    intro total s
    induction s using slashKey_induction with
    | hnil =>
      intro b
      simp [Re.findAllGo, Re.matchAt, Re.run_endpoint, slashKey, segments_nil]
    | hlit c s hb ih =>
      intro b
      rw [Re.findAllGo_miss, ih, segments_lit c s hb]
      simp [Re.matchAt, Re.run_endpoint, hb]
    | hkey k rest hne hk ih =>
      intro b
      have hb := slashKey_intro k rest hne hk
      have hm : endpointURLKeysPattern.matchAt total ('/' :: '{' :: (k ++ '}' :: rest))
          = some ⟨'/' :: '{' :: k ++ ['}'], setCap noCaps 1 k, rest⟩ := by
        simp [Re.matchAt, Re.run_endpoint, hb]
      rw [Re.findAllGo_hit _ _ _ _ _ hm (by simp), List.map_cons, ih, segments_key k rest hne hk]
      simp [Re.submatches, endpointURLKeysPattern, Re.numGroups, Re.lit, setCap]
  exact key s.length s false

theorem keyChar_ne (c : Char) (h : keyChar c = true) : c ≠ '/' ∧ c ≠ '?' ∧ c ≠ ':' := by
  have hc := keyChar_ascii c h
  revert h
  exact ascii_cases (fun c => keyChar c = true → c ≠ '/' ∧ c ≠ '?' ∧ c ≠ ':') (by decide) c hc

theorem colonGo_head (sel : Str → Bool) (s : Str) :
    colonGo sel 0 s = [] ∨ (∃ c t x, s = c :: t ∧ colonGo sel 0 s = c :: x ∧
      (slashKey s = none → x = colonGo sel 0 t) ∧ (slashKey s ≠ none → c = '/')) := by
  cases s with
  | nil => left; rfl
  | cons c t =>
    right
    cases hb : slashKey (c :: t) with
    | none => exact ⟨c, t, _, rfl, colonGo_lit sel c t hb, fun _ => rfl, fun h => absurd rfl h⟩
    | some kr =>
      obtain ⟨k, rest⟩ := kr
      obtain ⟨hs, hne, hk⟩ := slashKey_some hb
      simp only [List.cons.injEq] at hs
      obtain ⟨rfl, rfl⟩ := hs
      rw [colonGo_key sel k rest hne hk]
      by_cases hsel : sel k = true
      · rw [if_pos hsel]
        exact ⟨_, _, _, rfl, rfl, fun h => by simp at h, fun _ => rfl⟩
      · rw [if_neg hsel]
        exact ⟨_, _, _, rfl, rfl, fun h => by simp at h, fun _ => rfl⟩

/-- A text without a slash at the head of the rewritten path stands at the head
of the path itself. -/
theorem colonGo_prefix (sel : Str → Bool) (w : Str) (hw : ∀ c ∈ w, c ≠ '/') :
    ∀ s : Str, w <+: colonGo sel 0 s → w <+: s := by
  induction w with
  | nil => intro s _; exact List.nil_prefix
  | cons a w ih =>
    intro s h
    rcases colonGo_head sel s with h0 | ⟨c, t, x, rfl, hx, hlit, hkey⟩
    · rw [h0] at h
      simp at h
    · rw [hx] at h
      obtain ⟨r, hr⟩ := h
      simp only [List.cons_append, List.cons.injEq] at hr
      obtain ⟨rfl, hr⟩ := hr
      have hb : slashKey (a :: t) = none := by
        by_contra hne
        exact hw a (by simp) (hkey hne)
      obtain ⟨r2, hr2⟩ := ih (fun c hc => hw c (by simp [hc])) t ⟨r, by rw [hr, hlit hb]⟩
      exact ⟨r2, by simp [← hr2]⟩

theorem replace_colon (sel : Str → Bool) (o : Str) (hne : o ≠ [])
    (ho : ∀ c ∈ o, keyChar c = true) (s : Str) :
    strings.replaceGo ('/' :: '{' :: (o ++ ['}'])) ('/' :: ':' :: o) 0 (colonGo sel 0 s)
      = colonGo (fun k => sel k || k == o) 0 s := by
  induction s using slashKey_induction with
  | hnil => rfl
  | hlit c s hb ih =>
    rw [colonGo_lit sel c s hb, colonGo_lit _ c s hb, replaceGo_step, ih]
    rintro ⟨r, hr⟩
    simp only [List.cons_append, List.cons.injEq] at hr
    obtain ⟨rfl, hr⟩ := hr
    have hp : '{' :: (o ++ ['}']) <+: colonGo sel 0 s := ⟨r, by simpa using hr⟩
    obtain ⟨r2, hr2⟩ := colonGo_prefix sel ('{' :: (o ++ ['}'])) (by
      intro c hc
      simp only [List.mem_cons, List.mem_append, List.mem_singleton, List.not_mem_nil,
        or_false] at hc
      rcases hc with rfl | hc | rfl
      · decide
      · exact (keyChar_ne c (ho c hc)).1
      · decide) s hp
    have := slashKey_intro o r2 hne ho
    rw [← hr2] at hb
    simp only [List.cons_append, List.append_assoc, List.singleton_append,
      List.nil_append] at hb
    rw [this] at hb
    exact absurd hb (by simp)
  | hkey k rest hkne hk ih =>
    rw [colonGo_key sel k rest hkne hk, colonGo_key _ k rest hkne hk]
    by_cases hsel : sel k = true
    · simp only [hsel, Bool.true_or, if_true, List.cons_append]
      rw [replaceGo_step]
      · have hpass := replaceGo_pass '/' ('{' :: (o ++ ['}'])) ('/' :: ':' :: o) (':' :: k)
          (colonGo sel 0 rest) (by
            intro c hc
            simp only [List.mem_cons] at hc
            rcases hc with rfl | hc
            · decide
            · exact (keyChar_ne c (hk c hc)).1)
        simp only [List.cons_append] at hpass
        rw [hpass, ih]
      · rintro ⟨r, hr⟩
        simp only [List.cons_append, List.cons.injEq, true_and] at hr
        exact absurd hr.1 (by decide)
    · by_cases hko : k = o
      · subst hko
        have hh := replaceGo_hit ('/' :: '{' :: (k ++ ['}'])) ('/' :: ':' :: k)
          (colonGo sel 0 rest) (by simp)
        simp only [hsel, Bool.false_or, beq_self_eq_true, if_true, Bool.false_eq_true, if_false]
        simp only [List.cons_append, List.append_assoc] at hh ih ⊢
        rw [hh, ih]
      · have hbeq : (k == o) = false := by simpa using hko
        simp only [hsel, hbeq, Bool.or_false, Bool.false_eq_true, if_false, List.cons_append]
        rw [replaceGo_step]
        · have hpass := replaceGo_pass '/' ('{' :: (o ++ ['}'])) ('/' :: ':' :: o)
            ('{' :: (k ++ ['}'])) (colonGo sel 0 rest) (by
              intro c hc
              simp only [List.mem_cons, List.mem_append, List.mem_singleton, List.not_mem_nil,
                or_false] at hc
              rcases hc with rfl | hc | rfl
              · decide
              · exact (keyChar_ne c (hk c hc)).1
              · decide)
          simp only [List.cons_append] at hpass
          rw [hpass, ih]
        · rintro ⟨r, hr⟩
          simp only [List.cons_append, List.cons.injEq, true_and] at hr
          have := key_prefix_eq o k (colonGo sel 0 rest) [] ho hk ⟨r, by simpa using hr⟩
          exact hko this.symm

theorem segments_keys (s : Str) :
    ∀ k ∈ segments s, k ≠ [] ∧ ∀ c ∈ k, keyChar c = true := by
  induction s using slashKey_induction with
  | hnil => intro k hk; simp [segments_nil] at hk
  | hlit c s hb ih => rw [segments_lit c s hb]; exact ih
  | hkey k rest hkne hk ih =>
    rw [segments_key k rest hkne hk]
    intro x hx
    simp only [List.mem_cons] at hx
    rcases hx with rfl | hx
    · exact ⟨hkne, hk⟩
    · exact ih x hx

theorem colonGo_none (s : Str) : colonGo (fun _ => false) 0 s = s := by
  induction s using slashKey_induction with
  | hnil => rfl
  | hlit c s hb ih => rw [colonGo_lit _ c s hb, ih]
  | hkey k rest hkne hk ih =>
    rw [colonGo_key _ k rest hkne hk, ih]
    simp

theorem colonGo_congr (sel sel2 : Str → Bool) (s : Str)
    (h : ∀ k ∈ segments s, sel k = sel2 k) : colonGo sel 0 s = colonGo sel2 0 s := by
  induction s using slashKey_induction with
  | hnil => rfl
  | hlit c s hb ih =>
    rw [segments_lit c s hb] at h
    rw [colonGo_lit _ c s hb, colonGo_lit _ c s hb, ih h]
  | hkey k rest hkne hk ih =>
    rw [segments_key k rest hkne hk] at h
    rw [colonGo_key _ k rest hkne hk, colonGo_key _ k rest hkne hk,
      ih (fun x hx => h x (by simp [hx])), h k (by simp)]

/-- One turn of the rewriting loop of `getEndpointPath`. -/
theorem Replace_segment (sel : Str → Bool) (o : Str) (hne : o ≠ [])
    (ho : ∀ c ∈ o, keyChar c = true) (s : Str) :
    strings.Replace (colonGo sel 0 s) (['/', '{'] ++ o ++ ['}']) ("/:".toList ++ o)
      = colonGo (fun k => sel k || k == o) 0 s := by
  have h := replace_colon sel o hne ho s
  have e1 : ['/', '{'] ++ o ++ ['}'] = '/' :: '{' :: (o ++ ['}']) := by simp
  have e2 : "/:".toList ++ o = '/' :: ':' :: o := rfl
  rw [e1, e2, strings.Replace, if_neg, if_neg, h]
  · simp
  · intro heq
    simp only [List.cons.injEq, true_and] at heq
    exact absurd heq.1 (by decide)

theorem foldl_Replace_segment (s : Str) :
    ∀ (l : List Str) (sel : Str → Bool), (∀ o ∈ l, o ≠ [] ∧ ∀ c ∈ o, keyChar c = true) →
      l.foldl (fun result p => strings.Replace result (['/', '{'] ++ p ++ ['}'])
          ("/:".toList ++ p)) (colonGo sel 0 s)
        = colonGo (fun k => sel k || l.contains k) 0 s := by
  intro l
  induction l with
  | nil => intro sel _; simp
  | cons o l ih =>
    intro sel hl
    obtain ⟨hne, ho⟩ := hl o (by simp)
    rw [List.foldl_cons, Replace_segment sel o hne ho s, ih _ (fun x hx => hl x (by simp [hx]))]
    congr 1
    funext k
    simp only [List.contains_cons, Bool.or_assoc]

/-- The rewriting loop of `getEndpointPath`, run over the whole-segment
placeholders of a path, gives the colon form of the path. -/
theorem foldl_Replace_segments (s : Str) :
    (segments s).foldl (fun result p => strings.Replace result (['/', '{'] ++ p ++ ['}'])
        ("/:".toList ++ p)) s = colonPath s := by
  have h := foldl_Replace_segment s (segments s) (fun _ => false) (segments_keys s)
  rw [colonGo_none] at h
  rw [h]
  exact colonGo_congr _ _ s (fun k hk => by simpa using hk)

theorem segments_append_noslash (a x : Str) (ha : ∀ c ∈ a, c ≠ '/') :
    segments (a ++ x) = segments x := by
  induction a with
  | nil => rfl
  | cons c a ih =>
    have hc : c ≠ '/' := ha c (by simp)
    rw [List.cons_append, segments_lit, ih (fun c hc => ha c (by simp [hc]))]
    simp [slashKey, hc]

/-- The colon form of a path has no whole-segment placeholder left. -/
theorem segments_colonPath (s : Str) : segments (colonPath s) = [] := by
  unfold colonPath
  induction s using slashKey_induction with
  | hnil => rfl
  | hlit c s hb ih =>
    rw [colonGo_lit _ c s hb, segments_lit, ih]
    cases hk : slashKey (c :: colonGo (fun _ => true) 0 s) with
    | none => rfl
    | some kr =>
      obtain ⟨hs, hne, hkk⟩ := @slashKey_some _ kr.1 kr.2 hk
      simp only [List.cons.injEq] at hs
      obtain ⟨rfl, hs⟩ := hs
      have hp : '{' :: (kr.1 ++ ['}']) <+: colonGo (fun _ => true) 0 s := ⟨kr.2, by simp [hs]⟩
      obtain ⟨r2, hr2⟩ := colonGo_prefix _ ('{' :: (kr.1 ++ ['}'])) (by
        intro c hc
        simp only [List.mem_cons, List.mem_append, List.mem_singleton, List.not_mem_nil,
          or_false] at hc
        rcases hc with rfl | hc | rfl
        · decide
        · exact (keyChar_ne c (hkk c hc)).1
        · decide) s hp
      have := slashKey_intro kr.1 r2 hne hkk
      rw [← hr2] at hb
      simp only [List.cons_append, List.append_assoc, List.singleton_append,
        List.nil_append] at hb
      rw [this] at hb
      exact absurd hb (by simp)
  | hkey k rest hkne hk ih =>
    rw [colonGo_key _ k rest hkne hk]
    simp only [if_true, List.cons_append]
    rw [segments_lit, ← List.cons_append, segments_append_noslash _ _ (by
      intro c hc
      simp only [List.mem_cons] at hc
      rcases hc with rfl | hc
      · decide
      · exact (keyChar_ne c (hk c hc)).1), ih]
    simp [slashKey, bracedKey]

/-- Claim C14. With the parameters extracted from the path by the endpoint
placeholder pattern, `getEndpointPath` under the colon strategy gives the path
with every whole-segment placeholder `/{name}` rewritten to `/:name` and every
other character unchanged, a brace placeholder that does not follow a slash
included; the pattern finds no `/{name}` in the result; under the brace
strategy the path is returned unchanged. -/
theorem getEndpointPath_colon (p : Str) :
    getEndpointPath ColonRouterPatternBuilder p
        (extractPlaceHoldersFromURLTemplate p endpointURLKeysPattern) = colonPath p ∧
    extractPlaceHoldersFromURLTemplate (colonPath p) endpointURLKeysPattern = [] ∧
    (∀ params, getEndpointPath BracketsRouterPatternBuilder p params = p) ∧
    getEndpointPath ColonRouterPatternBuilder "supu/{tupu}/{supu}?a={s}&b=2".toList
        (extractPlaceHoldersFromURLTemplate "supu/{tupu}/{supu}?a={s}&b=2".toList
          endpointURLKeysPattern) = "supu/:tupu/:supu?a={s}&b=2".toList := by
  refine ⟨?_, ?_, ?_, by decide⟩
  · rw [extract_endpoint]
    unfold getEndpointPath
    rw [if_pos rfl]
    exact foldl_Replace_segments p
  · rw [extract_endpoint]
    exact segments_colonPath p
  · intro params
    unfold getEndpointPath
    rw [if_neg (by decide)]

theorem cleanPath_cases (p : Str) : cleanPath p = p ∨ cleanPath p = '/' :: p := by
  by_cases hp : ("/".toList).isPrefixOf p = true
  · left
    rw [List.isPrefixOf_iff_prefix] at hp
    obtain ⟨t, rfl⟩ := hp
    simp [cleanPath, strings.TrimPrefix]
  · right
    unfold cleanPath strings.TrimPrefix
    rw [if_neg hp]
    rfl

theorem mem_colonGo_question (sel : Str → Bool) (s : Str) :
    '?' ∈ colonGo sel 0 s ↔ '?' ∈ s := by
  induction s using slashKey_induction with
  | hnil => rfl
  | hlit c s hb ih =>
    rw [colonGo_lit sel c s hb]
    simp only [List.mem_cons, ih]
  | hkey k rest hkne hk ih =>
    have hq : '?' ∉ k := fun h => (keyChar_ne _ (hk _ h)).2.1 rfl
    rw [colonGo_key sel k rest hkne hk]
    split <;> simp [hq, ih]

theorem mem_getEndpointPath_question (rp : Int) (p : Str) :
    '?' ∈ getEndpointPath rp p (extractPlaceHoldersFromURLTemplate p endpointURLKeysPattern)
      ↔ '?' ∈ p := by
  unfold getEndpointPath
  split
  · rw [extract_endpoint, foldl_Replace_segments]
    exact mem_colonGo_question _ p
  · rfl

/-- Counterexample to claim C19 as stated: `Init` succeeds on an endpoint whose
path carries a query string and leaves the query string in the path. -/
theorem Init_query_string_counterexample :
    Init asciiTables ColonRouterPatternBuilder queryConfig = .done queryCompiled ∧
      ∃ e ∈ queryCompiled.Endpoints, '?' ∈ e.Endpoint := by
  decide

/-- Claim C19, amended. After a successful `Init` every endpoint's path is its
configured path, slash-prefixed and rewritten by `getEndpointPath`; a query
string is kept, so that the path contains `?` exactly when the configured path
does. -/
theorem Init_endpoint_path (U : UnicodeTables) (rp : Int) (s s2 : ServiceConfig)
    (h : Init U rp s = .done s2) :
    List.Forall₂ (fun e e2 =>
        e2.Endpoint = getEndpointPath rp (cleanPath e.Endpoint)
          (extractPlaceHoldersFromURLTemplate (cleanPath e.Endpoint) endpointURLKeysPattern) ∧
        ('?' ∈ e2.Endpoint ↔ '?' ∈ e.Endpoint))
      s.Endpoints s2.Endpoints := by
  obtain ⟨-, -, -, -, -, -, -, hall⟩ := Init_done U rp s s2 h
  refine hall.imp ?_
  intro e e2 he
  obtain ⟨-, f1, -⟩ := initEndpoint_done U rp _ e e2 he
  refine ⟨f1, ?_⟩
  rw [f1, mem_getEndpointPath_question]
  rcases cleanPath_cases e.Endpoint with hc | hc <;> rw [hc]
  simp

/-- Witness of claim C19 (amended): the configuration whose endpoint path carries a query string. -/
theorem Init_endpoint_path_witness :
    List.Forall₂ (fun e e2 =>
        e2.Endpoint = getEndpointPath ColonRouterPatternBuilder (cleanPath e.Endpoint)
          (extractPlaceHoldersFromURLTemplate (cleanPath e.Endpoint) endpointURLKeysPattern) ∧
        ('?' ∈ e2.Endpoint ↔ '?' ∈ e.Endpoint))
      queryConfig.Endpoints queryCompiled.Endpoints :=
  Init_endpoint_path asciiTables ColonRouterPatternBuilder queryConfig queryCompiled (by decide)

theorem debugPattern_matches_root (total : Nat) (tail : Str)
    (ht : tail = [] ∨ ∃ t, tail = '/' :: t ∧ '\n' ∉ t) :
    (debugPattern.matchAt total ("/__debug".toList ++ tail)).isSome = true := by
  have hstr : (Re.run total (Re.str "/__debug".toList) ("/__debug".toList ++ tail) noCaps).head?
      = some ⟨"/__debug".toList, noCaps, tail⟩ := by
    rw [Re.run_str, if_pos ⟨tail, rfl⟩]
    simp
  have hrest : ∃ h, (Re.run total
      (.cat (.opt (.grp 1 (.cat (Re.lit '/') (.rep (fun c => c != '\n') 0 none)))) .eot)
      tail noCaps).head? = some h := by
    rcases ht with rfl | ⟨t, rfl, hn⟩
    · refine ⟨_, Re.head_run_cat total _ _ _ _ ⟨[], noCaps, []⟩ ⟨[], noCaps, []⟩
        (Re.head_run_opt_skip total _ _ _ ?_) (by simp [Re.run])⟩
      rw [Re.run_grp, Re.run_cat, Re.run_lit_nil]
      rfl
    · have hall : ∀ c ∈ t, (fun c => c != '\n') c = true := by
        intro c hc
        simp only [bne_iff_ne, ne_eq]
        rintro rfl
        exact hn hc
      have htw : t.takeWhile (fun c => c != '\n') = t := List.takeWhile_eq_self_iff.2 hall
      have hdw : t.dropWhile (fun c => c != '\n') = [] := List.dropWhile_eq_nil_iff.2 hall
      have hrep := Re.head_repRun_none (fun c => c != '\n') t 0 (Nat.zero_le _)
      rw [htw, hdw] at hrep
      have h1 : (Re.run total (.cat (Re.lit '/') (.rep (fun c => c != '\n') 0 none)) ('/' :: t)
          noCaps).head? = some ⟨['/'] ++ t, noCaps, []⟩ :=
        Re.head_run_cat total _ _ _ noCaps ⟨['/'], noCaps, t⟩ ⟨t, noCaps, []⟩
          (by rw [Re.run_lit_cons]; rfl)
          (by rw [Re.run_rep, List.head?_map, hrep]; rfl)
      have h3 := Re.head_run_opt total _ _ noCaps _ (Re.head_run_grp total 1 _ _ noCaps _ h1)
      exact ⟨_, Re.head_run_cat total _ .eot _ noCaps _ ⟨[], setCap noCaps 1 (['/'] ++ t), []⟩ h3
        (by simp [Re.run])⟩
  obtain ⟨h, hh⟩ := hrest
  have hB := Re.head_run_cat total _ _ _ noCaps _ h hstr hh
  unfold Re.matchAt debugPattern
  rw [Re.run_alt, List.head?_append, hB]
  cases (Re.run total (Re.cat Re.bot (Re.chr fun c => c != '/'))
    ("/__debug".toList ++ tail) noCaps).head? <;> rfl

/-- The reserved-path pattern matches the debug root and its sub-paths. -/
theorem debugPattern_MatchString_root (tail : Str)
    (ht : tail = [] ∨ ∃ t, tail = '/' :: t ∧ '\n' ∉ t) :
    debugPattern.MatchString ("/__debug".toList ++ tail) = true := by
  have h := debugPattern_matches_root ("/__debug".toList ++ tail).length tail ht
  unfold Re.MatchString
  have e : "/__debug".toList ++ tail = '/' :: ("__debug".toList ++ tail) := rfl
  rw [e] at h ⊢
  rw [Re.searchFrom, h]
  rfl

/-- `Init` stops with the error of `validate` at the first endpoint that
`validate` rejects, when the configuration cut before that endpoint compiles. -/
theorem Init_fails_at (U : UnicodeTables) (rp : Int) (s s0 : ServiceConfig)
    (pre post : List EndpointConfig) (e : EndpointConfig) (err : InitError)
    (hs : s.Endpoints = pre ++ e :: post)
    (hpre : Init U rp { s with Endpoints := pre } = .done s0)
    (hv : validate { e with Endpoint := cleanPath e.Endpoint } = some err) :
    Init U rp s = .failed
      { s0 with Endpoints := s0.Endpoints ++ { e with Endpoint := cleanPath e.Endpoint } :: post }
      err := by
  obtain ⟨g1, g2, g3, g4, g5, g6, g7, hall⟩ := Init_done U rp _ s0 hpre
  simp only at g1 g2 g3 g4 g5 g6 g7 hall
  rw [Init_eq U rp s g1, g2]
  dsimp only
  have hloop := initEndpoints_append_failed U rp (loopState s s0.Host) e _ post err
    (initEndpoint_invalid U rp _ e err hv) pre s0.Endpoints
    (hall.imp (fun a b hab => by
      rw [initEndpoint_congr U rp (loopState s s0.Host) { s0 with Endpoints := pre } a rfl
        g3.symm g4.symm]
      exact hab))
  rw [hs, hloop]
  dsimp only
  congr 1
  cases s0
  simp only [loopState] at *
  simp [g3, g4, g5, g6, g7]


/-- Counterexample to claim C15 as stated, in three configurations of version 1
holding an endpoint under the debug root: with an empty host string `Init`
panics; behind an endpoint without backends `Init` returns the zero-backends
error of that endpoint; and a sub-path with a line feed is compiled. -/
theorem Init_rejects_debug_counterexample :
    Init asciiTables ColonRouterPatternBuilder debugBadHostConfig = .panicked ∧
    (∃ st, Init asciiTables ColonRouterPatternBuilder debugSecondConfig
      = .failed st (.noBackends "/c".toList)) ∧
    Init asciiTables ColonRouterPatternBuilder debugLineFeedConfig = .done debugLineFeedCompiled :=
  ⟨by decide, ⟨_, rfl⟩, by decide⟩

/-- Claim C15, amended. When the configuration cut before an endpoint compiles
(so the version is 1, the hosts are well formed and every earlier endpoint
compiles) and the cleaned path of the endpoint is `/__debug`, or `/__debug/`
followed by characters other than a line feed, `Init` returns the error
beginning `ERROR: the endpoint url path [`, whether or not the endpoint has
backends, the reserved-path check coming first. -/
theorem Init_rejects_debug (U : UnicodeTables) (rp : Int) (s s0 : ServiceConfig)
    (pre post : List EndpointConfig) (e : EndpointConfig) (tail : Str)
    (hs : s.Endpoints = pre ++ e :: post)
    (hpre : Init U rp { s with Endpoints := pre } = .done s0)
    (hp : cleanPath e.Endpoint = "/__debug".toList ++ tail)
    (ht : tail = [] ∨ ∃ t, tail = '/' :: t ∧ '\n' ∉ t) :
    Init U rp s = .failed
      { s0 with Endpoints := s0.Endpoints ++ { e with Endpoint := cleanPath e.Endpoint } :: post }
      (.invalidPath (cleanPath e.Endpoint)) ∧
    "ERROR: the endpoint url path [".toList <+: (InitError.invalidPath (cleanPath e.Endpoint)).Error := by
  refine ⟨Init_fails_at U rp s s0 pre post e _ hs hpre ?_, ⟨_, by simp only [InitError.Error, List.append_assoc]; rfl⟩⟩
  unfold validate
  simp only
  rw [hp, debugPattern_MatchString_root tail ht, if_pos rfl]

/-- Witness of claim C15 (amended): `/__debug/foo`, with a backend, behind an
endpoint that compiles. -/
theorem Init_rejects_debug_witness :
    ∃ st, Init asciiTables ColonRouterPatternBuilder debugAfterConfig
        = .failed st (.invalidPath "/__debug/foo".toList) ∧
      "ERROR: the endpoint url path [".toList
        <+: (InitError.invalidPath "/__debug/foo".toList).Error :=
  have h := Init_rejects_debug asciiTables ColonRouterPatternBuilder debugAfterConfig
    { failingConfigLeft with Endpoints := failingConfigLeft.Endpoints.take 1 }
    [{ Endpoint := "a".toList, Backend := [{ URLPattern := "b".toList }] }] []
    { Endpoint := "__debug/foo".toList, Backend := [{ URLPattern := "/".toList }] }
    "/foo".toList rfl (by decide) (by decide) (Or.inr ⟨"foo".toList, rfl, by decide⟩)
  ⟨_, h.1, h.2⟩

/-- Claim C16 (the code departs from it). The endpoint `/a/__debug`, with a
backend, has a cleaned path that is not `/__debug` and does not begin with
`/__debug/`, yet `validate` rejects it as an invalid path, and so does `Init`
on the version-1 configuration holding it: the second alternative of
`debugPattern` is not anchored at the beginning of the path. -/
theorem validate_rejects_inner_debug :
    cleanPath innerDebugEndpoint.Endpoint = "/a/__debug".toList ∧
    cleanPath innerDebugEndpoint.Endpoint ≠ "/__debug".toList ∧
    ¬ "/__debug/".toList <+: cleanPath innerDebugEndpoint.Endpoint ∧
    innerDebugEndpoint.Backend.length = 1 ∧
    validate { innerDebugEndpoint with Endpoint := cleanPath innerDebugEndpoint.Endpoint }
      = some (.invalidPath "/a/__debug".toList) ∧
    Init asciiTables ColonRouterPatternBuilder { Version := 1, Endpoints := [innerDebugEndpoint] }
      = .failed { Version := 1, Port := 8080, Endpoints := [innerDebugEndpoint] }
          (.invalidPath "/a/__debug".toList) ∧
    "ERROR: the endpoint url path [/a/__debug]".toList
      <+: (InitError.invalidPath "/a/__debug".toList).Error := by
  decide

/-- An endpoint that passes `validate` can still stop `Init`: in
`mappingFirstConfig` the first endpoint passes `validate` and the second, `/b`
without backends, is the first that `validate` rejects; `Init` returns the
error of `initBackendURLMappings` for the first endpoint, which does not
begin with `WARNING`. -/
theorem Init_mapping_error_first :
    validate { Endpoint := "/a".toList, Backend := [{ URLPattern := "/{x}".toList }] } = none ∧
    validate { Endpoint := "/b".toList } = some (.noBackends "/b".toList) ∧
    (∃ st, Init asciiTables ColonRouterPatternBuilder mappingFirstConfig
      = .failed st (.tooManyOutput ["x".toList] ["x".toList])) ∧
    ¬ "WARNING".toList <+: (InitError.tooManyOutput ["x".toList] ["x".toList]).Error :=
  ⟨by decide, by decide, ⟨_, rfl⟩, by decide⟩

/-- The second branch of `validate` inside `Init`: when the configuration cut
before an endpoint compiles, the reserved-path pattern does not match the
cleaned path of the endpoint and the endpoint has no backend, `Init` returns
the zero-backends error of that endpoint. -/
theorem Init_no_backends_unmatched (U : UnicodeTables) (rp : Int) (s s0 : ServiceConfig)
    (pre post : List EndpointConfig) (e : EndpointConfig)
    (hs : s.Endpoints = pre ++ e :: post)
    (hpre : Init U rp { s with Endpoints := pre } = .done s0)
    (hd : debugPattern.MatchString (cleanPath e.Endpoint) = false)
    (hb : e.Backend = []) :
    Init U rp s = .failed
      { s0 with Endpoints := s0.Endpoints ++ { e with Endpoint := cleanPath e.Endpoint } :: post }
      (.noBackends (cleanPath e.Endpoint)) ∧
    "WARNING: the [".toList ++ cleanPath e.Endpoint ++ "] endpoint has 0 backends defined!".toList
      <+: (InitError.noBackends (cleanPath e.Endpoint)).Error := by
  refine ⟨Init_fails_at U rp s s0 pre post e _ hs hpre ?_, ⟨" Ignoring\n".toList, ?_⟩⟩
  · unfold validate
    simp only [hd, hb, List.length_nil, if_true, Bool.false_eq_true, if_false]
  · simp only [InitError.Error, List.append_assoc]
    rfl

theorem initEndpointDefaults_path (U : UnicodeTables) (s : ServiceConfig) (e : EndpointConfig)
    (p : Str) :
    initEndpointDefaults U s { e with Endpoint := p }
      = { initEndpointDefaults U s e with Endpoint := p } := by
  simp only [initEndpointDefaults, NONE]
  by_cases h1 : e.Method = [] <;> by_cases h2 : s.CacheTTL = 0 <;> by_cases h2b : e.CacheTTL = 0 <;>
    by_cases h3 : s.Timeout = 0 <;> by_cases h3b : e.Timeout = 0 <;>
    by_cases h4 : e.ConcurrentCalls = 0 <;>
    simp [h1, h2, h2b, h3, h3b, h4]

/-- The backend defaults read the method, the timeout and the concurrency of
the endpoint, not its path. -/
theorem initBackendDefaults_path (U : UnicodeTables) (s : ServiceConfig) (e : EndpointConfig)
    (p : Str) (b : Backend) :
    initBackendDefaults U s { e with Endpoint := p } b = initBackendDefaults U s e b := by
  unfold initBackendDefaults
  rfl

theorem initBackends_path (U : UnicodeTables) (s : ServiceConfig) (e : EndpointConfig)
    (p : Str) (inputSet : List Str) :
    ∀ bs, initBackends U s { e with Endpoint := p } inputSet bs = initBackends U s e inputSet bs := by
  intro bs
  induction bs with
  | nil => rfl
  | cons b bs ih => rw [initBackends, initBackends, ih, initBackendDefaults_path]

/-- The loop body under two strategies: the same outcome apart from the path
of the endpoint. -/
theorem initEndpoint_strategy (U : UnicodeTables) (rp rp2 : Int) (s : ServiceConfig)
    (e : EndpointConfig) :
    (initEndpoint U rp s e).map EndpointConfig.withoutPath
      = (initEndpoint U rp2 s e).map EndpointConfig.withoutPath := by
  unfold initEndpoint
  simp only
  cases hv : validate { e with Endpoint := cleanPath e.Endpoint } with
  | some err => rfl
  | none =>
    simp only [initEndpointDefaults_path, initBackends_path]
    cases initBackends U s (initEndpointDefaults U s e)
        (extractPlaceHoldersFromURLTemplate (cleanPath e.Endpoint) endpointURLKeysPattern)
        (initEndpointDefaults U s e).Backend <;> rfl

/-- Two outcomes that agree after a change of value are of the same kind, with
the same error. -/
theorem Outcome.map_eq_cases {σ τ : Type} (f : σ → τ) (a b : Outcome σ)
    (h : a.map f = b.map f) :
    (a = .panicked ∧ b = .panicked) ∨
    (∃ x y err, a = .failed x err ∧ b = .failed y err ∧ f x = f y) ∨
    (∃ x y, a = .done x ∧ b = .done y ∧ f x = f y) := by
  cases a with
  | panicked =>
    cases b with
    | panicked => exact Or.inl ⟨rfl, rfl⟩
    | failed y e => simp [Outcome.map] at h
    | done y => simp [Outcome.map] at h
  | failed x e =>
    cases b with
    | panicked => simp [Outcome.map] at h
    | failed y e2 =>
      simp only [Outcome.map, Outcome.failed.injEq] at h
      obtain ⟨h1, h2⟩ := h
      subst h2
      exact Or.inr (Or.inl ⟨x, y, e, rfl, rfl, h1⟩)
    | done y => simp [Outcome.map] at h
  | done x =>
    cases b with
    | panicked => simp [Outcome.map] at h
    | failed y e => simp [Outcome.map] at h
    | done y =>
      simp only [Outcome.map, Outcome.done.injEq] at h
      exact Or.inr (Or.inr ⟨x, y, rfl, rfl, h⟩)

theorem initEndpoints_strategy (U : UnicodeTables) (rp rp2 : Int) (s : ServiceConfig) :
    ∀ es, (initEndpoints U rp s es).map (List.map EndpointConfig.withoutPath)
      = (initEndpoints U rp2 s es).map (List.map EndpointConfig.withoutPath) := by
  intro es
  induction es with
  | nil => rfl
  | cons e es ih =>
    rw [initEndpoints, initEndpoints]
    rcases Outcome.map_eq_cases _ _ _ (initEndpoint_strategy U rp rp2 s e) with
      ⟨h1, h2⟩ | ⟨x, y, err, h1, h2, he⟩ | ⟨x, y, h1, h2, he⟩
    · rw [h1, h2]
    · rw [h1, h2]
      simp only [Outcome.map, List.map_cons, he]
    · rw [h1, h2]
      rcases Outcome.map_eq_cases _ _ _ ih with
        ⟨h3, h4⟩ | ⟨xs, ys, err, h3, h4, hs⟩ | ⟨xs, ys, h3, h4, hs⟩
      · rw [h3, h4]
      · rw [h3, h4]
        simp only [Outcome.map, List.map_cons, he, hs]
      · rw [h3, h4]
        simp only [Outcome.map, List.map_cons, he, hs]

/-- `Init` under two strategies: the same outcome apart from the paths of the
endpoints. -/
theorem Init_strategy (U : UnicodeTables) (rp rp2 : Int) (s : ServiceConfig) :
    (Init U rp s).map ServiceConfig.withoutPaths
      = (Init U rp2 s).map ServiceConfig.withoutPaths := by
  by_cases hv : s.Version = 1
  · rw [Init_eq U rp s hv, Init_eq U rp2 s hv]
    cases cleanHosts s.Host with
    | none => rfl
    | some hosts =>
      simp only
      rcases Outcome.map_eq_cases _ _ _
          (initEndpoints_strategy U rp rp2 (loopState s hosts) s.Endpoints) with
        ⟨h3, h4⟩ | ⟨xs, ys, err, h3, h4, hs⟩ | ⟨xs, ys, h3, h4, hs⟩
      · rw [h3, h4]
      · rw [h3, h4]
        simp only [Outcome.map, ServiceConfig.withoutPaths, hs]
      · rw [h3, h4]
        simp only [Outcome.map, ServiceConfig.withoutPaths, hs]
  · rw [Init_unsupported U rp s hv, Init_unsupported U rp2 s hv]

/-- Claim C21. For every configuration, `Init` under the colon strategy and
under the brace strategy give the same kind of outcome (panic, error or
success) with the same error and, once the `Endpoint` string of every endpoint
is blanked, the same configuration: so the service-level fields agree and the
backends of the endpoints, in order, are equal in every field (URLPattern,
URLKeys, hosts, method, timeout, concurrency, decoder). The `Endpoint` strings
do differ on `sampleConfig`. -/
theorem Init_strategy_frame (U : UnicodeTables) (s : ServiceConfig) :
    (Init U ColonRouterPatternBuilder s).map ServiceConfig.withoutPaths
      = (Init U BracketsRouterPatternBuilder s).map ServiceConfig.withoutPaths ∧
    (∀ a b : ServiceConfig,
      (Init U ColonRouterPatternBuilder s = .done a ∨
        ∃ err, Init U ColonRouterPatternBuilder s = .failed a err) →
      (Init U BracketsRouterPatternBuilder s = .done b ∨
        ∃ err, Init U BracketsRouterPatternBuilder s = .failed b err) →
      a.Timeout = b.Timeout ∧ a.CacheTTL = b.CacheTTL ∧ a.Host = b.Host ∧ a.Port = b.Port ∧
      a.Version = b.Version ∧ a.Debug = b.Debug ∧
      a.Endpoints.length = b.Endpoints.length ∧
      a.Endpoints.map (fun e => e.Backend) = b.Endpoints.map (fun e => e.Backend)) ∧
    Init asciiTables ColonRouterPatternBuilder sampleConfig
      ≠ Init asciiTables BracketsRouterPatternBuilder sampleConfig := by
  have h := Init_strategy U ColonRouterPatternBuilder BracketsRouterPatternBuilder s
  refine ⟨h, ?_, by decide⟩
  intro a b ha hb
  have hab : a.withoutPaths = b.withoutPaths := by
    rcases Outcome.map_eq_cases _ _ _ h with ⟨h1, _⟩ | ⟨x, y, err, h1, h2, hxy⟩ | ⟨x, y, h1, h2, hxy⟩
    · rw [h1] at ha
      rcases ha with ha | ⟨_, ha⟩ <;> exact absurd ha (by simp)
    · rw [h1] at ha
      rw [h2] at hb
      rcases ha with ha | ⟨_, ha⟩
      · exact absurd ha (by simp)
      rcases hb with hb | ⟨_, hb⟩
      · exact absurd hb (by simp)
      simp only [Outcome.failed.injEq] at ha hb
      rw [← ha.1, ← hb.1]
      exact hxy
    · rw [h1] at ha
      rw [h2] at hb
      rcases ha with ha | ⟨_, ha⟩
      swap
      · exact absurd ha (by simp)
      rcases hb with hb | ⟨_, hb⟩
      swap
      · exact absurd hb (by simp)
      simp only [Outcome.done.injEq] at ha hb
      rw [← ha, ← hb]
      exact hxy
  have he : a.Endpoints.map EndpointConfig.withoutPath = b.Endpoints.map EndpointConfig.withoutPath :=
    congrArg ServiceConfig.Endpoints hab
  have h1 : a.withoutPaths.Timeout = b.withoutPaths.Timeout := congrArg ServiceConfig.Timeout hab
  have h2 : a.withoutPaths.CacheTTL = b.withoutPaths.CacheTTL := congrArg ServiceConfig.CacheTTL hab
  have h3 : a.withoutPaths.Host = b.withoutPaths.Host := congrArg ServiceConfig.Host hab
  have h4 : a.withoutPaths.Port = b.withoutPaths.Port := congrArg ServiceConfig.Port hab
  have h5 : a.withoutPaths.Version = b.withoutPaths.Version := congrArg ServiceConfig.Version hab
  have h6 : a.withoutPaths.Debug = b.withoutPaths.Debug := congrArg ServiceConfig.Debug hab
  refine ⟨h1, h2, h3, h4, h5, h6, ?_, ?_⟩
  · have := congrArg List.length he
    simpa only [List.length_map] using this
  · have := congrArg (List.map fun e : EndpointConfig => e.Backend) he
    simpa only [List.map_map, Function.comp_def, EndpointConfig.withoutPath] using this

/-- Claim C22. Whenever `cleanHosts` returns, the result has the length of the
input and its element at each index is `cleanHost` of the input element at
that index; so the first host of the result is the cleaned first host of the
input. -/
theorem cleanHosts_order (hs cs : List Str) (h : cleanHosts hs = some cs) :
    cs.length = hs.length ∧
    (∀ (i : Nat) (hi : i < hs.length) (hc : i < cs.length),
      cleanHost (hs.get ⟨i, hi⟩) = some (cs.get ⟨i, hc⟩)) ∧
    hs.head?.bind cleanHost = cs.head? := by
  have hf := cleanHosts_some hs cs h
  refine ⟨hf.length_eq.symm, fun i hi hc => hf.get hi hc, ?_⟩
  cases hf with
  | nil => rfl
  | cons h1 _ => simpa using h1

/-- Witness of claim C22: the hosts of `TestConfig_cleanHosts` and the cleaned
hosts the test expects. -/
theorem cleanHosts_order_witness :
    cleanHosts sampleHosts = some sampleHostsCleaned ∧
    sampleHostsCleaned.length = sampleHosts.length ∧
    (∀ (i : Nat) (hi : i < sampleHosts.length) (hc : i < sampleHostsCleaned.length),
      cleanHost (sampleHosts.get ⟨i, hi⟩) = some (sampleHostsCleaned.get ⟨i, hc⟩)) ∧
    sampleHosts.head?.bind cleanHost = sampleHostsCleaned.head? :=
  ⟨by decide, cleanHosts_order sampleHosts sampleHostsCleaned (by decide)⟩

/-- The backend loop panics only on a backend whose own hosts `cleanHosts` rejects. -/
theorem initBackends_returns (U : UnicodeTables) (s : ServiceConfig) (e : EndpointConfig)
    (inputSet : List Str) :
    ∀ bs : List Backend, (∀ b ∈ bs, cleanHosts b.Host ≠ none) →
      initBackends U s e inputSet bs ≠ .panicked := by
  intro bs
  induction bs with
  | nil => intro _ h; simp [initBackends] at h
  | cons b bs ih =>
    intro hb
    have hb1 : cleanHosts b.Host ≠ none := hb b (List.mem_cons_self _ _)
    have ih2 := ih (fun x hx => hb x (List.mem_cons_of_mem _ hx))
    rw [initBackends]
    cases hd : initBackendDefaults U s e b with
    | none =>
      exfalso
      by_cases hh : b.Host.length = 0
      · simp [initBackendDefaults, hh] at hd
      · cases hc : cleanHosts b.Host with
        | none => exact hb1 hc
        | some cs => simp [initBackendDefaults, hh, hc] at hd
    | some b1 =>
      simp only
      cases hm : initBackendURLMappings U { b1 with Method := strings.ToTitle U b1.Method } inputSet with
      | mk b2 oe =>
        cases oe with
        | some err => simp
        | none =>
          simp only
          cases hr : initBackends U s e inputSet bs with
          | panicked => exact absurd hr ih2
          | failed x err => simp
          | done x => simp

theorem initEndpoint_returns (U : UnicodeTables) (rp : Int) (s : ServiceConfig)
    (e : EndpointConfig) (hb : ∀ b ∈ e.Backend, cleanHosts b.Host ≠ none) :
    initEndpoint U rp s e ≠ .panicked := by
  unfold initEndpoint
  simp only
  cases hv : validate { e with Endpoint := cleanPath e.Endpoint } with
  | some err => simp
  | none =>
    simp only
    generalize getEndpointPath rp (cleanPath e.Endpoint)
      (extractPlaceHoldersFromURLTemplate (cleanPath e.Endpoint) endpointURLKeysPattern) = p
    have hB := (initEndpointDefaults_fields U s { e with Endpoint := p }).2.2.2.2.1
    have hr := initBackends_returns U s (initEndpointDefaults U s { e with Endpoint := p })
      (extractPlaceHoldersFromURLTemplate (cleanPath e.Endpoint) endpointURLKeysPattern)
      (initEndpointDefaults U s { e with Endpoint := p }).Backend (by rw [hB]; exact hb)
    revert hr
    cases initBackends U s (initEndpointDefaults U s { e with Endpoint := p })
      (extractPlaceHoldersFromURLTemplate (cleanPath e.Endpoint) endpointURLKeysPattern)
      (initEndpointDefaults U s { e with Endpoint := p }).Backend with
    | panicked => intro hr; exact absurd rfl hr
    | failed x err => intro _; simp
    | done x => intro _; simp

theorem initEndpoints_returns (U : UnicodeTables) (rp : Int) (s : ServiceConfig) :
    ∀ es : List EndpointConfig, (∀ e ∈ es, ∀ b ∈ e.Backend, cleanHosts b.Host ≠ none) →
      initEndpoints U rp s es ≠ .panicked := by
  intro es
  induction es with
  | nil => intro _ h; simp [initEndpoints] at h
  | cons e es ih =>
    intro hb
    have h1 := initEndpoint_returns U rp s e (hb e (List.mem_cons_self _ _))
    have h2 := ih (fun x hx => hb x (List.mem_cons_of_mem _ hx))
    rw [initEndpoints]
    cases he : initEndpoint U rp s e with
    | panicked => exact absurd he h1
    | failed x err => simp
    | done x =>
      simp only
      cases hr : initEndpoints U rp s es with
      | panicked => exact absurd hr h2
      | failed y err => simp
      | done y => simp

/-- `Init` panics only on a malformed host: when `cleanHosts` accepts the hosts
of the service and the hosts of every backend, `Init` returns. -/
theorem Init_returns (U : UnicodeTables) (rp : Int) (s : ServiceConfig)
    (hh : cleanHosts s.Host ≠ none)
    (hb : ∀ e ∈ s.Endpoints, ∀ b ∈ e.Backend, cleanHosts b.Host ≠ none) :
    Init U rp s ≠ .panicked := by
  by_cases hv : s.Version = 1
  · rw [Init_eq U rp s hv]
    cases hc : cleanHosts s.Host with
    | none => exact absurd hc hh
    | some hosts =>
      simp only
      have h := initEndpoints_returns U rp (loopState s hosts) s.Endpoints hb
      cases hr : initEndpoints U rp (loopState s hosts) s.Endpoints with
      | panicked => exact absurd hr h
      | failed y err => simp
      | done y => simp
  · rw [Init_unsupported U rp s hv]
    simp

/-- When `Init` on a version 1 configuration does not panic, it returns with
the port defaulted. -/
theorem Init_port (U : UnicodeTables) (rp : Int) (s : ServiceConfig) (hv : s.Version = 1)
    (hp : Init U rp s ≠ .panicked) :
    ∃ st, (Init U rp s = .done st ∨ ∃ err, Init U rp s = .failed st err) ∧
      st.Port = if s.Port = 0 then 8080 else s.Port := by
  rw [Init_eq U rp s hv] at hp ⊢
  cases hc : cleanHosts s.Host with
  | none => rw [hc] at hp; exact absurd rfl hp
  | some hosts =>
    rw [hc] at hp
    simp only at hp ⊢
    cases he : initEndpoints U rp (loopState s hosts) s.Endpoints with
    | panicked => rw [he] at hp; exact absurd rfl hp
    | failed es err => exact ⟨_, Or.inr ⟨err, rfl⟩, rfl⟩
    | done es => exact ⟨_, Or.inl rfl, rfl⟩

/-- Claim C18. If `Version` is not 1, `Init` returns the error whose message is
`Unsupported version: ` followed by the decimal version (and a line feed),
leaving the configuration alone. If `Version` is 1 and `Init` does not panic
(it panics only on a malformed host), `Init` returns, with or without an
error, and `Port` is then 8080 if it was 0 and as configured otherwise. -/
theorem Init_version_port (U : UnicodeTables) (rp : Int) (s : ServiceConfig)
    (hp : s.Version = 1 → Init U rp s ≠ .panicked) :
    (s.Version ≠ 1 →
      Init U rp s = .failed s (.unsupportedVersion s.Version) ∧
      (InitError.unsupportedVersion s.Version).Error
        = "Unsupported version: ".toList ++ (toString s.Version).toList ++ "\n".toList) ∧
    (s.Version = 1 →
      ∃ st, (Init U rp s = .done st ∨ ∃ err, Init U rp s = .failed st err) ∧
        st.Port = if s.Port = 0 then 8080 else s.Port) ∧
    (InitError.unsupportedVersion 0).Error = "Unsupported version: 0\n".toList :=
  ⟨fun hv => ⟨Init_unsupported U rp s hv, rfl⟩, fun hv => Init_port U rp s hv (hp hv), by decide⟩

/-- Witness of claim C18: `sampleConfig`, of version 1 without a port, compiles
and ends with port 8080; `failingConfig` with port 9090 returns an error and
keeps port 9090; a configuration of version 2 is refused. -/
theorem Init_version_port_witness :
    (∃ st, Init asciiTables ColonRouterPatternBuilder sampleConfig = .done st ∧ st.Port = 8080) ∧
    (∃ st err, Init asciiTables ColonRouterPatternBuilder { failingConfig with Port := 9090 }
        = .failed st err ∧ st.Port = 9090) ∧
    Init asciiTables ColonRouterPatternBuilder { Version := 2 }
      = .failed { Version := 2 } (.unsupportedVersion 2) := by
  have h1 : Init asciiTables ColonRouterPatternBuilder sampleConfig = .done sampleCompiled := by
    decide
  have h2 : Init asciiTables ColonRouterPatternBuilder { failingConfig with Port := 9090 }
      = .failed { failingConfigLeft with Port := 9090 } (.noBackends "/c".toList) := by
    decide
  refine ⟨?_, ?_, ?_⟩
  · obtain ⟨st, hst, hport⟩ :=
      (Init_version_port asciiTables ColonRouterPatternBuilder sampleConfig
        (fun _ => by decide)).2.1 (by decide)
    rcases hst with h | ⟨err, h⟩
    · exact ⟨st, h, hport⟩
    · rw [h1] at h
      exact absurd h (by simp)
  · obtain ⟨st, hst, hport⟩ :=
      (Init_version_port asciiTables ColonRouterPatternBuilder { failingConfig with Port := 9090 }
        (fun _ => by decide)).2.1 (by decide)
    rcases hst with h | ⟨err, h⟩
    · rw [h2] at h
      exact absurd h (by simp)
    · exact ⟨st, err, h, hport⟩
  · exact ((Init_version_port asciiTables ColonRouterPatternBuilder { Version := 2 }
      (fun h => absurd h (by decide))).1 (by decide)).1

/-- After `/__debug`, a text that begins with a character other than a slash
cannot be matched by the rest of the reserved-path pattern. -/
theorem debugPattern_tail_none (total : Nat) (c : Char) (t : Str) (caps : Nat → Str)
    (hc : c ≠ '/') :
    Re.run total
      (.cat (.opt (.grp 1 (.cat (Re.lit '/') (.rep (fun c => c != '\n') 0 none)))) .eot)
      (c :: t) caps = [] := by
  rw [Re.run_cat, Re.run_opt, Re.run_grp, Re.run_cat, Re.run_lit_cons, if_neg hc]
  simp [Re.run]

theorem debugPattern_matchAt_none (total : Nat) (s : Str)
    (h1 : s.length = total → s = [] ∨ ∃ t, s = '/' :: t)
    (h2 : debugSegmentHere s = false) :
    debugPattern.matchAt total s = none := by
  have hA : Re.run total (.cat .bot (.chr (fun c => c != '/'))) s noCaps = [] := by
    rw [Re.run_cat]
    by_cases hl : s.length = total
    · rcases h1 hl with rfl | ⟨t, rfl⟩ <;> simp [Re.run]
    · simp [Re.run, hl]
  have hB : Re.run total
      (.cat (Re.str "/__debug".toList)
        (.cat (.opt (.grp 1 (.cat (Re.lit '/') (.rep (fun c => c != '\n') 0 none)))) .eot))
      s noCaps = [] := by
    rw [Re.run_cat, Re.run_str]
    by_cases hp : "/__debug".toList <+: s
    · rw [if_pos hp]
      have hp2 : "/__debug".toList.isPrefixOf s = true := List.isPrefixOf_iff_prefix.2 hp
      unfold debugSegmentHere at h2
      rw [hp2, Bool.true_and] at h2
      have hlen : "/__debug".toList.length = 8 := rfl
      rw [hlen]
      cases hd : s.drop 8 with
      | nil => rw [hd] at h2; simp at h2
      | cons c t =>
        rw [hd] at h2
        have hc : c ≠ '/' := by simpa using h2
        simp only [List.flatMap_cons, List.flatMap_nil, List.append_nil, hd]
        rw [debugPattern_tail_none total c t noCaps hc]
        rfl
    · rw [if_neg hp]
      rfl
  unfold Re.matchAt debugPattern
  rw [Re.run_alt, hA, hB]
  rfl

theorem debugPattern_searchFrom_none (total : Nat) :
    ∀ s : Str, s.length ≤ total → (s.length = total → s = [] ∨ ∃ t, s = '/' :: t) →
      hasDebugSegment s = false → debugPattern.searchFrom total s = false := by
  intro s
  induction s with
  | nil =>
    intro _ h1 _
    rw [Re.searchFrom, debugPattern_matchAt_none total [] h1 rfl]
    rfl
  | cons c t ih =>
    intro hl h1 h2
    rw [hasDebugSegment, Bool.or_eq_false_iff] at h2
    rw [Re.searchFrom, debugPattern_matchAt_none total (c :: t) h1 h2.1]
    have hlt : t.length < total := by simpa using hl
    rw [ih (by omega) (fun h => absurd h (by omega)) h2.2]
    rfl

/-- The reserved-path pattern matches no cleaned path without a `__debug` segment. -/
theorem debugPattern_MatchString_plain (p : Str) (h : hasDebugSegment (cleanPath p) = false) :
    debugPattern.MatchString (cleanPath p) = false := by
  unfold Re.MatchString
  exact debugPattern_searchFrom_none _ _ (le_refl _) (fun _ => Or.inr ⟨_, rfl⟩) h

/-- A path without a `__debug` segment is neither the debug root nor under it. -/
theorem hasDebugSegment_reserved (p : Str) (h : hasDebugSegment p = false) :
    p ≠ "/__debug".toList ∧ ¬ "/__debug/".toList <+: p := by
  constructor
  · rintro rfl
    exact absurd h (by decide)
  · rintro ⟨t, rfl⟩
    have : hasDebugSegment ("/__debug/".toList ++ t) = true := by
      have e : "/__debug/".toList ++ t = '/' :: ("__debug/".toList ++ t) := rfl
      rw [e, hasDebugSegment]
      have : debugSegmentHere ('/' :: ("__debug/".toList ++ t)) = true := by
        simp [debugSegmentHere, List.isPrefixOf]
      rw [this]
      rfl
    rw [this] at h
    exact absurd h (by simp)

/-- Where the zero-backends rule holds: when the configuration cut before an
endpoint compiles (so the version is 1, the hosts are well formed and every
earlier endpoint compiles), the endpoint has no backend and no segment of its
cleaned path `P` is `__debug` (so that `P` is neither the debug root nor under
it), `Init` returns the error beginning
`WARNING: the [P] endpoint has 0 backends defined!`. -/
theorem Init_no_backends_plain (U : UnicodeTables) (rp : Int) (s s0 : ServiceConfig)
    (pre post : List EndpointConfig) (e : EndpointConfig)
    (hs : s.Endpoints = pre ++ e :: post)
    (hpre : Init U rp { s with Endpoints := pre } = .done s0)
    (hseg : hasDebugSegment (cleanPath e.Endpoint) = false)
    (hb : e.Backend = []) :
    Init U rp s = .failed
      { s0 with Endpoints := s0.Endpoints ++ { e with Endpoint := cleanPath e.Endpoint } :: post }
      (.noBackends (cleanPath e.Endpoint)) ∧
    "WARNING: the [".toList ++ cleanPath e.Endpoint ++ "] endpoint has 0 backends defined!".toList
      <+: (InitError.noBackends (cleanPath e.Endpoint)).Error ∧
    cleanPath e.Endpoint ≠ "/__debug".toList ∧
    ¬ "/__debug/".toList <+: cleanPath e.Endpoint :=
  have h := Init_no_backends_unmatched U rp s s0 pre post e hs hpre
    (debugPattern_MatchString_plain e.Endpoint hseg) hb
  ⟨h.1, h.2, hasDebugSegment_reserved _ hseg⟩

/-- The zero-backends rule on the endpoint `c` of `failingConfig`, behind an
endpoint that compiles. -/
theorem Init_no_backends_plain_example :
    ∃ st, Init asciiTables ColonRouterPatternBuilder failingConfig
        = .failed st (.noBackends "/c".toList) ∧
      "WARNING: the [/c] endpoint has 0 backends defined!".toList
        <+: (InitError.noBackends "/c".toList).Error :=
  have h := Init_no_backends_plain asciiTables ColonRouterPatternBuilder failingConfig
    { failingConfigLeft with Endpoints := failingConfigLeft.Endpoints.take 1 }
    [{ Endpoint := "a".toList, Backend := [{ URLPattern := "b".toList }] }] []
    { Endpoint := "c".toList } rfl (by decide) (by decide) rfl
  ⟨_, h.1, h.2.1⟩

/-- Claim C17 (the code departs from it). `innerDebugBareConfig` is of version
1 with a well formed host, and its only endpoint, so the first that fails, has
no backend and the cleaned path `/a/__debug`, which is neither `/__debug` nor
under `/__debug/`. `Init` does not return the error beginning
`WARNING: the [/a/__debug] endpoint has 0 backends defined!`: `validate` tests
the reserved-path pattern first, the pattern is not anchored at the beginning
of the path, and `Init` returns the invalid-path error, beginning `ERROR`. -/
theorem Init_no_backends_inner_debug :
    innerDebugBareConfig.Version = 1 ∧
    cleanHosts innerDebugBareConfig.Host = some ["http://supu".toList] ∧
    innerDebugBareConfig.Endpoints = [{ Endpoint := "/a/__debug".toList, Backend := [] }] ∧
    cleanPath "/a/__debug".toList = "/a/__debug".toList ∧
    cleanPath "/a/__debug".toList ≠ "/__debug".toList ∧
    ¬ "/__debug/".toList <+: cleanPath "/a/__debug".toList ∧
    validate { Endpoint := cleanPath "/a/__debug".toList, Backend := [] }
      = some (.invalidPath "/a/__debug".toList) ∧
    Init asciiTables ColonRouterPatternBuilder innerDebugBareConfig
      = .failed { innerDebugBareConfig with Port := 8080, Host := ["http://supu".toList] }
          (.invalidPath "/a/__debug".toList) ∧
    (InitError.invalidPath "/a/__debug".toList).Error
      = "ERROR: the endpoint url path [/a/__debug] is not a valid one!!! Ignoring\n".toList ∧
    ¬ "WARNING".toList <+: (InitError.invalidPath "/a/__debug".toList).Error := by
  decide

end Config
